import Mathlib

set_option maxHeartbeats 1000000

namespace PathViz

/-!
Shallow embedding of the maze-generation and A*-search core of the
Pathfinder-Visualization program (`A_star.py`).

Conventions of the embedding:
* machine integers are `ℕ`/`ℤ`; the wall masks are natural numbers `< 16`
  manipulated with `&&&`/`^^^` exactly as the Python `&= ~d` does on 4-bit masks;
* Python `list`/`array` values become `List` with `getD`/`set`; every access the
  program performs is in range in the situations the theorems cover, so the
  `getD` defaults are never observable there;
* the two `while` loops (maze carving, search loop) are modelled with explicit
  fuel; fuel exhaustion is an extra `none`/`fuelOut` outcome that is proved
  unreachable for the fuel the top-level wrappers supply, which models the
  termination of the Python loops;
* `random.choice(candidates)` is modelled by an arbitrary choice oracle
  `ch : ℕ → ℕ`, read as "at loop iteration t, pick candidate `ch t % len`";
  quantifying over `ch` covers every sequence of random choices;
* the Python generator's `yield`s become an explicit list of `Event`s, and the
  two distinct textual return points of the search loop are reported through the
  `Outcome` component of the result (goal popped / open set exhausted).
-/

/-- A cell's wall mask: bitflags N=1, S=2, E=4, W=8, bit set = wall present. -/
abbrev Grid := List (List ℕ)

abbrev Cell := ℕ × ℕ

/-- In-bounds predicate for a cell. -/
def InB (rows cols : ℕ) (v : Cell) : Prop := v.1 < rows ∧ v.2 < cols

instance (rows cols : ℕ) (v : Cell) : Decidable (InB rows cols v) := by
  unfold InB; infer_instance

/-- Flattened index `r * cols + c` of a cell. -/
def flat (cols : ℕ) (v : Cell) : ℕ := v.1 * cols + v.2

/-- `rows, cols = len(grid), len(grid[0])` as read by `_astar_steps`. -/
def gridCols (grid : Grid) : ℕ := (grid.getD 0 []).length

/-- The grid really is a `rows × cols` table. -/
def GridWF (grid : Grid) (rows cols : ℕ) : Prop :=
  grid.length = rows ∧ ∀ row ∈ grid, row.length = cols

/-- `OPPOSITE` from the source: N↔S, E↔W. -/
def OPPOSITE (d : ℕ) : ℕ :=
  if d = 1 then 2 else if d = 2 then 1 else if d = 4 then 8 else 4

/-- `grid[r][c]` (all-walls default for out-of-range, never hit in covered runs). -/
def gridGet (grid : Grid) (r c : ℕ) : ℕ := (grid.getD r []).getD c 15

/-- `grid[r][c] = m`. -/
def gridSet (grid : Grid) (r c m : ℕ) : Grid := grid.set r ((grid.getD r []).set c m)

/-- `grid[r][c] &= ~d` for a 4-bit direction flag `d`. -/
def clearWall (grid : Grid) (r c d : ℕ) : Grid :=
  gridSet grid r c (gridGet grid r c &&& (15 ^^^ d))

/-- `visited[r][c]`. -/
def visGet (vis : List (List Bool)) (r c : ℕ) : Bool := (vis.getD r []).getD c false

/-- `visited[r][c] = b`. -/
def visSet (vis : List (List Bool)) (r c : ℕ) (b : Bool) : List (List Bool) :=
  vis.set r ((vis.getD r []).set c b)

/-- State of the iterative recursive-backtracker loop in `generate_maze`:
the wall grid, the visited table, the DFS stack (top of the Python list is the
head here), and the count of loop iterations so far (feeds the choice oracle). -/
structure MState where
  grid : Grid
  visited : List (List Bool)
  stack : List Cell
  t : ℕ
deriving DecidableEq

/-- The unvisited in-bounds geometric neighbours of `(r, c)` together with the
direction flag leading to them, in the source's `DIRS` iteration order
N, S, E, W (the candidate list built at the top of the carving loop). -/
def candAt (vis : List (List Bool)) (rows cols r c : ℕ) : List (ℕ × ℕ × ℕ) :=
  (if 1 ≤ r ∧ visGet vis (r - 1) c = false then [(1, r - 1, c)] else []) ++
  (if r + 1 < rows ∧ visGet vis (r + 1) c = false then [(2, r + 1, c)] else []) ++
  (if c + 1 < cols ∧ visGet vis r (c + 1) = false then [(4, r, c + 1)] else []) ++
  (if 1 ≤ c ∧ visGet vis r (c - 1) = false then [(8, r, c - 1)] else [])

/-- One iteration of the carving loop, with `(r, c)` the stack top and `rest`
the remainder of the stack: either carve into a randomly chosen unvisited
neighbour and push it, or pop. -/
def carveStep (rows cols : ℕ) (ch : ℕ → ℕ) (st : MState) (r c : ℕ)
    (rest : List Cell) : MState :=
  let cand := candAt st.visited rows cols r c
  if cand = [] then
    { st with stack := rest, t := st.t + 1 }
  else
    let pick := cand.getD (ch st.t % cand.length) (1, 0, 0)
    let d := pick.1
    let nr := pick.2.1
    let nc := pick.2.2
    { grid := clearWall (clearWall st.grid r c d) nr nc (OPPOSITE d),
      visited := visSet st.visited nr nc true,
      stack := (nr, nc) :: st.stack,
      t := st.t + 1 }

/-- The `while stack:` loop of `generate_maze`, fuelled. -/
def carve (rows cols : ℕ) (ch : ℕ → ℕ) : ℕ → MState → Option MState
  | fuel, st =>
    match st.stack with
    | [] => some st
    | (r, c) :: rest =>
      match fuel with
      | 0 => none
      | fuel' + 1 => carve rows cols ch fuel' (carveStep rows cols ch st r c rest)

/-- The initial carving state: all-wall grid, only `(0,0)` visited and stacked. -/
def initMState (rows cols : ℕ) : MState :=
  { grid := List.replicate rows (List.replicate cols 15),
    visited := visSet (List.replicate rows (List.replicate cols false)) 0 0 true,
    stack := [(0, 0)],
    t := 0 }

/-- Failure modes of `generate_maze`: the explicit `ValueError` on nonpositive
dimensions (the spec's `InvalidDimensions`), and the fuel-exhaustion marker of
the embedded loop (proved unreachable). -/
inductive MazeErr where
  | invalidDimensions
  | outOfFuel
deriving DecidableEq

/-- `generate_maze(rows, cols)` under choice oracle `ch`. -/
def generate_maze (rows cols : ℤ) (ch : ℕ → ℕ) :
    Except MazeErr (Grid × Cell × Cell) :=
  if rows ≤ 0 ∨ cols ≤ 0 then .error .invalidDimensions
  else
    let R := rows.toNat
    let C := cols.toNat
    match carve R C ch (2 * (R * C)) (initMState R C) with
    | some st => .ok (st.grid, (0, 0), (R - 1, C - 1))
    | none => .error .outOfFuel

/-! ## The A* search engine -/

/-- The `10**9` sentinel used to initialise `g`. -/
def INF : ℕ := 10 ^ 9

/-- The events yielded by `_astar_steps`, with their source payloads:
`("open_add", list)`, `("current", i)`, `("finish", (prev, cols, end_i,
expansions))`, `("branch", [i])`, `("closed_add", [i])`. -/
inductive Event where
  | open_add (cells : List ℕ)
  | current (i : ℕ)
  | finish (prev : List ℤ) (cols : ℕ) (endIdx : ℕ) (expansions : ℕ)
  | branch (cells : List ℕ)
  | closed_add (cells : List ℕ)
deriving DecidableEq

/-- Which of the two textual exits of the search loop terminated it: the
`return` after popping the goal, or falling off the emptied `while`; `fuelOut`
marks fuel exhaustion of the embedding (proved unreachable). -/
inductive Outcome where
  | goal
  | exhausted
  | fuelOut
deriving DecidableEq

/-- The mutable search state of `_astar_steps`. -/
structure AState where
  g : List ℕ
  prev : List ℤ
  heap : List (ℕ × ℕ × ℕ)
  counter : ℕ
  inOpen : List Bool
  closed : List Bool
  expansions : ℕ
deriving DecidableEq

/-- Strict lexicographic order on heap entries `(priority, counter, cell)`,
Python's tuple `<`. -/
def entryLt (a b : ℕ × ℕ × ℕ) : Bool :=
  if a.1 < b.1 then true
  else if b.1 < a.1 then false
  else if a.2.1 < b.2.1 then true
  else if b.2.1 < a.2.1 then false
  else decide (a.2.2 < b.2.2)

/-- The minimum entry of `x :: xs` under `entryLt`. -/
def heapMin (x : ℕ × ℕ × ℕ) (xs : List (ℕ × ℕ × ℕ)) : ℕ × ℕ × ℕ :=
  xs.foldl (fun m y => if entryLt y m then y else m) x

/-- `heapq.heappop`: remove and return the least entry of the heap (the heap is
modelled by its multiset of entries, kept as a list). -/
def popMin (h : List (ℕ × ℕ × ℕ)) :
    Option ((ℕ × ℕ × ℕ) × List (ℕ × ℕ × ℕ)) :=
  match h with
  | [] => none
  | x :: xs => some (heapMin x xs, (x :: xs).erase (heapMin x xs))

/-- `h_idx(a, b)`: Manhattan distance between flattened cells. -/
def h_idx (cols a b : ℕ) : ℕ :=
  Nat.dist (a / cols) (b / cols) + Nat.dist (a % cols) (b % cols)

/-- The local `relax(ni)` of `_astar_steps`, threading the `_open_add` batch. -/
def relax (cols endI i : ℕ) (st : AState) (acc : List ℕ) (ni : ℕ) :
    AState × List ℕ :=
  let tentative := st.g.getD i 0 + 1
  if tentative < st.g.getD ni 0 then
    let st1 := { st with g := st.g.set ni tentative, prev := st.prev.set ni (i : ℤ) }
    if st1.inOpen.getD ni false = false then
      ({ st1 with
          counter := st1.counter + 1,
          heap := st1.heap ++ [(tentative + h_idx cols ni endI, st1.counter + 1, ni)],
          inOpen := st1.inOpen.set ni true },
        acc ++ [ni])
    else (st1, acc)
  else (st, acc)

/-- The open-edge neighbour indices of flattened cell `i` (with
`r, c = divmod(i, cols)`), in the source's relaxation order E, W, S, N; the
source's later `exits` recount tests exactly the same four conditions, so
`exits = (nbrIdx …).length`. -/
def nbrIdx (grid : Grid) (rows cols i : ℕ) : List ℕ :=
  (if i % cols + 1 < cols ∧ gridGet grid (i / cols) (i % cols) &&& 4 = 0
    then [i + 1] else []) ++
  (if 1 ≤ i % cols ∧ gridGet grid (i / cols) (i % cols) &&& 8 = 0
    then [i - 1] else []) ++
  (if i / cols + 1 < rows ∧ gridGet grid (i / cols) (i % cols) &&& 2 = 0
    then [i + cols] else []) ++
  (if 1 ≤ i / cols ∧ gridGet grid (i / cols) (i % cols) &&& 1 = 0
    then [i - cols] else [])

/-- The neighbour-relaxation pass of one expansion of cell `i`: the source's
four guarded `relax(...)` calls, folding the state and the `_open_add` batch. -/
def expandFold (grid : Grid) (rows cols endI i : ℕ) (st : AState) : AState × List ℕ :=
  (nbrIdx grid rows cols i).foldl (fun p ni => relax cols endI i p.1 p.2 ni) (st, [])

/-- One iteration of the `while open_heap:` loop of `_astar_steps`: the yielded
events, the new state, and `some oc` when an exit (`return` after popping the
goal, or falling off the emptied `while`) terminates the loop this iteration. -/
def astarIter (grid : Grid) (rows cols endI : ℕ) (st : AState) :
    List Event × AState × Option Outcome :=
  match popMin st.heap with
  | none => ([Event.finish st.prev cols endI st.expansions], st, some .exhausted)
  | some (e, rest) =>
    let i := e.2.2
    let st1 := { st with heap := rest }
    if st1.closed.getD i false = true then
      ([], st1, none)
    else if i = endI then
      ([Event.current i, Event.finish st1.prev cols endI st1.expansions], st1, some .goal)
    else
      let st2 := { st1 with closed := st1.closed.set i true }
      let step := expandFold grid rows cols endI i st2
      let evOpen : List Event := if step.2 = [] then [] else [Event.open_add step.2]
      let st4 := { step.1 with expansions := step.1.expansions + 1 }
      let exits := (nbrIdx grid rows cols i).length
      let evClass : List Event :=
        if 3 ≤ exits then [Event.branch [i]] else [Event.closed_add [i]]
      (Event.current i :: (evOpen ++ evClass), st4, none)

/-- The `while open_heap:` loop of `_astar_steps`, fuelled (one fuel unit per
non-terminal iteration): the yielded events, the final state, and which exit
terminated the loop. -/
def astarLoop (grid : Grid) (rows cols endI : ℕ) : ℕ → AState → List Event × AState × Outcome
  | fuel, st =>
    let it := astarIter grid rows cols endI st
    match it.2.2 with
    | some oc => (it.1, it.2.1, oc)
    | none =>
      match fuel with
      | 0 => ([], st, .fuelOut)
      | fuel' + 1 =>
        let res := astarLoop grid rows cols endI fuel' it.2.1
        (it.1 ++ res.1, res.2.1, res.2.2)

/-- The initial search state set up by `_astar_steps` before the loop. -/
def astarInit (cols total sI eI : ℕ) : AState :=
  { g := (List.replicate total INF).set sI 0,
    prev := List.replicate total (-1),
    heap := [(h_idx cols sI eI, 0, sI)],
    counter := 0,
    inOpen := (List.replicate total false).set sI true,
    closed := List.replicate total false,
    expansions := 0 }

/-- The whole `_astar_steps(grid, start, end)` generator: the initial
`("open_add", [start_i])` yield followed by the loop.  The fuel `rows*cols`
bounds the number of loop iterations (each one pops an entry, and at most
`rows*cols` entries are ever pushed). -/
def astar_steps (grid : Grid) (s e : Cell) : List Event × AState × Outcome :=
  let rows := grid.length
  let cols := gridCols grid
  let total := rows * cols
  let sI := flat cols s
  let eI := flat cols e
  let res := astarLoop grid rows cols eI total (astarInit cols total sI eI)
  (Event.open_add [sI] :: res.1, res.2.1, res.2.2)

/-- The search state after (at most) `k` iterations of the loop of
`_astar_steps(grid, s, e)`; for `k` past termination this is the final state,
so the `astarStateAt … k` are exactly the states the stepped search reaches. -/
def astarStateAt (grid : Grid) (s e : Cell) (k : ℕ) : AState :=
  (astarLoop grid grid.length (gridCols grid) (flat (gridCols grid) e) k
    (astarInit (gridCols grid) (grid.length * gridCols grid)
      (flat (gridCols grid) s) (flat (gridCols grid) e))).2.1

/-- Termination measure of the search loop: queue size plus the number of
cells never yet pushed (`in_open` still false). -/
def muA (st : AState) : ℕ := st.heap.length + st.inOpen.count false

/-- Termination measure ingredient of the carving loop: unvisited cell count. -/
def unvisited (vis : List (List Bool)) : ℕ := (vis.map (fun row => row.count false)).sum

/-- The index chain walked by `_reconstruct_path_idx` (`end`-first, before the
final `reverse`), fuelled; `prev.length + 1` fuel covers every chain the search
can produce. -/
def reconChain (prev : List ℤ) : ℕ → ℤ → List ℕ
  | 0, _ => []
  | fuel + 1, cur =>
    if cur = -1 then []
    else cur.toNat :: reconChain prev fuel (prev.getD cur.toNat (-1))

/-- `_reconstruct_path_idx(prev, end_idx, cols)`. -/
def reconstruct_path_idx (prev : List ℤ) (endIdx cols : ℕ) : List Cell :=
  ((reconChain prev (prev.length + 1) (endIdx : ℤ)).reverse).map
    (fun i => (i / cols, i % cols))

/-! ## Spec-side graph notions (ground truth the claims compare against) -/

/-- `openTo grid rows cols a b`: the grid lets you step from `a` to `b`, i.e.
`b` is yielded by `_neighbors(grid, a)` (the E/W/S/N guards of the source, with
the source cell required in bounds, as `_neighbors` is only ever called on
in-bounds cells). -/
def openTo (grid : Grid) (rows cols : ℕ) (a b : Cell) : Prop :=
  a.1 < rows ∧ a.2 < cols ∧
  ((b.1 = a.1 ∧ b.2 = a.2 + 1 ∧ b.2 < cols ∧ gridGet grid a.1 a.2 &&& 4 = 0) ∨
   (b.1 = a.1 ∧ a.2 = b.2 + 1 ∧ gridGet grid a.1 a.2 &&& 8 = 0) ∨
   (b.2 = a.2 ∧ b.1 = a.1 + 1 ∧ b.1 < rows ∧ gridGet grid a.1 a.2 &&& 2 = 0) ∨
   (b.2 = a.2 ∧ a.1 = b.1 + 1 ∧ gridGet grid a.1 a.2 &&& 1 = 0))

instance (grid : Grid) (rows cols : ℕ) (a b : Cell) :
    Decidable (openTo grid rows cols a b) := by
  unfold openTo; infer_instance

/-- Modelled from the spec: a walk over the grid's open edges (the object a
breadth-first search explores); consecutive cells are joined by open edges and
all cells are in bounds.  `p.length - 1` is its number of moves. -/
def OpenWalk (grid : Grid) (rows cols : ℕ) (p : List Cell) : Prop :=
  p ≠ [] ∧ List.Chain' (openTo grid rows cols) p ∧ ∀ v ∈ p, InB rows cols v

/-- Modelled from the spec: a simple path (walk without repeated cells) from
`a` to `b`, the object the perfect-maze property counts. -/
def SimplePath (grid : Grid) (rows cols : ℕ) (a b : Cell) (p : List Cell) : Prop :=
  OpenWalk grid rows cols p ∧ p.head? = some a ∧ p.getLast? = some b ∧ p.Nodup

/-- The open-edge contribution of one cell: its open east edge and open south
edge (when their partner cell exists), so that each undirected edge of the grid
is counted exactly once, at its west/north endpoint. -/
def edgeTerm (grid : Grid) (rows cols r c : ℕ) : ℕ :=
  (if c + 1 < cols ∧ gridGet grid r c &&& 4 = 0 then 1 else 0) +
  (if r + 1 < rows ∧ gridGet grid r c &&& 2 = 0 then 1 else 0)

/-- The number of open edges of the grid. -/
def openEdgeCount (grid : Grid) (rows cols : ℕ) : ℕ :=
  ∑ p ∈ Finset.range rows ×ˢ Finset.range cols, edgeTerm grid rows cols p.1 p.2

/-- Geometric (4-neighbour) adjacency of two cells, ignoring walls. -/
def geomAdj (a b : Cell) : Prop :=
  (a.1 = b.1 ∧ (a.2 = b.2 + 1 ∨ b.2 = a.2 + 1)) ∨
  (a.2 = b.2 ∧ (a.1 = b.1 + 1 ∨ b.1 = a.1 + 1))

/-- Well-formedness of a carving state: the tables are `rows × cols` and the
stack holds in-bounds cells. -/
structure MWF (rows cols : ℕ) (st : MState) : Prop where
  visRows : st.visited.length = rows
  visCols : ∀ row ∈ st.visited, row.length = cols
  gridRows : st.grid.length = rows
  gridCols' : ∀ row ∈ st.grid, row.length = cols
  stackInB : ∀ v ∈ st.stack, v.1 < rows ∧ v.2 < cols

/-- Ghost data witnessing that the carved open edges form a forest of
parent links rooted at the origin, spanning exactly the visited cells:
`par v` is the cell the carver entered `v` from and `rank` is a visit order
(parents are visited earlier), with `B` a strict bound on used ranks. -/
structure CarveGhost (rows cols : ℕ) (st : MState) (par : Cell → Option Cell)
    (rank : Cell → ℕ) (B : ℕ) : Prop where
  parOrigin : par (0, 0) = none
  parDef : ∀ v u, par v = some u → InB rows cols v ∧ InB rows cols u ∧
    visGet st.visited v.1 v.2 = true ∧ visGet st.visited u.1 u.2 = true ∧
    geomAdj u v ∧ rank u < rank v
  parTotal : ∀ v, InB rows cols v → visGet st.visited v.1 v.2 = true → v ≠ (0, 0) →
    ∃ u, par v = some u
  edgeChar : ∀ a b, InB rows cols a → InB rows cols b →
    (openTo st.grid rows cols a b ↔ (par a = some b ∨ par b = some a))
  rankBound : ∀ v, visGet st.visited v.1 v.2 = true → rank v < B

/-- The loop invariant of the carving loop. -/
structure CarveInv (rows cols : ℕ) (st : MState) : Prop where
  wf : MWF rows cols st
  vis00 : visGet st.visited 0 0 = true
  stackNodup : st.stack.Nodup
  stackVis : ∀ v ∈ st.stack, visGet st.visited v.1 v.2 = true
  popClosure : ∀ v, InB rows cols v → visGet st.visited v.1 v.2 = true →
    v ∉ st.stack → ∀ w, InB rows cols w → geomAdj v w → visGet st.visited w.1 w.2 = true
  unvisMask : ∀ v : Cell, InB rows cols v → visGet st.visited v.1 v.2 = false →
    gridGet st.grid v.1 v.2 = 15
  maskLt : ∀ r c, gridGet st.grid r c < 16
  count : openEdgeCount st.grid rows cols + unvisited st.visited + 1 = rows * cols
  ghost : ∃ par rank B, CarveGhost rows cols st par rank B

/-- Well-formedness of a search state: the per-cell tables have one entry per
cell and queued entries hold in-range cell indices. -/
structure AWF (total : ℕ) (st : AState) : Prop where
  gLen : st.g.length = total
  prevLen : st.prev.length = total
  inOpenLen : st.inOpen.length = total
  closedLen : st.closed.length = total
  heapCells : ∀ x ∈ st.heap, x.2.2 < total

/-- The queue discipline of the search (the content of claim C10): every cell
occurs at most once in the queue, queued cells are never closed (so the
pop-time staleness check cannot fire), queued cells are marked `in_open`
(every push is guarded by `in_open`), and closed cells are marked `in_open`. -/
structure QueueInv (st : AState) : Prop where
  nodupCells : (st.heap.map (fun x => x.2.2)).Nodup
  notClosed : ∀ x ∈ st.heap, st.closed.getD x.2.2 false = false
  inOpenTrue : ∀ x ∈ st.heap, st.inOpen.getD x.2.2 false = true
  closedInOpen : ∀ v : ℕ, st.closed.getD v false = true → st.inOpen.getD v false = true

/-- The perfect-maze package: what C2 asserts of a generated grid. -/
structure PerfectMaze (grid : Grid) (rows cols : ℕ) : Prop where
  gw : GridWF grid rows cols
  rpos : 0 < rows
  cpos : 0 < cols
  sym : ∀ a b, openTo grid rows cols a b → openTo grid rows cols b a
  conn : ∀ v, InB rows cols v → ∃ p, SimplePath grid rows cols (0, 0) v p
  uniq : ∀ a b p q, SimplePath grid rows cols a b p → SimplePath grid rows cols a b q → p = q
  count : openEdgeCount grid rows cols = rows * cols - 1

/-- Modelled from the spec: a breadth-first shortest-path tree of the maze
rooted at `s` — parent pointers and exact shortest distances over the open
edges; on a perfect maze one exists and characterises the unique simple paths
from `s`. -/
structure SPTree (grid : Grid) (rows cols : ℕ) (s : Cell) (sp : Cell → Option Cell)
    (d : Cell → ℕ) : Prop where
  root : sp s = none
  droot : d s = 0
  parent : ∀ v, InB rows cols v → v ≠ s → ∃ u, sp v = some u ∧ InB rows cols u ∧
    openTo grid rows cols u v ∧ d v = d u + 1
  dich : ∀ u v, InB rows cols u → InB rows cols v → openTo grid rows cols u v →
    sp v = some u ∨ sp u = some v
  dbound : ∀ v, InB rows cols v → d v < rows * cols
  reach : ∀ v, InB rows cols v → ∃ p, OpenWalk grid rows cols p ∧ p.head? = some s ∧
    p.getLast? = some v ∧ p.length = d v + 1
  dmin : ∀ v p, InB rows cols v → OpenWalk grid rows cols p → p.head? = some s →
    p.getLast? = some v → d v + 1 ≤ p.length

/-- The search-loop invariant on perfect mazes: `g` entries are either the
`INF` sentinel or the exact tree distance from the start, the predecessor table
follows the shortest-path-tree parents (which are closed before their children
are discovered), queued cells are discovered, and closed cells are discovered. -/
structure TreeInv (rows cols : ℕ) (s : Cell) (sp : Cell → Option Cell) (d : Cell → ℕ)
    (st : AState) : Prop where
  gChar : ∀ v : Cell, InB rows cols v → st.g.getD (flat cols v) 0 = INF ∨
    st.g.getD (flat cols v) 0 = d v
  gs : st.g.getD (flat cols s) 0 = 0
  prevs : st.prev.getD (flat cols s) (-1) = -1
  prevChar : ∀ v : Cell, InB rows cols v → v ≠ s → st.g.getD (flat cols v) 0 ≠ INF →
    ∃ u, sp v = some u ∧ st.prev.getD (flat cols v) (-1) = (flat cols u : ℤ) ∧
      st.closed.getD (flat cols u) false = true
  heapFin : ∀ x ∈ st.heap, st.g.getD x.2.2 0 ≠ INF
  closedFin : ∀ v : Cell, InB rows cols v → st.closed.getD (flat cols v) false = true →
    st.g.getD (flat cols v) 0 ≠ INF

/-! ## Lemmas and theorems -/

theorem mem_ite_singleton {α : Type} {P : Prop} [Decidable P] {a x : α} :
    (a ∈ if P then [x] else ([] : List α)) ↔ P ∧ a = x := by
  split <;> simp_all

theorem getD_replicate {α : Type} (d x : α) (n k : ℕ) :
    (List.replicate n x).getD k d = if k < n then x else d := by
  induction n generalizing k with
  | zero => simp
  | succ n ih =>
    cases k with
    | zero => simp [List.replicate]
    | succ k => simpa [List.replicate, Nat.succ_lt_succ_iff] using ih k

theorem getD_set_self {α : Type} (l : List α) (i : ℕ) (x d : α) (h : i < l.length) :
    (l.set i x).getD i d = x := by
  induction l generalizing i with
  | nil => simp at h
  | cons b t ih =>
    cases i with
    | zero => simp
    | succ i => simpa using ih i (by simpa using h)

theorem getD_set_ne {α : Type} (l : List α) (i j : ℕ) (x d : α) (h : i ≠ j) :
    (l.set i x).getD j d = l.getD j d := by
  induction l generalizing i j with
  | nil => simp
  | cons b t ih =>
    cases i with
    | zero => cases j with
      | zero => exact absurd rfl h
      | succ j => simp
    | succ i => cases j with
      | zero => simp
      | succ j => simpa using ih i j (by omega)

theorem count_false_set_true (l : List Bool) (n : ℕ) (h : l.getD n false = false)
    (hn : n < l.length) : (l.set n true).count false + 1 = l.count false := by
  induction l generalizing n with
  | nil => simp at hn
  | cons b t ih =>
    cases n with
    | zero =>
      simp only [List.getD_cons_zero] at h
      subst h
      simp [List.count_cons]
    | succ n =>
      have := ih n (by simpa using h) (by simpa using hn)
      simp only [List.set_cons_succ, List.count_cons]
      omega

theorem carve_unfold_nil (rows cols : ℕ) (ch : ℕ → ℕ) (fuel : ℕ) (st : MState)
    (h : st.stack = []) : carve rows cols ch fuel st = some st := by
  cases fuel <;> (rw [carve]; rw [h])

theorem carve_unfold_cons (rows cols : ℕ) (ch : ℕ → ℕ) (fuel : ℕ) (st : MState)
    (r c : ℕ) (rest : List Cell) (h : st.stack = (r, c) :: rest) :
    carve rows cols ch (fuel + 1) st =
      carve rows cols ch fuel (carveStep rows cols ch st r c rest) := by
  rw [carve, h]

theorem carve_unfold_zero (rows cols : ℕ) (ch : ℕ → ℕ) (st : MState)
    (r c : ℕ) (rest : List Cell) (h : st.stack = (r, c) :: rest) :
    carve rows cols ch 0 st = none := by
  rw [carve, h]

theorem candAt_mem {vis : List (List Bool)} {rows cols r c d nr nc : ℕ}
    (h : (d, nr, nc) ∈ candAt vis rows cols r c) (hr : r < rows) (hc : c < cols) :
    nr < rows ∧ nc < cols ∧ visGet vis nr nc = false ∧
    ((d = 1 ∧ r = nr + 1 ∧ nc = c) ∨ (d = 2 ∧ nr = r + 1 ∧ nc = c) ∨
     (d = 4 ∧ nr = r ∧ nc = c + 1) ∨ (d = 8 ∧ nr = r ∧ c = nc + 1)) := by
  simp only [candAt, List.mem_append] at h
  rcases h with ((h | h) | h) | h <;>
    (rw [mem_ite_singleton] at h
     obtain ⟨⟨hP1, hP2⟩, hE⟩ := h
     injection hE with hd hE'
     injection hE' with hnr hnc
     subst hd; subst hnr; subst hnc
     exact ⟨by omega, by omega, hP2, by omega⟩)

theorem getD_mem_of_lt {α : Type} (l : List α) (k : ℕ) (d : α) (h : k < l.length) :
    l.getD k d ∈ l := by
  induction l generalizing k with
  | nil => simp at h
  | cons b t ih =>
    cases k with
    | zero => simp
    | succ k => simpa using Or.inr (ih k (by simpa using h))

theorem mem_set_cases {α : Type} {l : List α} {i : ℕ} {x a : α} (h : a ∈ l.set i x) :
    a ∈ l ∨ a = x := List.mem_or_eq_of_mem_set h

theorem visGet_visSet_ne (vis : List (List Bool)) (r c r' c' : ℕ) (b : Bool)
    (h : ¬(r' = r ∧ c' = c)) : visGet (visSet vis r c b) r' c' = visGet vis r' c' := by
  unfold visGet visSet
  by_cases hr : r' = r
  · subst hr
    have hc : c ≠ c' := by intro hc; exact h ⟨rfl, hc.symm⟩
    by_cases hlt : r' < vis.length
    · rw [getD_set_self _ _ _ _ (by simpa using hlt), getD_set_ne _ _ _ _ _ hc]
    · rw [List.set_eq_of_length_le (by omega)]
  · rw [getD_set_ne _ _ _ _ _ (fun hh => hr hh.symm)]

theorem visGet_visSet_self (vis : List (List Bool)) (r c : ℕ) (b : Bool)
    (hr : r < vis.length) (hc : c < (vis.getD r []).length) :
    visGet (visSet vis r c b) r c = b := by
  unfold visGet visSet
  rw [getD_set_self _ _ _ _ (by simpa using hr), getD_set_self _ _ _ _ hc]

theorem unvisited_visSet (vis : List (List Bool)) (r c : ℕ)
    (hr : r < vis.length) (hc : c < (vis.getD r []).length)
    (hv : visGet vis r c = false) :
    unvisited (visSet vis r c true) + 1 = unvisited vis := by
  unfold unvisited visSet
  unfold visGet at hv
  induction vis generalizing r with
  | nil => simp at hr
  | cons row t ih =>
    cases r with
    | zero =>
      simp only [List.getD_cons_zero] at hv hc ⊢
      simp only [List.set_cons_zero, List.map_cons, List.sum_cons]
      have := count_false_set_true row c hv hc
      omega
    | succ r =>
      simp only [List.getD_cons_succ] at hv hc ⊢
      simp only [List.set_cons_succ, List.map_cons, List.sum_cons]
      have := ih r (by simpa using hr) hc hv
      omega

theorem unvisited_replicate (rows cols : ℕ) :
    unvisited (List.replicate rows (List.replicate cols false)) = rows * cols := by
  unfold unvisited
  induction rows with
  | zero => simp
  | succ n ih =>
    simp only [List.replicate, List.map_cons, List.sum_cons, ih]
    have : (List.replicate cols false).count false = cols := by
      induction cols with
      | zero => simp
      | succ m ihm => simp [List.replicate, List.count_cons, ihm]
    rw [this]; ring

theorem clearWall_dims {grid : Grid} {rows cols : ℕ}
    (h1 : grid.length = rows) (h2 : ∀ row ∈ grid, row.length = cols)
    (r c dd : ℕ) (hr : r < rows) :
    (clearWall grid r c dd).length = rows ∧
    ∀ row ∈ clearWall grid r c dd, row.length = cols := by
  constructor
  · simp only [clearWall, gridSet, List.length_set]; exact h1
  · intro row hrow
    rcases mem_set_cases hrow with hrow | hrow
    · exact h2 row hrow
    · subst hrow
      rw [List.length_set]
      exact h2 _ (getD_mem_of_lt _ _ _ (by omega))

theorem visSet_dims {vis : List (List Bool)} {rows cols : ℕ}
    (h1 : vis.length = rows) (h2 : ∀ row ∈ vis, row.length = cols)
    (r c : ℕ) (hr : r < rows) (b : Bool) :
    (visSet vis r c b).length = rows ∧
    ∀ row ∈ visSet vis r c b, row.length = cols := by
  constructor
  · simp only [visSet, List.length_set]; exact h1
  · intro row hrow
    rcases mem_set_cases hrow with hrow | hrow
    · exact h2 row hrow
    · subst hrow
      rw [List.length_set]
      exact h2 _ (getD_mem_of_lt _ _ _ (by omega))

theorem carveStep_MWF {rows cols : ℕ} {ch : ℕ → ℕ} {st : MState} (hwf : MWF rows cols st)
    {r c : ℕ} {rest : List Cell} (hst : st.stack = (r, c) :: rest) :
    MWF rows cols (carveStep rows cols ch st r c rest) := by
  have hrc : r < rows ∧ c < cols := hwf.stackInB (r, c) (hst ▸ List.mem_cons_self _ _)
  unfold carveStep
  by_cases hcand : candAt st.visited rows cols r c = []
  · rw [if_pos hcand]
    exact ⟨hwf.visRows, hwf.visCols, hwf.gridRows, hwf.gridCols',
      fun v hv => hwf.stackInB v (hst ▸ List.mem_cons_of_mem _ hv)⟩
  · rw [if_neg hcand]
    set cand := candAt st.visited rows cols r c with hcnd
    have hlen : 0 < cand.length := by
      cases hc0 : cand with
      | nil => exact absurd hc0 hcand
      | cons a t => simp [hc0]
    have hmem : cand.getD (ch st.t % cand.length) (1, 0, 0) ∈ cand :=
      getD_mem_of_lt _ _ _ (Nat.mod_lt _ hlen)
    obtain ⟨hnr, hnc, hvis, _⟩ := candAt_mem hmem hrc.1 hrc.2
    have hvd := visSet_dims hwf.visRows hwf.visCols
      (cand.getD (ch st.t % cand.length) (1, 0, 0)).2.1
      (cand.getD (ch st.t % cand.length) (1, 0, 0)).2.2 hnr true
    have hg1 := clearWall_dims hwf.gridRows hwf.gridCols' r c
      (cand.getD (ch st.t % cand.length) (1, 0, 0)).1 hrc.1
    have hg2 := clearWall_dims hg1.1 hg1.2
      (cand.getD (ch st.t % cand.length) (1, 0, 0)).2.1
      (cand.getD (ch st.t % cand.length) (1, 0, 0)).2.2
      (OPPOSITE (cand.getD (ch st.t % cand.length) (1, 0, 0)).1) hnr
    refine ⟨hvd.1, hvd.2, hg2.1, hg2.2, ?_⟩
    intro v hv
    rcases (List.mem_cons).1 hv with hv | hv
    · subst hv; exact ⟨hnr, hnc⟩
    · exact hwf.stackInB v hv

theorem carve_isSome (rows cols : ℕ) (ch : ℕ → ℕ) :
    ∀ (fuel : ℕ) (st : MState), MWF rows cols st →
    2 * unvisited st.visited + st.stack.length ≤ fuel →
    (carve rows cols ch fuel st).isSome = true := by
  intro fuel
  induction fuel with
  | zero =>
    intro st hwf hm
    cases hst : st.stack with
    | nil => rw [carve_unfold_nil _ _ _ _ _ hst]; rfl
    | cons v rest =>
      rw [hst] at hm; simp at hm
  | succ fuel ih =>
    intro st hwf hm
    cases hst : st.stack with
    | nil => rw [carve_unfold_nil _ _ _ _ _ hst]; rfl
    | cons v rest =>
      obtain ⟨r, c⟩ := v
      rw [carve_unfold_cons _ _ _ _ _ r c rest hst]
      refine ih _ (carveStep_MWF hwf hst) ?_
      have hrc : r < rows ∧ c < cols := hwf.stackInB (r, c) (hst ▸ List.mem_cons_self _ _)
      rw [hst] at hm
      unfold carveStep
      by_cases hcand : candAt st.visited rows cols r c = []
      · rw [if_pos hcand]
        dsimp only
        simp only [List.length_cons] at hm
        omega
      · rw [if_neg hcand]
        set cand := candAt st.visited rows cols r c with hcnd
        have hlen : 0 < cand.length := by
          cases hc0 : cand with
          | nil => exact absurd hc0 hcand
          | cons a t => simp [hc0]
        have hmem : cand.getD (ch st.t % cand.length) (1, 0, 0) ∈ cand :=
          getD_mem_of_lt _ _ _ (Nat.mod_lt _ hlen)
        rcases hpick : cand.getD (ch st.t % cand.length) (1, 0, 0) with ⟨dd, nr, nc⟩
        rw [hpick] at hmem
        obtain ⟨hnr, hnc, hvis, _⟩ := candAt_mem hmem hrc.1 hrc.2
        have hdec := unvisited_visSet st.visited nr nc
          (by rw [hwf.visRows]; exact hnr)
          (by rw [hwf.visCols _ (getD_mem_of_lt _ _ _ (by rw [hwf.visRows]; exact hnr))]
              exact hnc) hvis
        dsimp only
        simp only [List.length_cons, hst]
        simp only [List.length_cons] at hm
        omega

/-- C8: `generate_maze` fails with `InvalidDimensions` exactly when `rows ≤ 0`
or `cols ≤ 0` (the check is the first thing the function does, before any state
exists), and for all positive dimensions and every choice sequence the call
succeeds. -/
theorem generate_maze_dims :
    (∀ (rows cols : ℤ) (ch : ℕ → ℕ),
      generate_maze rows cols ch = .error .invalidDimensions ↔ rows ≤ 0 ∨ cols ≤ 0) ∧
    (∀ (rows cols : ℤ) (ch : ℕ → ℕ), 0 < rows → 0 < cols →
      ∃ out, generate_maze rows cols ch = .ok out) := by
  have init_wf : ∀ R C : ℕ, 0 < R → 0 < C → MWF R C (initMState R C) := by
    intro R C hR hC
    constructor
    · simp [initMState, visSet]
    · intro row hrow
      rcases mem_set_cases hrow with hrow | hrow
      · exact (List.eq_of_mem_replicate hrow) ▸ List.length_replicate _ _
      · subst hrow
        rw [List.length_set]
        simp [List.getD, List.getElem?_replicate, hR]
    · simp [initMState]
    · intro row hrow
      exact (List.eq_of_mem_replicate hrow) ▸ List.length_replicate _ _
    · intro v hv
      simp only [initMState, List.mem_singleton] at hv
      subst hv; exact ⟨hR, hC⟩
  have init_meas : ∀ R C : ℕ, 0 < R → 0 < C →
      2 * unvisited (initMState R C).visited + (initMState R C).stack.length ≤ 2 * (R * C) := by
    intro R C hR hC
    have h1 : unvisited (visSet (List.replicate R (List.replicate C false)) 0 0 true) + 1
        = R * C := by
      have := unvisited_visSet (List.replicate R (List.replicate C false)) 0 0
        (by simpa using hR)
        (by simp [List.getD, List.getElem?_replicate, hR]; omega)
        (by simp [visGet, List.getD, List.getElem?_replicate, hR, hC])
      rw [unvisited_replicate] at this
      exact this
    simp only [initMState, List.length_singleton]
    omega
  have succeeds : ∀ (rows cols : ℤ) (ch : ℕ → ℕ), 0 < rows → 0 < cols →
      ∃ out, generate_maze rows cols ch = .ok out := by
    intro rows cols ch hr hc
    have hR : 0 < rows.toNat := by omega
    have hC : 0 < cols.toNat := by omega
    have := carve_isSome rows.toNat cols.toNat ch (2 * (rows.toNat * cols.toNat))
      (initMState rows.toNat cols.toNat) (init_wf _ _ hR hC) (init_meas _ _ hR hC)
    rw [Option.isSome_iff_exists] at this
    obtain ⟨st, hst⟩ := this
    refine ⟨(st.grid, (0, 0), (rows.toNat - 1, cols.toNat - 1)), ?_⟩
    unfold generate_maze
    rw [if_neg (by omega)]
    simp only [hst]
  constructor
  · intro rows cols ch
    constructor
    · intro h
      by_contra hnot
      push_neg at hnot
      obtain ⟨out, hout⟩ := succeeds rows cols ch (by omega) (by omega)
      rw [hout] at h
      exact Except.noConfusion h
    · intro h
      unfold generate_maze
      rw [if_pos h]
  · exact succeeds

/-- Witness for `generate_maze_dims`: at (0, 3) the failure-iff instance holds,
and at (1, 1) the positivity hypotheses hold and the call succeeds. -/
theorem generate_maze_dims_witness :
    (generate_maze 0 3 (fun _ => 0) = .error .invalidDimensions ↔ (0 : ℤ) ≤ 0 ∨ (3 : ℤ) ≤ 0) ∧
    (0 : ℤ) < 1 ∧ (0 : ℤ) < 1 ∧ ∃ out, generate_maze 1 1 (fun _ => 0) = .ok out :=
  ⟨generate_maze_dims.1 0 3 (fun _ => 0), by decide, by decide,
    generate_maze_dims.2 1 1 (fun _ => 0) (by decide) (by decide)⟩

/-! ### The priority queue: pop is the lexicographic minimum -/

theorem entryLt_iff (a b : ℕ × ℕ × ℕ) : entryLt a b = true ↔
    (a.1 < b.1 ∨ (a.1 = b.1 ∧ (a.2.1 < b.2.1 ∨ (a.2.1 = b.2.1 ∧ a.2.2 < b.2.2)))) := by
  unfold entryLt
  split_ifs <;> simp <;> omega

theorem entryLt_false_iff (a b : ℕ × ℕ × ℕ) : entryLt a b = false ↔
    ¬(a.1 < b.1 ∨ (a.1 = b.1 ∧ (a.2.1 < b.2.1 ∨ (a.2.1 = b.2.1 ∧ a.2.2 < b.2.2)))) := by
  rw [← entryLt_iff]
  cases entryLt a b <;> simp

theorem heapMin_mem (x : ℕ × ℕ × ℕ) (xs : List (ℕ × ℕ × ℕ)) : heapMin x xs ∈ x :: xs := by
  induction xs generalizing x with
  | nil => simp [heapMin]
  | cons y ys ih =>
    rw [heapMin, List.foldl_cons]
    have h := ih (if entryLt y x then y else x)
    rw [heapMin] at h
    rcases (List.mem_cons).1 h with h | h
    · rw [h]
      split <;> simp
    · simp [h]

theorem heapMin_min (x : ℕ × ℕ × ℕ) (xs : List (ℕ × ℕ × ℕ)) :
    ∀ y ∈ x :: xs, entryLt y (heapMin x xs) = false := by
  induction xs generalizing x with
  | nil =>
    intro y hy
    rw [List.mem_singleton] at hy
    subst hy
    rw [heapMin, List.foldl_nil, entryLt_false_iff]
    omega
  | cons z zs ih =>
    intro y hy
    rw [heapMin, List.foldl_cons]
    have ihz := ih (if entryLt z x then z else x)
    rw [heapMin] at ihz
    by_cases hzx : entryLt z x = true
    · rw [if_pos hzx] at ihz ⊢
      rcases (List.mem_cons).1 hy with hy | hy
      · have h1 := ihz z (List.mem_cons_self _ _)
        rw [entryLt_iff] at hzx
        rw [entryLt_false_iff] at h1 ⊢
        rw [hy]
        omega
      · exact ihz y hy
    · rw [if_neg hzx] at ihz ⊢
      rcases (List.mem_cons).1 hy with hy | hy
      · rw [hy]
        exact ihz x (List.mem_cons_self _ _)
      · rcases (List.mem_cons).1 hy with hy | hy
        · have h1 := ihz x (List.mem_cons_self _ _)
          rw [Bool.not_eq_true] at hzx
          rw [entryLt_false_iff] at h1 hzx ⊢
          rw [hy]
          omega
        · exact ihz y (List.mem_cons_of_mem _ hy)

theorem popMin_spec {h : List (ℕ × ℕ × ℕ)} {m : ℕ × ℕ × ℕ} {rest : List (ℕ × ℕ × ℕ)}
    (hp : popMin h = some (m, rest)) :
    m ∈ h ∧ rest = h.erase m ∧ ∀ y ∈ h, entryLt y m = false := by
  cases h with
  | nil => simp [popMin] at hp
  | cons x xs =>
    simp only [popMin, Option.some.injEq, Prod.mk.injEq] at hp
    obtain ⟨hm, hr⟩ := hp
    subst hm
    subst hr
    exact ⟨heapMin_mem x xs, rfl, heapMin_min x xs⟩

/-- C4: the search is a deterministic function of grid and endpoints — two runs
yield identical event streams — and the queue pops the least
(priority, insertion counter, cell) entry, so among equal priorities the
earlier-inserted (smaller counter) entry is popped first. -/
theorem astar_deterministic_and_tiebreak :
    (∀ (grid : Grid) (s e : Cell), astar_steps grid s e = astar_steps grid s e) ∧
    (∀ (h : List (ℕ × ℕ × ℕ)) (m : ℕ × ℕ × ℕ) (rest : List (ℕ × ℕ × ℕ)),
      popMin h = some (m, rest) → ∀ y ∈ h, y.1 = m.1 → m.2.1 ≤ y.2.1) := by
  refine ⟨fun _ _ _ => rfl, ?_⟩
  intro h m rest hp y hy hf
  have hlt := (popMin_spec hp).2.2 y hy
  rw [entryLt_false_iff] at hlt
  omega

/-- Witness for `astar_deterministic_and_tiebreak` on the concrete two-entry
heap with equal priorities 5 and counters 1 and 0: the counter-0 entry pops,
and the theorem's tie-break inequality is discharged at the counter-1 entry. -/
theorem astar_deterministic_and_tiebreak_witness :
    astar_steps [[15]] (0, 0) (0, 0) = astar_steps [[15]] (0, 0) (0, 0) ∧
    popMin [(5, 1, 3), (5, 0, 2)] = some ((5, 0, 2), [(5, 1, 3)]) ∧
    (5, 1, 3) ∈ [((5 : ℕ), (1 : ℕ), (3 : ℕ)), (5, 0, 2)] ∧ (5 : ℕ) = 5 ∧ (0 : ℕ) ≤ 1 :=
  ⟨astar_deterministic_and_tiebreak.1 [[15]] (0, 0) (0, 0), by decide, by decide, rfl,
    astar_deterministic_and_tiebreak.2 [(5, 1, 3), (5, 0, 2)] (5, 0, 2) [(5, 1, 3)]
      (by decide) (5, 1, 3) (by decide) rfl⟩

/-! ### The immediate-success case start == end -/

theorem popMin_singleton (x : ℕ × ℕ × ℕ) : popMin [x] = some (x, []) := by
  simp [popMin, heapMin, List.erase_cons_head]

theorem getD_replicate_same {α : Type} (n k : ℕ) (x : α) :
    (List.replicate n x).getD k x = x := by
  rw [getD_replicate]
  split <;> rfl

theorem reconChain_neg_one (prev : List ℤ) (fuel : ℕ) :
    reconChain prev fuel (-1) = [] := by
  cases fuel <;> simp [reconChain]

theorem flat_div (cols : ℕ) (v : Cell) (hc : v.2 < cols) : flat cols v / cols = v.1 := by
  have hc0 : 0 < cols := by omega
  unfold flat
  rw [Nat.mul_comm, Nat.mul_add_div hc0, Nat.div_eq_of_lt hc]
  omega

theorem flat_mod (cols : ℕ) (v : Cell) (hc : v.2 < cols) : flat cols v % cols = v.2 := by
  unfold flat
  rw [Nat.add_comm, Nat.add_mul_mod_self_right]
  exact Nat.mod_eq_of_lt hc

/-- C9: with start == end in bounds, the search emits exactly the initial
`open_add [start]`, then `current start`, then the terminal finish event with
0 expansions; the goal exit is taken (success, not an error) and the
reconstructed path is the single cell `start`. -/
theorem astar_start_eq_end (grid : Grid) (s : Cell) (hr : s.1 < grid.length)
    (hc : s.2 < gridCols grid) :
    (astar_steps grid s s).1 =
      [Event.open_add [flat (gridCols grid) s], Event.current (flat (gridCols grid) s),
       Event.finish (List.replicate (grid.length * gridCols grid) (-1)) (gridCols grid)
         (flat (gridCols grid) s) 0] ∧
    (astar_steps grid s s).2.2 = Outcome.goal ∧
    (astar_steps grid s s).2.1.expansions = 0 ∧
    reconstruct_path_idx (astar_steps grid s s).2.1.prev (flat (gridCols grid) s)
      (gridCols grid) = [s] := by
  have hiter : astarIter grid grid.length (gridCols grid) (flat (gridCols grid) s)
      (astarInit (gridCols grid) (grid.length * gridCols grid) (flat (gridCols grid) s)
        (flat (gridCols grid) s)) =
      ([Event.current (flat (gridCols grid) s),
        Event.finish (List.replicate (grid.length * gridCols grid) (-1)) (gridCols grid)
          (flat (gridCols grid) s) 0],
       { astarInit (gridCols grid) (grid.length * gridCols grid) (flat (gridCols grid) s)
          (flat (gridCols grid) s) with heap := [] }, some .goal) := by
    unfold astarIter astarInit
    rw [popMin_singleton]
    dsimp only
    rw [getD_replicate]
    rw [if_neg (by split <;> simp)]
    rw [if_pos rfl]
  have hrecon : reconstruct_path_idx (List.replicate (grid.length * gridCols grid) (-1))
      (flat (gridCols grid) s) (gridCols grid) = [s] := by
    unfold reconstruct_path_idx
    rw [List.length_replicate]
    rw [reconChain]
    rw [if_neg (by omega)]
    have htn : ((flat (gridCols grid) s : ℤ)).toNat = flat (gridCols grid) s := rfl
    rw [htn, getD_replicate_same, reconChain_neg_one]
    simp only [List.reverse_cons, List.reverse_nil, List.nil_append, List.map_cons,
      List.map_nil]
    rw [flat_div _ _ hc, flat_mod _ _ hc]
  unfold astar_steps astarLoop
  dsimp only
  rw [hiter]
  dsimp only
  exact ⟨rfl, rfl, rfl, hrecon⟩

/-! ### The shape of the terminal event (C3) -/

/-- C3 counterexample: the code's terminal event payload is
`(prev, cols, end_i, expansions)` — it carries the **column count** in the slot
the claim assigns to the goal index, and none of its four components is a
Boolean success flag (`Event.finish`, embedded from the source, has no such
field).  On the 1×2 open corridor `[[11, 7]]` the successful run ends with
`finish [-1, 0] 2 1 1` (second component `2` = cols, not the goal index `1`),
and on the fully walled grid `[[15, 15]]` the failing run ends with the
same-shaped `finish [-1, -1] 2 1 1`, flagless in both cases — refuting
`Finished(predecessor_table, end, expansions, success)` as stated. -/
theorem astar_finish_payload_counterexample :
    (astar_steps [[11, 7]] (0, 0) (0, 1)).1.getLast? =
      some (Event.finish [-1, 0] 2 1 1) ∧
    (astar_steps [[15, 15]] (0, 0) (0, 1)).1.getLast? =
      some (Event.finish [-1, -1] 2 1 1) ∧
    (2 : ℕ) ≠ 1 := by
  refine ⟨by decide, by decide, by decide⟩

/-! ### Endpoint validation (C7) -/

/-- C7 counterexample: there is no `InvalidEndpoint` validation: the
out-of-bounds start `(0, 2)` on the 2×2 grid `[[11, 5], [11, 6]]` (so
`cols = 2` and `(0, 2)` is out of bounds) is silently aliased — through its
flat index `0*2+2 = 2` — to the in-bounds cell `(1, 0)`, and the search runs
to a normal goal finish instead of failing at construction time. -/
theorem astar_no_endpoint_validation_counterexample :
    astar_steps [[11, 5], [11, 6]] (0, 2) (1, 1) =
      astar_steps [[11, 5], [11, 6]] (1, 0) (1, 1) ∧
    (astar_steps [[11, 5], [11, 6]] (0, 2) (1, 1)).2.2 = Outcome.goal ∧
    ¬ InB 2 2 (0, 2) := by
  exact ⟨rfl, by decide, by decide⟩

/-- C7 amended: the engine never validates its endpoints (no `InvalidEndpoint`
failure exists); it depends on them only through their flattened indices
`r*cols + c`, so any two endpoint pairs with equal flattened indices — in
particular an out-of-bounds endpoint aliasing an in-bounds cell — produce
identical runs. -/
theorem astar_no_endpoint_validation (grid : Grid) (s s' e e' : Cell)
    (hs : flat (gridCols grid) s = flat (gridCols grid) s')
    (he : flat (gridCols grid) e = flat (gridCols grid) e') :
    astar_steps grid s e = astar_steps grid s' e' := by
  unfold astar_steps
  dsimp only
  rw [hs, he]

/-- Witness for `astar_no_endpoint_validation` at the aliased pair
`(0, 2)`/`(1, 0)` on the 2×2 grid. -/
theorem astar_no_endpoint_validation_witness :
    flat (gridCols [[11, 5], [11, 6]]) (0, 2) = flat (gridCols [[11, 5], [11, 6]]) (1, 0) ∧
    flat (gridCols [[11, 5], [11, 6]]) (1, 1) = flat (gridCols [[11, 5], [11, 6]]) (1, 1) ∧
    astar_steps [[11, 5], [11, 6]] (0, 2) (1, 1) =
      astar_steps [[11, 5], [11, 6]] (1, 0) (1, 1) :=
  ⟨by decide, rfl,
    astar_no_endpoint_validation [[11, 5], [11, 6]] (0, 2) (1, 0) (1, 1) (1, 1)
      (by decide) rfl⟩

/-- Witness for `astar_start_eq_end` on the 1×1 grid with start = end = (0,0). -/
theorem astar_start_eq_end_witness :
    ((0, 0) : Cell).1 < ([[15]] : Grid).length ∧ ((0, 0) : Cell).2 < gridCols [[15]] ∧
    ((astar_steps [[15]] (0, 0) (0, 0)).1 =
      [Event.open_add [flat (gridCols [[15]]) (0, 0)],
       Event.current (flat (gridCols [[15]]) (0, 0)),
       Event.finish (List.replicate (([[15]] : Grid).length * gridCols [[15]]) (-1))
         (gridCols [[15]]) (flat (gridCols [[15]]) (0, 0)) 0] ∧
     (astar_steps [[15]] (0, 0) (0, 0)).2.2 = Outcome.goal ∧
     (astar_steps [[15]] (0, 0) (0, 0)).2.1.expansions = 0 ∧
     reconstruct_path_idx (astar_steps [[15]] (0, 0) (0, 0)).2.1.prev
       (flat (gridCols [[15]]) (0, 0)) (gridCols [[15]]) = [(0, 0)]) :=
  ⟨by decide, by decide, astar_start_eq_end [[15]] (0, 0) (by decide) (by decide)⟩

/-! ### Well-formedness and termination of the search loop -/

theorem count_false_replicate (n : ℕ) : (List.replicate n false).count false = n := by
  induction n with
  | zero => simp
  | succ m ih => simp [List.replicate, List.count_cons, ih]

theorem getD_set_true_mono (l : List Bool) (ni v : ℕ) (h : l.getD v false = true) :
    (l.set ni true).getD v false = true := by
  by_cases hv : ni = v
  · subst hv
    by_cases hlt : ni < l.length
    · rw [getD_set_self _ _ _ _ hlt]
    · rw [List.set_eq_of_length_le (by omega)]; exact h
  · rw [getD_set_ne _ _ _ _ _ hv]; exact h

theorem flat_lt {rows cols : ℕ} {v : Cell} (h : InB rows cols v) :
    flat cols v < rows * cols := by
  obtain ⟨h1, h2⟩ := h
  have key : (v.1 + 1) * cols ≤ rows * cols := Nat.mul_le_mul_right _ (by omega)
  have expand : (v.1 + 1) * cols = v.1 * cols + cols := by ring
  unfold flat
  omega

theorem nbrIdx_lt (grid : Grid) (rows cols i : ℕ) (hi : i < rows * cols) :
    ∀ ni ∈ nbrIdx grid rows cols i, ni < rows * cols := by
  intro ni hni
  have hc0 : 0 < cols := by
    rcases Nat.eq_zero_or_pos cols with h | h
    · rw [h, Nat.mul_zero] at hi; omega
    · exact h
  have hdm := Nat.div_add_mod i cols
  have hco : cols * (i / cols) = i / cols * cols := Nat.mul_comm _ _
  have hmod : i % cols < cols := Nat.mod_lt _ hc0
  have hdiv : i / cols < rows := by
    by_contra hcon
    push_neg at hcon
    have h1 : rows * cols ≤ (i / cols) * cols := Nat.mul_le_mul_right _ hcon
    omega
  have hup : (i / cols + 1) * cols ≤ rows * cols := Nat.mul_le_mul_right _ (by omega)
  have hup' : (i / cols + 1) * cols = i / cols * cols + cols := by ring
  simp only [nbrIdx, List.mem_append] at hni
  rcases hni with ((h | h) | h) | h <;> rw [mem_ite_singleton] at h <;>
    obtain ⟨⟨h1, _⟩, h2⟩ := h <;> subst h2
  · omega
  · omega
  · have h3 : (i / cols + 1 + 1) * cols ≤ rows * cols := Nat.mul_le_mul_right _ (by omega)
    have h4 : (i / cols + 1 + 1) * cols = i / cols * cols + cols + cols := by ring
    omega
  · omega

theorem getLast?_cons_of_some {α : Type} (a x : α) (l : List α) (h : l.getLast? = some x) :
    (a :: l).getLast? = some x := by
  cases l with
  | nil => simp at h
  | cons b t => rw [List.getLast?_cons_cons]; exact h

theorem relax_eq_of_no_update {cols endI i : ℕ} {st : AState} {acc : List ℕ} {ni : ℕ}
    (h : ¬ st.g.getD i 0 + 1 < st.g.getD ni 0) : relax cols endI i st acc ni = (st, acc) := by
  unfold relax
  rw [if_neg h]

theorem relax_eq_of_update_open {cols endI i : ℕ} {st : AState} {acc : List ℕ} {ni : ℕ}
    (h : st.g.getD i 0 + 1 < st.g.getD ni 0) (ho : st.inOpen.getD ni false = true) :
    relax cols endI i st acc ni =
      ({ st with g := st.g.set ni (st.g.getD i 0 + 1), prev := st.prev.set ni (i : ℤ) },
       acc) := by
  unfold relax
  rw [if_pos h]
  dsimp only
  rw [if_neg (by rw [ho]; simp)]

theorem relax_eq_of_update_push {cols endI i : ℕ} {st : AState} {acc : List ℕ} {ni : ℕ}
    (h : st.g.getD i 0 + 1 < st.g.getD ni 0) (ho : st.inOpen.getD ni false = false) :
    relax cols endI i st acc ni =
      ({ st with
          g := st.g.set ni (st.g.getD i 0 + 1)
          prev := st.prev.set ni (i : ℤ)
          counter := st.counter + 1
          heap := st.heap ++ [(st.g.getD i 0 + 1 + h_idx cols ni endI, st.counter + 1, ni)]
          inOpen := st.inOpen.set ni true },
       acc ++ [ni]) := by
  unfold relax
  rw [if_pos h]
  dsimp only
  rw [if_pos ho]

theorem relax_pres (cols endI i : ℕ) {total : ℕ} {st : AState} (acc : List ℕ) {ni : ℕ}
    (hni : ni < total) (hwf : AWF total st) (hq : QueueInv st) :
    AWF total (relax cols endI i st acc ni).1 ∧ QueueInv (relax cols endI i st acc ni).1 ∧
    muA (relax cols endI i st acc ni).1 = muA st ∧
    (relax cols endI i st acc ni).1.closed = st.closed ∧
    (∀ v, st.inOpen.getD v false = true →
      (relax cols endI i st acc ni).1.inOpen.getD v false = true) := by
  by_cases hg : st.g.getD i 0 + 1 < st.g.getD ni 0
  · cases ho : st.inOpen.getD ni false with
    | true =>
      rw [relax_eq_of_update_open hg ho]
      refine ⟨⟨?_, ?_, hwf.inOpenLen, hwf.closedLen, hwf.heapCells⟩,
        ⟨hq.nodupCells, hq.notClosed, hq.inOpenTrue, hq.closedInOpen⟩, rfl, rfl,
        fun v hv => hv⟩
      · dsimp only; rw [List.length_set]; exact hwf.gLen
      · dsimp only; rw [List.length_set]; exact hwf.prevLen
    | false =>
      rw [relax_eq_of_update_push hg ho]
      have hnotmem : ∀ x ∈ st.heap, x.2.2 ≠ ni := by
        intro x hx hxe
        have hcontra := hq.inOpenTrue x hx
        rw [hxe, ho] at hcontra
        exact Bool.noConfusion hcontra
      have hclni : st.closed.getD ni false = false := by
        cases hcl : st.closed.getD ni false with
        | false => rfl
        | true =>
          have hcontra := hq.closedInOpen ni hcl
          rw [ho] at hcontra
          exact Bool.noConfusion hcontra
      refine ⟨⟨?_, ?_, ?_, hwf.closedLen, ?_⟩, ⟨?_, ?_, ?_, ?_⟩, ?_, rfl, ?_⟩
      · dsimp only; rw [List.length_set]; exact hwf.gLen
      · dsimp only; rw [List.length_set]; exact hwf.prevLen
      · dsimp only; rw [List.length_set]; exact hwf.inOpenLen
      · intro x hx
        dsimp only at hx
        rcases List.mem_append.1 hx with hx | hx
        · exact hwf.heapCells x hx
        · rw [List.mem_singleton] at hx; subst hx; exact hni
      · dsimp only
        rw [List.map_append, List.nodup_append]
        refine ⟨hq.nodupCells, by simp, ?_⟩
        intro a ha hb
        rw [List.map_singleton, List.mem_singleton] at hb
        rw [List.mem_map] at ha
        obtain ⟨x, hx, hxe⟩ := ha
        exact hnotmem x hx (by rw [hxe, hb])
      · intro x hx
        dsimp only at hx ⊢
        rcases List.mem_append.1 hx with hx | hx
        · exact hq.notClosed x hx
        · rw [List.mem_singleton] at hx; subst hx; exact hclni
      · intro x hx
        dsimp only at hx ⊢
        rcases List.mem_append.1 hx with hx | hx
        · exact getD_set_true_mono _ _ _ (hq.inOpenTrue x hx)
        · rw [List.mem_singleton] at hx; subst hx
          exact getD_set_self _ _ _ _ (by rw [hwf.inOpenLen]; exact hni)
      · intro v hv
        dsimp only at hv ⊢
        exact getD_set_true_mono _ _ _ (hq.closedInOpen v hv)
      · unfold muA
        dsimp only
        rw [List.length_append, List.length_singleton]
        have hcnt := count_false_set_true st.inOpen ni ho (by rw [hwf.inOpenLen]; exact hni)
        omega
      · intro v hv
        dsimp only
        exact getD_set_true_mono _ _ _ hv
  · rw [relax_eq_of_no_update hg]
    exact ⟨hwf, hq, rfl, rfl, fun v hv => hv⟩

theorem foldl_relax_pres {cols endI i total : ℕ} :
    ∀ (l : List ℕ) (st : AState) (acc : List ℕ), AWF total st → QueueInv st →
      (∀ ni ∈ l, ni < total) →
      AWF total (l.foldl (fun p ni => relax cols endI i p.1 p.2 ni) (st, acc)).1 ∧
      QueueInv (l.foldl (fun p ni => relax cols endI i p.1 p.2 ni) (st, acc)).1 ∧
      muA (l.foldl (fun p ni => relax cols endI i p.1 p.2 ni) (st, acc)).1 = muA st ∧
      (l.foldl (fun p ni => relax cols endI i p.1 p.2 ni) (st, acc)).1.closed = st.closed ∧
      (∀ v, st.inOpen.getD v false = true →
        (l.foldl (fun p ni => relax cols endI i p.1 p.2 ni) (st, acc)).1.inOpen.getD v false
          = true) := by
  intro l
  induction l with
  | nil =>
    intro st acc hwf hq _
    exact ⟨hwf, hq, rfl, rfl, fun v hv => hv⟩
  | cons ni t ih =>
    intro st acc hwf hq hl
    rw [List.foldl_cons]
    obtain ⟨hw1, hq1, hmu1, hcl1, hmono1⟩ :=
      relax_pres cols endI i acc (hl ni (List.mem_cons_self _ _)) hwf hq
    obtain ⟨hw2, hq2, hmu2, hcl2, hmono2⟩ :=
      ih (relax cols endI i st acc ni).1 (relax cols endI i st acc ni).2 hw1 hq1
        (fun x hx => hl x (List.mem_cons_of_mem _ hx))
    rw [Prod.mk.eta] at hw2 hq2 hmu2 hcl2 hmono2
    refine ⟨hw2, hq2, by rw [hmu2, hmu1], by rw [hcl2, hcl1], ?_⟩
    intro v hv
    exact hmono2 v (hmono1 v hv)

theorem expandFold_pres (grid : Grid) {rows cols : ℕ} (endI : ℕ) {i total : ℕ} {st : AState}
    (hwf : AWF total st) (hq : QueueInv st)
    (hnb : ∀ ni ∈ nbrIdx grid rows cols i, ni < total) :
    AWF total (expandFold grid rows cols endI i st).1 ∧
    QueueInv (expandFold grid rows cols endI i st).1 ∧
    muA (expandFold grid rows cols endI i st).1 = muA st ∧
    (expandFold grid rows cols endI i st).1.closed = st.closed ∧
    (∀ v, st.inOpen.getD v false = true →
      (expandFold grid rows cols endI i st).1.inOpen.getD v false = true) :=
  foldl_relax_pres (nbrIdx grid rows cols i) st [] hwf hq hnb

theorem astarIter_eq_empty {grid : Grid} {rows cols endI : ℕ} {st : AState}
    (h : popMin st.heap = none) :
    astarIter grid rows cols endI st =
      ([Event.finish st.prev cols endI st.expansions], st, some .exhausted) := by
  unfold astarIter
  rw [h]

theorem astarIter_eq_stale {grid : Grid} {rows cols endI : ℕ} {st : AState}
    {m : ℕ × ℕ × ℕ} {rest : List (ℕ × ℕ × ℕ)} (h : popMin st.heap = some (m, rest))
    (hc : st.closed.getD m.2.2 false = true) :
    astarIter grid rows cols endI st = ([], { st with heap := rest }, none) := by
  unfold astarIter
  rw [h]
  dsimp only
  rw [if_pos hc]

theorem astarIter_eq_goal {grid : Grid} {rows cols endI : ℕ} {st : AState}
    {m : ℕ × ℕ × ℕ} {rest : List (ℕ × ℕ × ℕ)} (h : popMin st.heap = some (m, rest))
    (hc : st.closed.getD m.2.2 false = false) (he : m.2.2 = endI) :
    astarIter grid rows cols endI st =
      ([Event.current m.2.2, Event.finish st.prev cols endI st.expansions],
       { st with heap := rest }, some .goal) := by
  unfold astarIter
  rw [h]
  dsimp only
  rw [if_neg (by rw [hc]; simp), if_pos he]

theorem astarIter_eq_expand {grid : Grid} {rows cols endI : ℕ} {st : AState}
    {m : ℕ × ℕ × ℕ} {rest : List (ℕ × ℕ × ℕ)} (h : popMin st.heap = some (m, rest))
    (hc : st.closed.getD m.2.2 false = false) (he : ¬ m.2.2 = endI) :
    astarIter grid rows cols endI st =
      (Event.current m.2.2 ::
        ((if (expandFold grid rows cols endI m.2.2
              { st with heap := rest, closed := st.closed.set m.2.2 true }).2 = []
          then []
          else [Event.open_add (expandFold grid rows cols endI m.2.2
              { st with heap := rest, closed := st.closed.set m.2.2 true }).2]) ++
         (if 3 ≤ (nbrIdx grid rows cols m.2.2).length then [Event.branch [m.2.2]]
          else [Event.closed_add [m.2.2]])),
       { (expandFold grid rows cols endI m.2.2
            { st with heap := rest, closed := st.closed.set m.2.2 true }).1 with
         expansions := (expandFold grid rows cols endI m.2.2
            { st with heap := rest, closed := st.closed.set m.2.2 true }).1.expansions + 1 },
       none) := by
  unfold astarIter
  rw [h]
  dsimp only
  rw [if_neg (by rw [hc]; simp), if_neg he]

theorem astarIter_pres (grid : Grid) {rows cols : ℕ} (endI : ℕ) {st : AState}
    (hwf : AWF (rows * cols) st) (hq : QueueInv st) :
    AWF (rows * cols) (astarIter grid rows cols endI st).2.1 ∧
    QueueInv (astarIter grid rows cols endI st).2.1 ∧
    ((astarIter grid rows cols endI st).2.2 = none →
      muA (astarIter grid rows cols endI st).2.1 < muA st) ∧
    (∀ v, st.inOpen.getD v false = true →
      (astarIter grid rows cols endI st).2.1.inOpen.getD v false = true) ∧
    (∀ v, st.closed.getD v false = true →
      (astarIter grid rows cols endI st).2.1.closed.getD v false = true) := by
  cases hp : popMin st.heap with
  | none =>
    rw [astarIter_eq_empty hp]
    exact ⟨hwf, hq, by intro hcon; exact Option.noConfusion hcon, fun v hv => hv,
      fun v hv => hv⟩
  | some pr =>
    obtain ⟨m, rest⟩ := pr
    obtain ⟨hmem, hrest, -⟩ := popMin_spec hp
    subst hrest
    have hmu1 : (st.heap.erase m).length + 1 = st.heap.length := by
      rw [List.length_erase_of_mem hmem]
      have : 0 < st.heap.length := List.length_pos.2 (by
        intro hcon; rw [hcon] at hmem; exact (List.not_mem_nil m) hmem)
      omega
    have hwf1 : AWF (rows * cols) { st with heap := st.heap.erase m } :=
      ⟨hwf.gLen, hwf.prevLen, hwf.inOpenLen, hwf.closedLen,
       fun x hx => hwf.heapCells x (List.mem_of_mem_erase hx)⟩
    have hq1 : QueueInv { st with heap := st.heap.erase m } :=
      ⟨(hq.nodupCells).sublist (List.Sublist.map _ (List.erase_sublist _ _)),
       fun x hx => hq.notClosed x (List.mem_of_mem_erase hx),
       fun x hx => hq.inOpenTrue x (List.mem_of_mem_erase hx),
       hq.closedInOpen⟩
    cases hcl : st.closed.getD m.2.2 false with
    | true =>
      rw [astarIter_eq_stale hp hcl]
      refine ⟨hwf1, hq1, ?_, fun v hv => hv, fun v hv => hv⟩
      intro _
      unfold muA
      dsimp only
      omega
    | false =>
      by_cases he : m.2.2 = endI
      · rw [astarIter_eq_goal hp hcl he]
        exact ⟨hwf1, hq1, by intro hcon; exact Option.noConfusion hcon, fun v hv => hv,
          fun v hv => hv⟩
      · rw [astarIter_eq_expand hp hcl he]
        have hi : m.2.2 < rows * cols := hwf.heapCells m hmem
        have hcells : ∀ x ∈ st.heap.erase m, x.2.2 ≠ m.2.2 := by
          intro x hx
          have hxh : x ∈ st.heap := List.mem_of_mem_erase hx
          have hnd : st.heap.Nodup := (hq.nodupCells).of_map
          have hxne : x ≠ m := by
            intro hcon
            subst hcon
            exact (List.Nodup.not_mem_erase hnd) hx
          intro hcon
          exact hxne (List.inj_on_of_nodup_map hq.nodupCells hxh hmem hcon)
        have hwf2 : AWF (rows * cols)
            { st with heap := st.heap.erase m, closed := st.closed.set m.2.2 true } :=
          ⟨hwf.gLen, hwf.prevLen, hwf.inOpenLen, by
            dsimp only; rw [List.length_set]; exact hwf.closedLen,
           fun x hx => hwf.heapCells x (List.mem_of_mem_erase hx)⟩
        have hq2 : QueueInv
            { st with heap := st.heap.erase m, closed := st.closed.set m.2.2 true } := by
          refine ⟨hq1.nodupCells, ?_, hq1.inOpenTrue, ?_⟩
          · intro x hx
            dsimp only at hx ⊢
            rw [getD_set_ne _ _ _ _ _ (fun hcon => hcells x hx hcon.symm)]
            exact hq.notClosed x (List.mem_of_mem_erase hx)
          · intro v hv
            dsimp only at hv ⊢
            by_cases hvm : v = m.2.2
            · subst hvm
              exact hq.inOpenTrue m hmem
            · rw [getD_set_ne _ _ _ _ _ (fun hcon => hvm hcon.symm)] at hv
              exact hq.closedInOpen v hv
        obtain ⟨hw3, hq3, hmu3, hcl3, hmono3⟩ :=
          expandFold_pres grid endI hwf2 hq2 (nbrIdx_lt grid rows cols m.2.2 hi)
        refine ⟨⟨hw3.gLen, hw3.prevLen, hw3.inOpenLen, hw3.closedLen, hw3.heapCells⟩,
          ⟨hq3.nodupCells, ?_, hq3.inOpenTrue, ?_⟩, ?_, ?_, ?_⟩
        · intro x hx
          dsimp only at hx ⊢
          exact hq3.notClosed x hx
        · intro v hv
          dsimp only at hv ⊢
          have hv' : (expandFold grid rows cols endI m.2.2
              { st with heap := st.heap.erase m, closed := st.closed.set m.2.2 true
              }).1.closed.getD v false = true := hv
          exact hq3.closedInOpen v hv'
        · intro _
          have hmueq : muA (expandFold grid rows cols endI m.2.2
              { st with heap := st.heap.erase m, closed := st.closed.set m.2.2 true }).1 =
              muA { st with heap := st.heap.erase m, closed := st.closed.set m.2.2 true } :=
            hmu3
          unfold muA at hmueq ⊢
          dsimp only at hmueq ⊢
          omega
        · intro v hv
          dsimp only
          exact hmono3 v hv
        · intro v hv
          dsimp only
          rw [hcl3]
          dsimp only
          exact getD_set_true_mono _ _ _ hv

theorem astarIter_no_fuelOut {grid : Grid} {rows cols endI : ℕ} {st : AState} :
    (astarIter grid rows cols endI st).2.2 ≠ some .fuelOut := by
  unfold astarIter
  cases popMin st.heap with
  | none => simp
  | some pr =>
    obtain ⟨m, rest⟩ := pr
    dsimp only
    split_ifs <;> simp

theorem astarLoop_eq_term {grid : Grid} {rows cols endI fuel : ℕ} {st : AState}
    {oc : Outcome} (h : (astarIter grid rows cols endI st).2.2 = some oc) :
    astarLoop grid rows cols endI fuel st =
      ((astarIter grid rows cols endI st).1, (astarIter grid rows cols endI st).2.1, oc) := by
  rw [astarLoop.eq_def]
  dsimp only
  rw [h]

theorem astarLoop_eq_cont_zero {grid : Grid} {rows cols endI : ℕ} {st : AState}
    (h : (astarIter grid rows cols endI st).2.2 = none) :
    astarLoop grid rows cols endI 0 st = ([], st, .fuelOut) := by
  rw [astarLoop.eq_def]
  dsimp only
  rw [h]

theorem astarLoop_eq_cont {grid : Grid} {rows cols endI fuel : ℕ} {st : AState}
    (h : (astarIter grid rows cols endI st).2.2 = none) :
    astarLoop grid rows cols endI (fuel + 1) st =
      ((astarIter grid rows cols endI st).1 ++
        (astarLoop grid rows cols endI fuel (astarIter grid rows cols endI st).2.1).1,
       (astarLoop grid rows cols endI fuel (astarIter grid rows cols endI st).2.1).2.1,
       (astarLoop grid rows cols endI fuel (astarIter grid rows cols endI st).2.1).2.2) := by
  rw [astarLoop.eq_def]
  dsimp only
  rw [h]

theorem astarLoop_pres (grid : Grid) (rows cols endI : ℕ) :
    ∀ (fuel : ℕ) (st : AState), AWF (rows * cols) st → QueueInv st →
      AWF (rows * cols) (astarLoop grid rows cols endI fuel st).2.1 ∧
      QueueInv (astarLoop grid rows cols endI fuel st).2.1 ∧
      (muA st ≤ fuel → (astarLoop grid rows cols endI fuel st).2.2 ≠ .fuelOut) ∧
      (∀ v, st.closed.getD v false = true →
        (astarLoop grid rows cols endI fuel st).2.1.closed.getD v false = true) := by
  intro fuel
  induction fuel with
  | zero =>
    intro st hwf hq
    obtain ⟨hw1, hq1, hmu1, _, hclmono⟩ := astarIter_pres grid endI hwf hq
    cases ho : (astarIter grid rows cols endI st).2.2 with
    | some oc =>
      rw [astarLoop_eq_term ho]
      refine ⟨hw1, hq1, ?_, hclmono⟩
      intro _
      dsimp only
      intro hcon
      subst hcon
      exact astarIter_no_fuelOut ho
    | none =>
      rw [astarLoop_eq_cont_zero ho]
      refine ⟨hwf, hq, ?_, fun v hv => hv⟩
      intro hle
      have := hmu1 ho
      omega
  | succ fuel ih =>
    intro st hwf hq
    obtain ⟨hw1, hq1, hmu1, _, hclmono⟩ := astarIter_pres grid endI hwf hq
    cases ho : (astarIter grid rows cols endI st).2.2 with
    | some oc =>
      rw [astarLoop_eq_term ho]
      refine ⟨hw1, hq1, ?_, hclmono⟩
      intro _
      dsimp only
      intro hcon
      subst hcon
      exact astarIter_no_fuelOut ho
    | none =>
      rw [astarLoop_eq_cont ho]
      obtain ⟨hw2, hq2, hmu2, hclmono2⟩ := ih (astarIter grid rows cols endI st).2.1 hw1 hq1
      refine ⟨hw2, hq2, ?_, ?_⟩
      · intro hle
        exact hmu2 (by have := hmu1 ho; omega)
      · intro v hv
        exact hclmono2 v (hclmono v hv)

theorem astarLoop_events (grid : Grid) (rows cols endI : ℕ) :
    ∀ (fuel : ℕ) (st : AState),
      (astarLoop grid rows cols endI fuel st).2.2 ≠ .fuelOut →
      (astarLoop grid rows cols endI fuel st).1.getLast? =
        some (Event.finish (astarLoop grid rows cols endI fuel st).2.1.prev cols endI
          (astarLoop grid rows cols endI fuel st).2.1.expansions) ∧
      ((astarLoop grid rows cols endI fuel st).2.2 = .goal ↔
        Event.current endI ∈ (astarLoop grid rows cols endI fuel st).1) := by
  intro fuel
  induction fuel with
  | zero =>
    intro st hno
    cases hp : popMin st.heap with
    | none =>
      rw [astarLoop_eq_term (by rw [astarIter_eq_empty hp])]
      rw [astarIter_eq_empty hp]
      simp
    | some pr =>
      obtain ⟨m, rest⟩ := pr
      cases hcl : st.closed.getD m.2.2 false with
      | true =>
        rw [astarLoop_eq_cont_zero (by rw [astarIter_eq_stale hp hcl])] at hno ⊢
        exact absurd rfl hno
      | false =>
        by_cases he : m.2.2 = endI
        · rw [astarLoop_eq_term (by rw [astarIter_eq_goal hp hcl he])]
          rw [astarIter_eq_goal hp hcl he]
          subst he
          simp
        · rw [astarLoop_eq_cont_zero (by rw [astarIter_eq_expand hp hcl he])] at hno ⊢
          exact absurd rfl hno
  | succ fuel ih =>
    intro st hno
    cases hp : popMin st.heap with
    | none =>
      rw [astarLoop_eq_term (by rw [astarIter_eq_empty hp])]
      rw [astarIter_eq_empty hp]
      simp
    | some pr =>
      obtain ⟨m, rest⟩ := pr
      cases hcl : st.closed.getD m.2.2 false with
      | true =>
        rw [astarLoop_eq_cont (by rw [astarIter_eq_stale hp hcl])] at hno ⊢
        rw [astarIter_eq_stale hp hcl] at hno ⊢
        dsimp only at hno ⊢
        simp only [List.nil_append]
        exact ih _ hno
      | false =>
        by_cases he : m.2.2 = endI
        · rw [astarLoop_eq_term (by rw [astarIter_eq_goal hp hcl he])]
          rw [astarIter_eq_goal hp hcl he]
          subst he
          simp
        · rw [astarLoop_eq_cont (by rw [astarIter_eq_expand hp hcl he])] at hno ⊢
          obtain ⟨ih1, ih2⟩ := ih (astarIter grid rows cols endI st).2.1 (by
            dsimp only at hno; exact hno)
          have hrecne : (astarLoop grid rows cols endI fuel
              (astarIter grid rows cols endI st).2.1).1 ≠ [] := by
            intro hcon
            rw [hcon] at ih1
            simp at ih1
          constructor
          · dsimp only
            rw [List.getLast?_append_of_ne_nil _ hrecne]
            exact ih1
          · dsimp only
            rw [List.mem_append]
            constructor
            · intro hgoal
              exact Or.inr (ih2.1 hgoal)
            · intro hmem
              rcases hmem with hmem | hmem
              · exfalso
                rw [astarIter_eq_expand hp hcl he] at hmem
                dsimp only at hmem
                rcases (List.mem_cons).1 hmem with hmem | hmem
                · exact he (Event.current.inj hmem).symm
                · rcases List.mem_append.1 hmem with hmem | hmem
                  · split at hmem <;> simp at hmem
                  · split at hmem <;> simp at hmem
              · exact ih2.2 hmem

theorem astarInit_pres (cols : ℕ) {total sI : ℕ} (eI : ℕ) (hs : sI < total) :
    AWF total (astarInit cols total sI eI) ∧ QueueInv (astarInit cols total sI eI) ∧
    muA (astarInit cols total sI eI) = total := by
  have hcnt := count_false_set_true (List.replicate total false) sI
    (getD_replicate_same _ _ _) (by rw [List.length_replicate]; exact hs)
  rw [count_false_replicate] at hcnt
  refine ⟨⟨?_, ?_, ?_, ?_, ?_⟩, ⟨?_, ?_, ?_, ?_⟩, ?_⟩
  · unfold astarInit; dsimp only; rw [List.length_set, List.length_replicate]
  · unfold astarInit; dsimp only; rw [List.length_replicate]
  · unfold astarInit; dsimp only; rw [List.length_set, List.length_replicate]
  · unfold astarInit; dsimp only; rw [List.length_replicate]
  · intro x hx
    unfold astarInit at hx; dsimp only at hx
    rw [List.mem_singleton] at hx
    subst hx
    exact hs
  · unfold astarInit; dsimp only
    simp
  · intro x hx
    unfold astarInit at hx ⊢; dsimp only at hx ⊢
    rw [List.mem_singleton] at hx
    subst hx
    exact getD_replicate_same _ _ _
  · intro x hx
    unfold astarInit at hx ⊢; dsimp only at hx ⊢
    rw [List.mem_singleton] at hx
    subst hx
    exact getD_set_self _ _ _ _ (by rw [List.length_replicate]; exact hs)
  · intro v hv
    unfold astarInit at hv; dsimp only at hv
    rw [getD_replicate_same] at hv
    exact Bool.noConfusion hv
  · unfold muA astarInit; dsimp only
    rw [List.length_singleton]
    omega

theorem astar_steps_eq (grid : Grid) (s e : Cell) :
    astar_steps grid s e =
      (Event.open_add [flat (gridCols grid) s] ::
        (astarLoop grid grid.length (gridCols grid) (flat (gridCols grid) e)
          (grid.length * gridCols grid)
          (astarInit (gridCols grid) (grid.length * gridCols grid) (flat (gridCols grid) s)
            (flat (gridCols grid) e))).1,
       (astarLoop grid grid.length (gridCols grid) (flat (gridCols grid) e)
          (grid.length * gridCols grid)
          (astarInit (gridCols grid) (grid.length * gridCols grid) (flat (gridCols grid) s)
            (flat (gridCols grid) e))).2.1,
       (astarLoop grid grid.length (gridCols grid) (flat (gridCols grid) e)
          (grid.length * gridCols grid)
          (astarInit (gridCols grid) (grid.length * gridCols grid) (flat (gridCols grid) s)
            (flat (gridCols grid) e))).2.2) := rfl

/-- C6: on any grid with in-bounds endpoints the search loop terminates after
finitely many iterations (the `rows*cols` fuel of the embedding is never
exhausted) in one of the two Finished emissions — goal popped or open set
exhausted — and the event stream indeed ends with that finish event. -/
theorem astar_terminates (grid : Grid) (s e : Cell)
    (hs : InB grid.length (gridCols grid) s) (he : InB grid.length (gridCols grid) e) :
    ((astar_steps grid s e).2.2 = Outcome.goal ∨
      (astar_steps grid s e).2.2 = Outcome.exhausted) ∧
    (astar_steps grid s e).1.getLast? =
      some (Event.finish (astar_steps grid s e).2.1.prev (gridCols grid)
        (flat (gridCols grid) e) (astar_steps grid s e).2.1.expansions) := by
  obtain ⟨hwf0, hq0, hmu0⟩ := astarInit_pres (gridCols grid) (flat (gridCols grid) e) (flat_lt hs)
  obtain ⟨-, -, hfuel, -⟩ := astarLoop_pres grid grid.length (gridCols grid) (flat (gridCols grid) e)
    (grid.length * gridCols grid)
    (astarInit (gridCols grid) (grid.length * gridCols grid) (flat (gridCols grid) s)
      (flat (gridCols grid) e)) hwf0 hq0
  have hno := hfuel (le_of_eq hmu0)
  obtain ⟨hlast, -⟩ := astarLoop_events grid grid.length (gridCols grid) (flat (gridCols grid) e)
    (grid.length * gridCols grid)
    (astarInit (gridCols grid) (grid.length * gridCols grid) (flat (gridCols grid) s)
      (flat (gridCols grid) e)) hno
  rw [astar_steps_eq]
  dsimp only
  constructor
  · cases hoc : (astarLoop grid grid.length (gridCols grid) (flat (gridCols grid) e)
        (grid.length * gridCols grid)
        (astarInit (gridCols grid) (grid.length * gridCols grid) (flat (gridCols grid) s)
          (flat (gridCols grid) e))).2.2 with
    | goal => exact Or.inl rfl
    | exhausted => exact Or.inr rfl
    | fuelOut => exact absurd hoc hno
  · exact getLast?_cons_of_some _ _ _ hlast

/-- Witness for `astar_terminates` on the 1×1 grid. -/
theorem astar_terminates_witness :
    InB ([[15]] : Grid).length (gridCols [[15]]) (0, 0) ∧
    (((astar_steps [[15]] (0, 0) (0, 0)).2.2 = Outcome.goal ∨
      (astar_steps [[15]] (0, 0) (0, 0)).2.2 = Outcome.exhausted) ∧
     (astar_steps [[15]] (0, 0) (0, 0)).1.getLast? =
      some (Event.finish (astar_steps [[15]] (0, 0) (0, 0)).2.1.prev (gridCols [[15]])
        (flat (gridCols [[15]]) (0, 0)) (astar_steps [[15]] (0, 0) (0, 0)).2.1.expansions)) :=
  ⟨by decide, astar_terminates [[15]] (0, 0) (0, 0) (by decide) (by decide)⟩

/-- C3 amended (the code's terminal event): for in-bounds endpoints the run's
last event is `finish (prev, cols, end_i, expansions)` — predecessor table,
**column count**, goal index, expansion count, with no success flag in the
payload — and the goal-pop exit is taken exactly when `current end_i` was
emitted (the pop of the goal); the open-set-exhaustion exit is taken exactly
otherwise.  Success is thus signalled by the exit/stream shape, not by a
payload flag. -/
theorem astar_finish_event (grid : Grid) (s e : Cell)
    (hs : InB grid.length (gridCols grid) s) (he : InB grid.length (gridCols grid) e) :
    (astar_steps grid s e).1.getLast? =
      some (Event.finish (astar_steps grid s e).2.1.prev (gridCols grid)
        (flat (gridCols grid) e) (astar_steps grid s e).2.1.expansions) ∧
    ((astar_steps grid s e).2.2 = Outcome.goal ↔
      Event.current (flat (gridCols grid) e) ∈ (astar_steps grid s e).1) := by
  obtain ⟨hwf0, hq0, hmu0⟩ := astarInit_pres (gridCols grid) (flat (gridCols grid) e) (flat_lt hs)
  obtain ⟨-, -, hfuel, -⟩ := astarLoop_pres grid grid.length (gridCols grid) (flat (gridCols grid) e)
    (grid.length * gridCols grid)
    (astarInit (gridCols grid) (grid.length * gridCols grid) (flat (gridCols grid) s)
      (flat (gridCols grid) e)) hwf0 hq0
  have hno := hfuel (le_of_eq hmu0)
  obtain ⟨hlast, hiff⟩ := astarLoop_events grid grid.length (gridCols grid) (flat (gridCols grid) e)
    (grid.length * gridCols grid)
    (astarInit (gridCols grid) (grid.length * gridCols grid) (flat (gridCols grid) s)
      (flat (gridCols grid) e)) hno
  rw [astar_steps_eq]
  dsimp only
  refine ⟨getLast?_cons_of_some _ _ _ hlast, ?_⟩
  rw [List.mem_cons]
  constructor
  · intro hgoal
    exact Or.inr (hiff.1 hgoal)
  · intro hmem
    rcases hmem with hmem | hmem
    · exact absurd hmem (by simp)
    · exact hiff.2 hmem

/-- Witness for `astar_finish_event` on the 1×1 grid. -/
theorem astar_finish_event_witness :
    InB ([[15]] : Grid).length (gridCols [[15]]) (0, 0) ∧
    ((astar_steps [[15]] (0, 0) (0, 0)).1.getLast? =
      some (Event.finish (astar_steps [[15]] (0, 0) (0, 0)).2.1.prev (gridCols [[15]])
        (flat (gridCols [[15]]) (0, 0)) (astar_steps [[15]] (0, 0) (0, 0)).2.1.expansions) ∧
     ((astar_steps [[15]] (0, 0) (0, 0)).2.2 = Outcome.goal ↔
      Event.current (flat (gridCols [[15]]) (0, 0)) ∈ (astar_steps [[15]] (0, 0) (0, 0)).1)) :=
  ⟨by decide, astar_finish_event [[15]] (0, 0) (0, 0) (by decide) (by decide)⟩

/-- C10: in every reachable state of the search, each cell occurs at most once
in the priority queue; every queued cell is marked `in_open` (each push is
guarded by `in_open`, which is never cleared — a step can only keep it set);
and no queued cell is closed, so the pop-time stale-entry check
(`if closed[i]: continue`) can never fire. -/
theorem astar_queue_invariants (grid : Grid) (s e : Cell)
    (hs : InB grid.length (gridCols grid) s) (k : ℕ) :
    ((astarStateAt grid s e k).heap.map (fun x => x.2.2)).Nodup ∧
    (∀ x ∈ (astarStateAt grid s e k).heap,
      (astarStateAt grid s e k).inOpen.getD x.2.2 false = true) ∧
    (∀ x ∈ (astarStateAt grid s e k).heap,
      (astarStateAt grid s e k).closed.getD x.2.2 false = false) ∧
    (∀ m rest, popMin (astarStateAt grid s e k).heap = some (m, rest) →
      (astarStateAt grid s e k).closed.getD m.2.2 false = false) ∧
    (∀ v, (astarStateAt grid s e k).inOpen.getD v false = true →
      (astarIter grid grid.length (gridCols grid) (flat (gridCols grid) e)
        (astarStateAt grid s e k)).2.1.inOpen.getD v false = true) := by
  obtain ⟨hwf0, hq0, hmu0⟩ := astarInit_pres (gridCols grid) (flat (gridCols grid) e) (flat_lt hs)
  obtain ⟨hwfk, hqk, -, -⟩ := astarLoop_pres grid grid.length (gridCols grid) (flat (gridCols grid) e) k
    (astarInit (gridCols grid) (grid.length * gridCols grid) (flat (gridCols grid) s)
      (flat (gridCols grid) e)) hwf0 hq0
  obtain ⟨-, -, -, hmono, -⟩ := astarIter_pres grid (flat (gridCols grid) e) hwfk hqk
  exact ⟨hqk.nodupCells, hqk.inOpenTrue, hqk.notClosed,
    fun m rest hp => hqk.notClosed m (popMin_spec hp).1, hmono⟩

/-- Witness for `astar_queue_invariants` at the 1×1 grid after zero steps. -/
theorem astar_queue_invariants_witness :
    InB ([[15]] : Grid).length (gridCols [[15]]) (0, 0) ∧
    (((astarStateAt [[15]] (0, 0) (0, 0) 0).heap.map (fun x => x.2.2)).Nodup ∧
     (∀ x ∈ (astarStateAt [[15]] (0, 0) (0, 0) 0).heap,
       (astarStateAt [[15]] (0, 0) (0, 0) 0).inOpen.getD x.2.2 false = true) ∧
     (∀ x ∈ (astarStateAt [[15]] (0, 0) (0, 0) 0).heap,
       (astarStateAt [[15]] (0, 0) (0, 0) 0).closed.getD x.2.2 false = false) ∧
     (∀ m rest, popMin (astarStateAt [[15]] (0, 0) (0, 0) 0).heap = some (m, rest) →
       (astarStateAt [[15]] (0, 0) (0, 0) 0).closed.getD m.2.2 false = false) ∧
     (∀ v, (astarStateAt [[15]] (0, 0) (0, 0) 0).inOpen.getD v false = true →
       (astarIter [[15]] ([[15]] : Grid).length (gridCols [[15]])
         (flat (gridCols [[15]]) (0, 0)) (astarStateAt [[15]] (0, 0) (0, 0) 0)).2.1.inOpen.getD
           v false = true)) :=
  ⟨by decide, astar_queue_invariants [[15]] (0, 0) (0, 0) (by decide) 0⟩

/-! ### The carved grid is a perfect maze (C2) -/

theorem gridGet_gridSet_ne (grid : Grid) (r c r' c' m : ℕ)
    (h : ¬(r' = r ∧ c' = c)) : gridGet (gridSet grid r c m) r' c' = gridGet grid r' c' := by
  unfold gridGet gridSet
  by_cases hr : r' = r
  · subst hr
    have hc : c ≠ c' := by intro hc; exact h ⟨rfl, hc.symm⟩
    by_cases hlt : r' < grid.length
    · rw [getD_set_self _ _ _ _ (by simpa using hlt), getD_set_ne _ _ _ _ _ hc]
    · rw [List.set_eq_of_length_le (by omega)]
  · rw [getD_set_ne _ _ _ _ _ (fun hh => hr hh.symm)]

theorem gridGet_gridSet_self (grid : Grid) (r c m : ℕ)
    (hr : r < grid.length) (hc : c < (grid.getD r []).length) :
    gridGet (gridSet grid r c m) r c = m := by
  unfold gridGet gridSet
  rw [getD_set_self _ _ _ _ (by simpa using hr), getD_set_self _ _ _ _ hc]

theorem gridGet_clearWall_ne (grid : Grid) (r c dd r' c' : ℕ)
    (h : ¬(r' = r ∧ c' = c)) : gridGet (clearWall grid r c dd) r' c' = gridGet grid r' c' :=
  gridGet_gridSet_ne _ _ _ _ _ _ h

theorem gridGet_clearWall_self (grid : Grid) (r c dd : ℕ)
    (hr : r < grid.length) (hc : c < (grid.getD r []).length) :
    gridGet (clearWall grid r c dd) r c = gridGet grid r c &&& (15 ^^^ dd) :=
  gridGet_gridSet_self _ _ _ _ hr hc

theorem mask_facts : ∀ m < 16,
    ((m &&& (15 ^^^ 4)) &&& 4 = 0) ∧ ((m &&& (15 ^^^ 4)) &&& 2 = m &&& 2) ∧
    ((m &&& (15 ^^^ 4)) &&& 1 = m &&& 1) ∧ ((m &&& (15 ^^^ 4)) &&& 8 = m &&& 8) ∧
    ((m &&& (15 ^^^ 8)) &&& 8 = 0) ∧ ((m &&& (15 ^^^ 8)) &&& 2 = m &&& 2) ∧
    ((m &&& (15 ^^^ 8)) &&& 1 = m &&& 1) ∧ ((m &&& (15 ^^^ 8)) &&& 4 = m &&& 4) ∧
    ((m &&& (15 ^^^ 2)) &&& 2 = 0) ∧ ((m &&& (15 ^^^ 2)) &&& 4 = m &&& 4) ∧
    ((m &&& (15 ^^^ 2)) &&& 1 = m &&& 1) ∧ ((m &&& (15 ^^^ 2)) &&& 8 = m &&& 8) ∧
    ((m &&& (15 ^^^ 1)) &&& 1 = 0) ∧ ((m &&& (15 ^^^ 1)) &&& 4 = m &&& 4) ∧
    ((m &&& (15 ^^^ 1)) &&& 2 = m &&& 2) ∧ ((m &&& (15 ^^^ 1)) &&& 8 = m &&& 8) ∧
    (m &&& (15 ^^^ 1) < 16) ∧ (m &&& (15 ^^^ 2) < 16) ∧
    (m &&& (15 ^^^ 4) < 16) ∧ (m &&& (15 ^^^ 8) < 16) := by decide

theorem visGet_visSet_true_mono (vis : List (List Bool)) (r c r' c' : ℕ)
    (h : visGet vis r' c' = true) : visGet (visSet vis r c true) r' c' = true := by
  by_cases he : r' = r ∧ c' = c
  · obtain ⟨h1, h2⟩ := he
    subst h1; subst h2
    unfold visGet at h
    by_cases hr : r' < vis.length
    · by_cases hc : c' < (vis.getD r' []).length
      · exact visGet_visSet_self _ _ _ _ hr hc
      · rw [List.getD_eq_default _ _ (by omega)] at h
        exact Bool.noConfusion h
    · unfold visGet visSet
      rw [List.set_eq_of_length_le (by omega)]
      exact h
  · rw [visGet_visSet_ne _ _ _ _ _ _ he]
    exact h

theorem openTo_inB {grid : Grid} {rows cols : ℕ} {a b : Cell}
    (h : openTo grid rows cols a b) : InB rows cols a ∧ InB rows cols b := by
  obtain ⟨h1, h2, h3⟩ := h
  refine ⟨⟨h1, h2⟩, ?_⟩
  rcases h3 with ⟨e1, e2, e3, -⟩ | ⟨e1, e2, -⟩ | ⟨e1, e2, e3, -⟩ | ⟨e1, e2, -⟩ <;>
    exact ⟨by omega, by omega⟩

theorem ite_singleton_eq_nil {α : Type} {P : Prop} [Decidable P] {x : α} :
    ((if P then [x] else ([] : List α)) = []) ↔ ¬P := by
  split <;> simp_all

theorem candAt_nil {vis : List (List Bool)} {rows cols r c : ℕ}
    (h : candAt vis rows cols r c = []) (hr : r < rows) (hc : c < cols) :
    ∀ w : Cell, InB rows cols w → geomAdj (r, c) w → visGet vis w.1 w.2 = true := by
  intro w hw hadj
  unfold candAt at h
  rw [List.append_eq_nil, List.append_eq_nil, List.append_eq_nil] at h
  obtain ⟨⟨⟨hN, hS⟩, hE⟩, hW⟩ := h
  rw [ite_singleton_eq_nil] at hN hS hE hW
  obtain ⟨hw1, hw2⟩ := hw
  have hbool : ∀ (b : Bool), b ≠ false → b = true := by intro b; cases b <;> simp
  unfold geomAdj at hadj
  dsimp only at hadj
  rcases hadj with ⟨h1, h2⟩ | ⟨h1, h2⟩
  · rcases h2 with h2 | h2
    · have he1 : w.1 = r := h1.symm
      have he2 : w.2 = c - 1 := by omega
      rw [he1, he2]
      refine hbool _ (fun hcon => hW ⟨by omega, hcon⟩)
    · have he1 : w.1 = r := h1.symm
      rw [he1, h2]
      refine hbool _ (fun hcon => hE ⟨by omega, hcon⟩)
  · rcases h2 with h2 | h2
    · have he2 : w.2 = c := h1.symm
      have he1 : w.1 = r - 1 := by omega
      rw [he1, he2]
      refine hbool _ (fun hcon => hN ⟨by omega, hcon⟩)
    · have he2 : w.2 = c := h1.symm
      rw [h2, he2]
      refine hbool _ (fun hcon => hS ⟨by omega, hcon⟩)

theorem openTo_congr {g g' : Grid} {rows cols : ℕ} {a b : Cell}
    (hmask : gridGet g' a.1 a.2 = gridGet g a.1 a.2) :
    openTo g' rows cols a b ↔ openTo g rows cols a b := by
  unfold openTo
  rw [hmask]


set_option maxHeartbeats 2000000 in
theorem openTo_carve_iff {grid : Grid} {rows cols r c nr nc dd : ℕ}
    (hgl : grid.length = rows) (hgc : ∀ row ∈ grid, row.length = cols)
    (hr : r < rows) (hc : c < cols) (hnr : nr < rows) (hnc : nc < cols)
    (hdir : (dd = 1 ∧ r = nr + 1 ∧ nc = c) ∨ (dd = 2 ∧ nr = r + 1 ∧ nc = c) ∨
      (dd = 4 ∧ nr = r ∧ nc = c + 1) ∨ (dd = 8 ∧ nr = r ∧ c = nc + 1))
    (hm15 : gridGet grid nr nc = 15) (hmlt : gridGet grid r c < 16) :
    ∀ a b : Cell,
      openTo (clearWall (clearWall grid r c dd) nr nc (OPPOSITE dd)) rows cols a b ↔
      (openTo grid rows cols a b ∨ (a = (r, c) ∧ b = (nr, nc)) ∨
        (a = (nr, nc) ∧ b = (r, c))) := by
  intro a b
  have hrcne : ¬(r = nr ∧ c = nc) := by
    intro h
    rcases hdir with ⟨h1, h2, h3⟩ | ⟨h1, h2, h3⟩ | ⟨h1, h2, h3⟩ | ⟨h1, h2, h3⟩ <;> omega
  have hclen : (clearWall grid r c dd).length = grid.length := by
    unfold clearWall gridSet
    rw [List.length_set]
  have hrowlen : (grid.getD r []).length = cols :=
    hgc _ (getD_mem_of_lt _ _ _ (by omega))
  have hrowlen2 : ((clearWall grid r c dd).getD nr []).length = cols := by
    unfold clearWall gridSet
    by_cases hrnr : r = nr
    · subst hrnr
      rw [getD_set_self _ _ _ _ (by omega), List.length_set]
      exact hrowlen
    · rw [getD_set_ne _ _ _ _ _ hrnr]
      exact hgc _ (getD_mem_of_lt _ _ _ (by omega))
  have hgrc : gridGet (clearWall (clearWall grid r c dd) nr nc (OPPOSITE dd)) r c =
      gridGet grid r c &&& (15 ^^^ dd) := by
    rw [gridGet_clearWall_ne _ _ _ _ _ _ (fun h => hrcne ⟨h.1, h.2⟩)]
    exact gridGet_clearWall_self _ _ _ _ (by omega) (by rw [hrowlen]; omega)
  have hgnr : gridGet (clearWall (clearWall grid r c dd) nr nc (OPPOSITE dd)) nr nc =
      15 &&& (15 ^^^ OPPOSITE dd) := by
    rw [gridGet_clearWall_self _ _ _ _ (by omega) (by rw [hrowlen2]; omega)]
    rw [gridGet_clearWall_ne _ _ _ _ _ _ (fun h => hrcne ⟨h.1.symm, h.2.symm⟩), hm15]
  by_cases ha1 : a = (r, c)
  · subst ha1
    unfold openTo
    dsimp only
    rw [hgrc]
    clear hrowlen2 hgnr hclen hrowlen hgl hgc hm15 hgrc
    generalize hmv : gridGet grid r c = m at hmlt ⊢
    clear hmv
    obtain ⟨mfE4, mfE2, mfE1, mfE8, mfW8, mfW2, mfW1, mfW4, mfS2, mfS4, mfS1, mfS8,
      mfN1, mfN4, mfN2, mfN8, -, -, -, -⟩ := mask_facts m hmlt
    rcases hdir with ⟨h1, h2, h3⟩ | ⟨h1, h2, h3⟩ | ⟨h1, h2, h3⟩ | ⟨h1, h2, h3⟩ <;> subst h1 <;>
      simp only [Prod.ext_iff, true_and, and_true]
    · rw [mfN1, mfN4, mfN2, mfN8]
      clear mfE4 mfE2 mfE1 mfE8 mfW8 mfW2 mfW1 mfW4 mfS2 mfS4 mfS1 mfS8 mfN1 mfN4 mfN2 mfN8
      constructor
      · rintro ⟨u1, u2, h | h | h | h⟩
        · exact Or.inl ⟨u1, u2, Or.inl h⟩
        · exact Or.inl ⟨u1, u2, Or.inr (Or.inl h)⟩
        · exact Or.inl ⟨u1, u2, Or.inr (Or.inr (Or.inl h))⟩
        · exact Or.inr (Or.inl ⟨by omega, by omega⟩)
      · rintro (⟨u1, u2, h | h | h | h⟩ | ⟨hb1, hb2⟩ | ⟨⟨e1, e2⟩, -, -⟩)
        · exact ⟨u1, u2, Or.inl h⟩
        · exact ⟨u1, u2, Or.inr (Or.inl h)⟩
        · exact ⟨u1, u2, Or.inr (Or.inr (Or.inl h))⟩
        · exact ⟨u1, u2, Or.inr (Or.inr (Or.inr ⟨h.1, h.2.1, rfl⟩))⟩
        · exact ⟨hr, hc, Or.inr (Or.inr (Or.inr ⟨by omega, by omega, rfl⟩))⟩
        · exact absurd e1 (by omega)
    · rw [mfS2, mfS4, mfS1, mfS8]
      clear mfE4 mfE2 mfE1 mfE8 mfW8 mfW2 mfW1 mfW4 mfS2 mfS4 mfS1 mfS8 mfN1 mfN4 mfN2 mfN8
      constructor
      · rintro ⟨u1, u2, h | h | h | h⟩
        · exact Or.inl ⟨u1, u2, Or.inl h⟩
        · exact Or.inl ⟨u1, u2, Or.inr (Or.inl h)⟩
        · exact Or.inr (Or.inl ⟨by omega, by omega⟩)
        · exact Or.inl ⟨u1, u2, Or.inr (Or.inr (Or.inr h))⟩
      · rintro (⟨u1, u2, h | h | h | h⟩ | ⟨hb1, hb2⟩ | ⟨⟨e1, e2⟩, -, -⟩)
        · exact ⟨u1, u2, Or.inl h⟩
        · exact ⟨u1, u2, Or.inr (Or.inl h)⟩
        · exact ⟨u1, u2, Or.inr (Or.inr (Or.inl ⟨h.1, h.2.1, h.2.2.1, rfl⟩))⟩
        · exact ⟨u1, u2, Or.inr (Or.inr (Or.inr h))⟩
        · exact ⟨hr, hc, Or.inr (Or.inr (Or.inl ⟨by omega, by omega, by omega, rfl⟩))⟩
        · exact absurd e1 (by omega)
    · rw [mfE4, mfE2, mfE1, mfE8]
      clear mfE4 mfE2 mfE1 mfE8 mfW8 mfW2 mfW1 mfW4 mfS2 mfS4 mfS1 mfS8 mfN1 mfN4 mfN2 mfN8
      constructor
      · rintro ⟨u1, u2, h | h | h | h⟩
        · exact Or.inr (Or.inl ⟨by omega, by omega⟩)
        · exact Or.inl ⟨u1, u2, Or.inr (Or.inl h)⟩
        · exact Or.inl ⟨u1, u2, Or.inr (Or.inr (Or.inl h))⟩
        · exact Or.inl ⟨u1, u2, Or.inr (Or.inr (Or.inr h))⟩
      · rintro (⟨u1, u2, h | h | h | h⟩ | ⟨hb1, hb2⟩ | ⟨⟨e1, e2⟩, -, -⟩)
        · exact ⟨u1, u2, Or.inl ⟨h.1, h.2.1, h.2.2.1, rfl⟩⟩
        · exact ⟨u1, u2, Or.inr (Or.inl h)⟩
        · exact ⟨u1, u2, Or.inr (Or.inr (Or.inl h))⟩
        · exact ⟨u1, u2, Or.inr (Or.inr (Or.inr h))⟩
        · exact ⟨hr, hc, Or.inl ⟨by omega, by omega, by omega, rfl⟩⟩
        · exact absurd e2 (by omega)
    · rw [mfW8, mfW2, mfW1, mfW4]
      clear mfE4 mfE2 mfE1 mfE8 mfW8 mfW2 mfW1 mfW4 mfS2 mfS4 mfS1 mfS8 mfN1 mfN4 mfN2 mfN8
      constructor
      · rintro ⟨u1, u2, h | h | h | h⟩
        · exact Or.inl ⟨u1, u2, Or.inl h⟩
        · exact Or.inr (Or.inl ⟨by omega, by omega⟩)
        · exact Or.inl ⟨u1, u2, Or.inr (Or.inr (Or.inl h))⟩
        · exact Or.inl ⟨u1, u2, Or.inr (Or.inr (Or.inr h))⟩
      · rintro (⟨u1, u2, h | h | h | h⟩ | ⟨hb1, hb2⟩ | ⟨⟨e1, e2⟩, -, -⟩)
        · exact ⟨u1, u2, Or.inl h⟩
        · exact ⟨u1, u2, Or.inr (Or.inl ⟨h.1, h.2.1, rfl⟩)⟩
        · exact ⟨u1, u2, Or.inr (Or.inr (Or.inl h))⟩
        · exact ⟨u1, u2, Or.inr (Or.inr (Or.inr h))⟩
        · exact ⟨hr, hc, Or.inr (Or.inl ⟨by omega, by omega, rfl⟩)⟩
        · exact absurd e2 (by omega)
  · by_cases ha2 : a = (nr, nc)
    · subst ha2
      unfold openTo
      dsimp only
      rw [hgnr, hm15]
      clear hrowlen2 hgrc hclen hrowlen hgl hgc hm15 hgnr
      rcases hdir with ⟨h1, h2, h3⟩ | ⟨h1, h2, h3⟩ | ⟨h1, h2, h3⟩ | ⟨h1, h2, h3⟩ <;> subst h1 <;>
        simp only [Prod.ext_iff, true_and, and_true]
      · have g0 : (15 : ℕ) &&& (15 ^^^ OPPOSITE 1) = 13 := by decide
        rw [g0]
        have c4 : (13 : ℕ) &&& 4 = 4 := by decide
        have c8 : (13 : ℕ) &&& 8 = 8 := by decide
        have c2 : (13 : ℕ) &&& 2 = 0 := by decide
        have c1 : (13 : ℕ) &&& 1 = 1 := by decide
        have f4 : (15 : ℕ) &&& 4 = 4 := by decide
        have f8 : (15 : ℕ) &&& 8 = 8 := by decide
        have f2 : (15 : ℕ) &&& 2 = 2 := by decide
        have f1 : (15 : ℕ) &&& 1 = 1 := by decide
        rw [c4, c8, c2, c1, f4, f8, f2, f1]
        constructor
        · rintro ⟨u1, u2, h | h | h | h⟩
          · exact absurd h.2.2.2 (by decide)
          · exact absurd h.2.2 (by decide)
          · exact Or.inr (Or.inr ⟨by omega, by omega⟩)
          · exact absurd h.2.2 (by decide)
        · rintro (⟨u1, u2, h | h | h | h⟩ | ⟨⟨e1, e2⟩, -, -⟩ | ⟨hb1, hb2⟩)
          · exact absurd h.2.2.2 (by decide)
          · exact absurd h.2.2 (by decide)
          · exact absurd h.2.2.2 (by decide)
          · exact absurd h.2.2 (by decide)
          · exact absurd e1 (by omega)
          · exact ⟨hnr, hnc, Or.inr (Or.inr (Or.inl ⟨by omega, by omega, by omega, rfl⟩))⟩
      · have g0 : (15 : ℕ) &&& (15 ^^^ OPPOSITE 2) = 14 := by decide
        rw [g0]
        have c4 : (14 : ℕ) &&& 4 = 4 := by decide
        have c8 : (14 : ℕ) &&& 8 = 8 := by decide
        have c2 : (14 : ℕ) &&& 2 = 2 := by decide
        have c1 : (14 : ℕ) &&& 1 = 0 := by decide
        have f4 : (15 : ℕ) &&& 4 = 4 := by decide
        have f8 : (15 : ℕ) &&& 8 = 8 := by decide
        have f2 : (15 : ℕ) &&& 2 = 2 := by decide
        have f1 : (15 : ℕ) &&& 1 = 1 := by decide
        rw [c4, c8, c2, c1, f4, f8, f2, f1]
        constructor
        · rintro ⟨u1, u2, h | h | h | h⟩
          · exact absurd h.2.2.2 (by decide)
          · exact absurd h.2.2 (by decide)
          · exact absurd h.2.2.2 (by decide)
          · exact Or.inr (Or.inr ⟨by omega, by omega⟩)
        · rintro (⟨u1, u2, h | h | h | h⟩ | ⟨⟨e1, e2⟩, -, -⟩ | ⟨hb1, hb2⟩)
          · exact absurd h.2.2.2 (by decide)
          · exact absurd h.2.2 (by decide)
          · exact absurd h.2.2.2 (by decide)
          · exact absurd h.2.2 (by decide)
          · exact absurd e1 (by omega)
          · exact ⟨hnr, hnc, Or.inr (Or.inr (Or.inr ⟨by omega, by omega, rfl⟩))⟩
      · have g0 : (15 : ℕ) &&& (15 ^^^ OPPOSITE 4) = 7 := by decide
        rw [g0]
        have c4 : (7 : ℕ) &&& 4 = 4 := by decide
        have c8 : (7 : ℕ) &&& 8 = 0 := by decide
        have c2 : (7 : ℕ) &&& 2 = 2 := by decide
        have c1 : (7 : ℕ) &&& 1 = 1 := by decide
        have f4 : (15 : ℕ) &&& 4 = 4 := by decide
        have f8 : (15 : ℕ) &&& 8 = 8 := by decide
        have f2 : (15 : ℕ) &&& 2 = 2 := by decide
        have f1 : (15 : ℕ) &&& 1 = 1 := by decide
        rw [c4, c8, c2, c1, f4, f8, f2, f1]
        constructor
        · rintro ⟨u1, u2, h | h | h | h⟩
          · exact absurd h.2.2.2 (by decide)
          · exact Or.inr (Or.inr ⟨by omega, by omega⟩)
          · exact absurd h.2.2.2 (by decide)
          · exact absurd h.2.2 (by decide)
        · rintro (⟨u1, u2, h | h | h | h⟩ | ⟨⟨e1, e2⟩, -, -⟩ | ⟨hb1, hb2⟩)
          · exact absurd h.2.2.2 (by decide)
          · exact absurd h.2.2 (by decide)
          · exact absurd h.2.2.2 (by decide)
          · exact absurd h.2.2 (by decide)
          · exact absurd e2 (by omega)
          · exact ⟨hnr, hnc, Or.inr (Or.inl ⟨by omega, by omega, rfl⟩)⟩
      · have g0 : (15 : ℕ) &&& (15 ^^^ OPPOSITE 8) = 11 := by decide
        rw [g0]
        have c4 : (11 : ℕ) &&& 4 = 0 := by decide
        have c8 : (11 : ℕ) &&& 8 = 8 := by decide
        have c2 : (11 : ℕ) &&& 2 = 2 := by decide
        have c1 : (11 : ℕ) &&& 1 = 1 := by decide
        have f4 : (15 : ℕ) &&& 4 = 4 := by decide
        have f8 : (15 : ℕ) &&& 8 = 8 := by decide
        have f2 : (15 : ℕ) &&& 2 = 2 := by decide
        have f1 : (15 : ℕ) &&& 1 = 1 := by decide
        rw [c4, c8, c2, c1, f4, f8, f2, f1]
        constructor
        · rintro ⟨u1, u2, h | h | h | h⟩
          · exact Or.inr (Or.inr ⟨by omega, by omega⟩)
          · exact absurd h.2.2 (by decide)
          · exact absurd h.2.2.2 (by decide)
          · exact absurd h.2.2 (by decide)
        · rintro (⟨u1, u2, h | h | h | h⟩ | ⟨⟨e1, e2⟩, -, -⟩ | ⟨hb1, hb2⟩)
          · exact absurd h.2.2.2 (by decide)
          · exact absurd h.2.2 (by decide)
          · exact absurd h.2.2.2 (by decide)
          · exact absurd h.2.2 (by decide)
          · exact absurd e2 (by omega)
          · exact ⟨hnr, hnc, Or.inl ⟨by omega, by omega, by omega, rfl⟩⟩
    · have hmask : gridGet (clearWall (clearWall grid r c dd) nr nc (OPPOSITE dd)) a.1 a.2 =
          gridGet grid a.1 a.2 := by
        rw [gridGet_clearWall_ne _ _ _ _ _ _ (fun h => ha2 (Prod.ext h.1 h.2)),
          gridGet_clearWall_ne _ _ _ _ _ _ (fun h => ha1 (Prod.ext h.1 h.2))]
      rw [openTo_congr hmask]
      constructor
      · exact Or.inl
      · intro hh
        rcases hh with hh | ⟨hh, -⟩ | ⟨hh, -⟩
        · exact hh
        · exact absurd hh ha1
        · exact absurd hh ha2

theorem sum_update_two {α : Type} [DecidableEq α] {s : Finset α} {f g : α → ℕ} {a b : α}
    (hab : a ≠ b) (ha : a ∈ s) (hb : b ∈ s)
    (hsame : ∀ p ∈ s, p ≠ a → p ≠ b → g p = f p) :
    (∑ p ∈ s, g p) + f a + f b = (∑ p ∈ s, f p) + g a + g b := by
  have hb' : b ∈ s.erase a := Finset.mem_erase.2 ⟨fun hcon => hab hcon.symm, hb⟩
  have hsplit : ∀ u : α → ℕ, ∑ p ∈ s, u p = (∑ p ∈ (s.erase a).erase b, u p) + u b + u a := by
    intro u
    rw [← Finset.sum_erase_add s u ha]
    congr 1
    rw [← Finset.sum_erase_add (s.erase a) u hb']
  have hcong : ∑ p ∈ (s.erase a).erase b, g p = ∑ p ∈ (s.erase a).erase b, f p := by
    refine Finset.sum_congr rfl ?_
    intro p hp
    have h1 := Finset.mem_erase.1 hp
    have h2 := Finset.mem_erase.1 h1.2
    exact hsame p h2.2 h2.1 h1.1
  rw [hsplit f, hsplit g, hcong]
  omega

theorem gridGet_replicate15 (rows cols r c : ℕ) :
    gridGet (List.replicate rows (List.replicate cols 15)) r c = 15 := by
  unfold gridGet
  rw [getD_replicate]
  split
  · rw [getD_replicate]
    split <;> rfl
  · simp

theorem openEdgeCount_replicate15 (rows cols : ℕ) :
    openEdgeCount (List.replicate rows (List.replicate cols 15)) rows cols = 0 := by
  unfold openEdgeCount
  refine Finset.sum_eq_zero ?_
  intro p hp
  unfold edgeTerm
  rw [gridGet_replicate15]
  have h4 : ¬((15 : ℕ) &&& 4 = 0) := by decide
  have h2 : ¬((15 : ℕ) &&& 2 = 0) := by decide
  rw [if_neg (fun hcon => h4 hcon.2), if_neg (fun hcon => h2 hcon.2)]
  rfl

theorem gridGet_carve_rc {grid : Grid} {rows cols r c nr nc : ℕ} (dd : ℕ)
    (hgl : grid.length = rows) (hgc : ∀ row ∈ grid, row.length = cols)
    (hr : r < rows) (hc : c < cols) (hne : ¬(r = nr ∧ c = nc)) :
    gridGet (clearWall (clearWall grid r c dd) nr nc (OPPOSITE dd)) r c =
      gridGet grid r c &&& (15 ^^^ dd) := by
  have hrowlen : (grid.getD r []).length = cols :=
    hgc _ (getD_mem_of_lt _ _ _ (by omega))
  rw [gridGet_clearWall_ne _ _ _ _ _ _ (fun h => hne ⟨h.1, h.2⟩)]
  exact gridGet_clearWall_self _ _ _ _ (by omega) (by rw [hrowlen]; omega)

theorem gridGet_carve_nrnc {grid : Grid} {rows cols r c nr nc : ℕ} (dd : ℕ)
    (hgl : grid.length = rows) (hgc : ∀ row ∈ grid, row.length = cols)
    (hr : r < rows) (hnr : nr < rows) (hnc : nc < cols) (hne : ¬(r = nr ∧ c = nc))
    (hm15 : gridGet grid nr nc = 15) :
    gridGet (clearWall (clearWall grid r c dd) nr nc (OPPOSITE dd)) nr nc =
      15 &&& (15 ^^^ OPPOSITE dd) := by
  have hrowlen2 : ((clearWall grid r c dd).getD nr []).length = cols := by
    unfold clearWall gridSet
    by_cases hrnr : r = nr
    · subst hrnr
      rw [getD_set_self _ _ _ _ (by omega), List.length_set]
      exact hgc _ (getD_mem_of_lt _ _ _ (by omega))
    · rw [getD_set_ne _ _ _ _ _ hrnr]
      exact hgc _ (getD_mem_of_lt _ _ _ (by omega))
  have hclen : (clearWall grid r c dd).length = grid.length := by
    unfold clearWall gridSet
    rw [List.length_set]
  rw [gridGet_clearWall_self _ _ _ _ (by omega) (by rw [hrowlen2]; omega)]
  rw [gridGet_clearWall_ne _ _ _ _ _ _ (fun h => hne ⟨h.1.symm, h.2.symm⟩), hm15]

theorem edgeTerm_congr {g g' : Grid} {rows cols x y : ℕ}
    (hmask : gridGet g' x y = gridGet g x y) :
    edgeTerm g' rows cols x y = edgeTerm g rows cols x y := by
  unfold edgeTerm
  rw [hmask]

theorem edgeTerm_carve_other {grid : Grid} {rows cols r c nr nc dd : ℕ} (x y : ℕ)
    (hne1 : ¬(x = r ∧ y = c)) (hne2 : ¬(x = nr ∧ y = nc)) :
    edgeTerm (clearWall (clearWall grid r c dd) nr nc (OPPOSITE dd)) rows cols x y =
      edgeTerm grid rows cols x y := by
  refine edgeTerm_congr ?_
  rw [gridGet_clearWall_ne _ _ _ _ _ _ hne2, gridGet_clearWall_ne _ _ _ _ _ _ hne1]

theorem edgeTerm_carve_pair {grid : Grid} {rows cols r c nr nc dd : ℕ}
    (hgl : grid.length = rows) (hgc : ∀ row ∈ grid, row.length = cols)
    (hr : r < rows) (hc : c < cols) (hnr : nr < rows) (hnc : nc < cols)
    (hdir : (dd = 1 ∧ r = nr + 1 ∧ nc = c) ∨ (dd = 2 ∧ nr = r + 1 ∧ nc = c) ∨
      (dd = 4 ∧ nr = r ∧ nc = c + 1) ∨ (dd = 8 ∧ nr = r ∧ c = nc + 1))
    (hm15 : gridGet grid nr nc = 15) (hmlt : gridGet grid r c < 16)
    (hnoOpen : ¬ openTo grid rows cols (r, c) (nr, nc)) :
    edgeTerm (clearWall (clearWall grid r c dd) nr nc (OPPOSITE dd)) rows cols r c +
      edgeTerm (clearWall (clearWall grid r c dd) nr nc (OPPOSITE dd)) rows cols nr nc =
      edgeTerm grid rows cols r c + edgeTerm grid rows cols nr nc + 1 := by
  have hne : ¬(r = nr ∧ c = nc) := by
    rcases hdir with ⟨h1, h2, h3⟩ | ⟨h1, h2, h3⟩ | ⟨h1, h2, h3⟩ | ⟨h1, h2, h3⟩ <;> omega
  have hgrc := gridGet_carve_rc dd hgl hgc hr hc hne
  have hgnr := gridGet_carve_nrnc dd hgl hgc hr hnr hnc hne hm15
  obtain ⟨mfE4, mfE2, -, -, -, mfW2, -, mfW4, mfS2, mfS4, -, -, -, mfN4, mfN2, -, -, -, -, -⟩ :=
    mask_facts (gridGet grid r c) hmlt
  unfold edgeTerm
  rw [hgrc, hgnr, hm15]
  have f4 : ¬((15 : ℕ) &&& 4 = 0) := by decide
  have f2 : ¬((15 : ℕ) &&& 2 = 0) := by decide
  rw [if_neg ((fun hcon => f4 hcon.2) : ¬(nc + 1 < cols ∧ (15 : ℕ) &&& 4 = 0)),
    if_neg ((fun hcon => f2 hcon.2) : ¬(nr + 1 < rows ∧ (15 : ℕ) &&& 2 = 0))]
  rcases hdir with ⟨h1, h2, h3⟩ | ⟨h1, h2, h3⟩ | ⟨h1, h2, h3⟩ | ⟨h1, h2, h3⟩ <;> subst h1
  · have hop : (15 : ℕ) &&& (15 ^^^ OPPOSITE 1) = 13 := by decide
    have c134 : ¬((13 : ℕ) &&& 4 = 0) := by decide
    have c132 : (13 : ℕ) &&& 2 = 0 := by decide
    rw [hop, mfN4, mfN2,
      if_neg ((fun hcon => c134 hcon.2) : ¬(nc + 1 < cols ∧ (13 : ℕ) &&& 4 = 0)),
      if_pos (⟨by omega, c132⟩ : nr + 1 < rows ∧ (13 : ℕ) &&& 2 = 0)]
  · have hop : (15 : ℕ) &&& (15 ^^^ OPPOSITE 2) = 14 := by decide
    have c144 : ¬((14 : ℕ) &&& 4 = 0) := by decide
    have c142 : ¬((14 : ℕ) &&& 2 = 0) := by decide
    have hbit : ¬(gridGet grid r c &&& 2 = 0) := fun hb =>
      hnoOpen ⟨hr, hc, Or.inr (Or.inr (Or.inl ⟨by omega, by omega, by omega, hb⟩))⟩
    rw [hop, mfS4, mfS2,
      if_neg ((fun hcon => c144 hcon.2) : ¬(nc + 1 < cols ∧ (14 : ℕ) &&& 4 = 0)),
      if_neg ((fun hcon => c142 hcon.2) : ¬(nr + 1 < rows ∧ (14 : ℕ) &&& 2 = 0)),
      if_pos (⟨by omega, rfl⟩ : r + 1 < rows ∧ (0 : ℕ) = 0),
      if_neg ((fun hcon => hbit hcon.2) : ¬(r + 1 < rows ∧ gridGet grid r c &&& 2 = 0))]
  · have hop : (15 : ℕ) &&& (15 ^^^ OPPOSITE 4) = 7 := by decide
    have c74 : ¬((7 : ℕ) &&& 4 = 0) := by decide
    have c72 : ¬((7 : ℕ) &&& 2 = 0) := by decide
    have hbit : ¬(gridGet grid r c &&& 4 = 0) := fun hb =>
      hnoOpen ⟨hr, hc, Or.inl ⟨by omega, by omega, by omega, hb⟩⟩
    rw [hop, mfE4, mfE2,
      if_neg ((fun hcon => c74 hcon.2) : ¬(nc + 1 < cols ∧ (7 : ℕ) &&& 4 = 0)),
      if_neg ((fun hcon => c72 hcon.2) : ¬(nr + 1 < rows ∧ (7 : ℕ) &&& 2 = 0)),
      if_pos (⟨by omega, rfl⟩ : c + 1 < cols ∧ (0 : ℕ) = 0),
      if_neg ((fun hcon => hbit hcon.2) : ¬(c + 1 < cols ∧ gridGet grid r c &&& 4 = 0))]
    generalize (if r + 1 < rows ∧ gridGet grid r c &&& 2 = 0 then 1 else 0) = B
    omega
  · have hop : (15 : ℕ) &&& (15 ^^^ OPPOSITE 8) = 11 := by decide
    have c114 : (11 : ℕ) &&& 4 = 0 := by decide
    have c112 : ¬((11 : ℕ) &&& 2 = 0) := by decide
    rw [hop, mfW4, mfW2,
      if_pos (⟨by omega, c114⟩ : nc + 1 < cols ∧ (11 : ℕ) &&& 4 = 0),
      if_neg ((fun hcon => c112 hcon.2) : ¬(nr + 1 < rows ∧ (11 : ℕ) &&& 2 = 0))]

theorem openEdgeCount_carve {grid : Grid} {rows cols r c nr nc dd : ℕ}
    (hgl : grid.length = rows) (hgc : ∀ row ∈ grid, row.length = cols)
    (hr : r < rows) (hc : c < cols) (hnr : nr < rows) (hnc : nc < cols)
    (hdir : (dd = 1 ∧ r = nr + 1 ∧ nc = c) ∨ (dd = 2 ∧ nr = r + 1 ∧ nc = c) ∨
      (dd = 4 ∧ nr = r ∧ nc = c + 1) ∨ (dd = 8 ∧ nr = r ∧ c = nc + 1))
    (hm15 : gridGet grid nr nc = 15) (hmlt : gridGet grid r c < 16)
    (hnoOpen : ¬ openTo grid rows cols (r, c) (nr, nc)) :
    openEdgeCount (clearWall (clearWall grid r c dd) nr nc (OPPOSITE dd)) rows cols =
      openEdgeCount grid rows cols + 1 := by
  have hne2 : ((r, c) : Cell) ≠ (nr, nc) := by
    intro hcon
    have h1 : r = nr := congrArg Prod.fst hcon
    have h2 : c = nc := congrArg Prod.snd hcon
    rcases hdir with ⟨u1, u2, u3⟩ | ⟨u1, u2, u3⟩ | ⟨u1, u2, u3⟩ | ⟨u1, u2, u3⟩ <;> omega
  have ha : ((r, c) : Cell) ∈ Finset.range rows ×ˢ Finset.range cols :=
    Finset.mem_product.2 ⟨Finset.mem_range.2 hr, Finset.mem_range.2 hc⟩
  have hb : ((nr, nc) : Cell) ∈ Finset.range rows ×ˢ Finset.range cols :=
    Finset.mem_product.2 ⟨Finset.mem_range.2 hnr, Finset.mem_range.2 hnc⟩
  have hsame : ∀ p ∈ Finset.range rows ×ˢ Finset.range cols, p ≠ ((r, c) : Cell) →
      p ≠ ((nr, nc) : Cell) →
      edgeTerm (clearWall (clearWall grid r c dd) nr nc (OPPOSITE dd)) rows cols p.1 p.2 =
        edgeTerm grid rows cols p.1 p.2 := by
    intro p hp hp1 hp2
    exact edgeTerm_carve_other p.1 p.2 (fun hcon => hp1 (Prod.ext hcon.1 hcon.2))
      (fun hcon => hp2 (Prod.ext hcon.1 hcon.2))
  have key := sum_update_two hne2 ha hb hsame
  have hpair := edgeTerm_carve_pair hgl hgc hr hc hnr hnc hdir hm15 hmlt hnoOpen
  unfold openEdgeCount
  dsimp only at key
  omega

theorem carveStep_CarveInv {rows cols : ℕ} {ch : ℕ → ℕ} {st : MState} {r c : ℕ}
    {rest : List Cell} (inv : CarveInv rows cols st) (hst : st.stack = (r, c) :: rest) :
    CarveInv rows cols (carveStep rows cols ch st r c rest) := by
  have hwf := inv.wf
  have hrc : r < rows ∧ c < cols := hwf.stackInB (r, c) (hst ▸ List.mem_cons_self _ _)
  unfold carveStep
  by_cases hcand : candAt st.visited rows cols r c = []
  · rw [if_pos hcand]
    refine ⟨⟨hwf.visRows, hwf.visCols, hwf.gridRows, hwf.gridCols',
        fun v hv => hwf.stackInB v (hst ▸ List.mem_cons_of_mem _ hv)⟩,
      inv.vis00, ?_, ?_, ?_, inv.unvisMask, inv.maskLt, inv.count, ?_⟩
    · exact (hst ▸ inv.stackNodup).of_cons
    · intro v hv
      exact inv.stackVis v (hst ▸ List.mem_cons_of_mem _ hv)
    · intro v hvb hvv hvstack w hwb hadj
      by_cases hveq : v = (r, c)
      · subst hveq
        exact candAt_nil hcand hrc.1 hrc.2 w hwb hadj
      · refine inv.popClosure v hvb hvv ?_ w hwb hadj
        rw [hst]
        intro hmem
        rcases List.mem_cons.1 hmem with hx | hx
        · exact hveq hx
        · exact hvstack hx
    · obtain ⟨par, rank, B, G⟩ := inv.ghost
      exact ⟨par, rank, B, G.parOrigin, G.parDef, G.parTotal, G.edgeChar, G.rankBound⟩
  · rw [if_neg hcand]
    dsimp only
    have hlen : 0 < (candAt st.visited rows cols r c).length := by
      cases hc0 : candAt st.visited rows cols r c with
      | nil => exact absurd hc0 hcand
      | cons a t => simp [hc0]
    have hmem0 : (candAt st.visited rows cols r c).getD
        (ch st.t % (candAt st.visited rows cols r c).length) (1, 0, 0) ∈
        candAt st.visited rows cols r c :=
      getD_mem_of_lt _ _ _ (Nat.mod_lt _ hlen)
    rcases hpick : (candAt st.visited rows cols r c).getD
        (ch st.t % (candAt st.visited rows cols r c).length) (1, 0, 0) with ⟨dd, nr, nc⟩
    rw [hpick] at hmem0
    obtain ⟨hnr, hnc, hvisn, hdir⟩ := candAt_mem hmem0 hrc.1 hrc.2
    dsimp only
    have hsv : visGet st.visited r c = true :=
      inv.stackVis (r, c) (hst ▸ List.mem_cons_self _ _)
    have hne : ¬(r = nr ∧ c = nc) := by
      intro hcon
      rw [← hcon.1, ← hcon.2] at hvisn
      exact Bool.noConfusion (hsv.symm.trans hvisn)
    have hm15 : gridGet st.grid nr nc = 15 := inv.unvisMask (nr, nc) ⟨hnr, hnc⟩ hvisn
    have hvisrows : st.visited.length = rows := hwf.visRows
    have hviscols : (st.visited.getD nr []).length = cols :=
      hwf.visCols _ (getD_mem_of_lt _ _ _ (by omega))
    have hnewvis_self : visGet (visSet st.visited nr nc true) nr nc = true :=
      visGet_visSet_self _ _ _ _ (by omega) (by rw [hviscols]; omega)
    have hnotin : ((nr, nc) : Cell) ∉ st.stack := by
      intro hmem
      exact Bool.noConfusion ((inv.stackVis (nr, nc) hmem).symm.trans hvisn)
    obtain ⟨par, rank, B, G⟩ := inv.ghost
    have hparne : ∀ x u : Cell, par x = some u → x ≠ (nr, nc) ∧ u ≠ (nr, nc) := by
      intro x u hx
      obtain ⟨-, -, hxv, huv, -, -⟩ := G.parDef x u hx
      constructor
      · intro hcon
        rw [hcon] at hxv
        exact Bool.noConfusion (hxv.symm.trans hvisn)
      · intro hcon
        rw [hcon] at huv
        exact Bool.noConfusion (huv.symm.trans hvisn)
    have hnoOpen : ¬ openTo st.grid rows cols (r, c) (nr, nc) := by
      intro hopen
      rcases (G.edgeChar (r, c) (nr, nc) ⟨hrc.1, hrc.2⟩ ⟨hnr, hnc⟩).1 hopen with h | h
      · exact (hparne _ _ h).2 rfl
      · exact (hparne _ _ h).1 rfl
    have hg1 := clearWall_dims hwf.gridRows hwf.gridCols' r c dd hrc.1
    have hg2 := clearWall_dims hg1.1 hg1.2 nr nc (OPPOSITE dd) hnr
    have hvd := visSet_dims hwf.visRows hwf.visCols nr nc hnr true
    have hgadj : geomAdj (r, c) (nr, nc) := by
      unfold geomAdj
      dsimp only
      rcases hdir with ⟨h1, h2, h3⟩ | ⟨h1, h2, h3⟩ | ⟨h1, h2, h3⟩ | ⟨h1, h2, h3⟩ <;> omega
    refine ⟨⟨hvd.1, hvd.2, hg2.1, hg2.2, ?_⟩, ?_, ?_, ?_, ?_, ?_, ?_, ?_, ?_⟩
    · intro v hv
      rcases List.mem_cons.1 hv with hv | hv
      · rw [hv]
        exact ⟨hnr, hnc⟩
      · exact hwf.stackInB v hv
    · exact visGet_visSet_true_mono _ _ _ _ _ inv.vis00
    · exact List.nodup_cons.2 ⟨hnotin, inv.stackNodup⟩
    · intro v hv
      rcases List.mem_cons.1 hv with hv | hv
      · rw [hv]
        exact hnewvis_self
      · exact visGet_visSet_true_mono _ _ _ _ _ (inv.stackVis v hv)
    · intro v hvb hvv hvstack w hwb hadj
      have hvne : v ≠ (nr, nc) := fun hcon => hvstack (hcon ▸ List.mem_cons_self _ _)
      have hvold : visGet st.visited v.1 v.2 = true := by
        rw [visGet_visSet_ne _ _ _ _ _ _
          (fun hcon => hvne (Prod.ext hcon.1 hcon.2))] at hvv
        exact hvv
      refine visGet_visSet_true_mono _ _ _ _ _ ?_
      exact inv.popClosure v hvb hvold
        (fun hmem => hvstack (List.mem_cons_of_mem _ hmem)) w hwb hadj
    · intro v hvb hvf
      have hvne : v ≠ (nr, nc) := by
        intro hcon
        rw [hcon] at hvf
        exact Bool.noConfusion (hnewvis_self.symm.trans hvf)
      have hvold : visGet st.visited v.1 v.2 = false := by
        rw [visGet_visSet_ne _ _ _ _ _ _
          (fun hcon => hvne (Prod.ext hcon.1 hcon.2))] at hvf
        exact hvf
      have hvrc : ¬(v.1 = r ∧ v.2 = c) := by
        intro hcon
        rw [hcon.1, hcon.2] at hvold
        exact Bool.noConfusion (hsv.symm.trans hvold)
      rw [gridGet_clearWall_ne _ _ _ _ _ _
        (fun hcon => hvne (Prod.ext hcon.1 hcon.2)), gridGet_clearWall_ne _ _ _ _ _ _ hvrc]
      exact inv.unvisMask v hvb hvold
    · intro x y
      by_cases hxy2 : x = nr ∧ y = nc
      · rw [hxy2.1, hxy2.2]
        rw [gridGet_carve_nrnc dd hwf.gridRows hwf.gridCols' hrc.1 hnr hnc hne hm15]
        have hb15 : (15 : ℕ) &&& (15 ^^^ OPPOSITE dd) ≤ 15 := Nat.and_le_left
        omega
      · by_cases hxy1 : x = r ∧ y = c
        · rw [hxy1.1, hxy1.2]
          rw [gridGet_carve_rc dd hwf.gridRows hwf.gridCols' hrc.1 hrc.2 hne]
          have hble : gridGet st.grid r c &&& (15 ^^^ dd) ≤ gridGet st.grid r c :=
            Nat.and_le_left
          have hlt := inv.maskLt r c
          omega
        · rw [gridGet_clearWall_ne _ _ _ _ _ _ hxy2, gridGet_clearWall_ne _ _ _ _ _ _ hxy1]
          exact inv.maskLt x y
    · show openEdgeCount (clearWall (clearWall st.grid r c dd) nr nc (OPPOSITE dd)) rows cols +
        unvisited (visSet st.visited nr nc true) + 1 = rows * cols
      have hcount := inv.count
      have hoec := openEdgeCount_carve hwf.gridRows hwf.gridCols' hrc.1 hrc.2 hnr hnc hdir
        hm15 (inv.maskLt r c) hnoOpen
      have huv := unvisited_visSet st.visited nr nc (by omega) (by rw [hviscols]; omega) hvisn
      rw [hoec]
      omega
    · refine ⟨fun v => if v = (nr, nc) then some (r, c) else par v,
        fun v => if v = (nr, nc) then B else rank v, B + 1, ?_, ?_, ?_, ?_, ?_⟩
      · have hne00 : ((0, 0) : Cell) ≠ (nr, nc) := by
          intro hcon
          have h1 : nr = 0 := (congrArg Prod.fst hcon).symm
          have h2 : nc = 0 := (congrArg Prod.snd hcon).symm
          rw [h1, h2] at hvisn
          exact Bool.noConfusion (inv.vis00.symm.trans hvisn)
        rw [if_neg hne00]
        exact G.parOrigin
      · intro v u hvu
        by_cases hveq : v = (nr, nc)
        · rw [if_pos hveq] at hvu
          have hurc : u = (r, c) := by
            injection hvu with h
            exact h.symm
          subst hurc
          subst hveq
          refine ⟨⟨hnr, hnc⟩, ⟨hrc.1, hrc.2⟩, hnewvis_self,
            visGet_visSet_true_mono _ _ _ _ _
              (inv.stackVis (r, c) (hst ▸ List.mem_cons_self _ _)), hgadj, ?_⟩
          have hrcne2 : ((r, c) : Cell) ≠ (nr, nc) := fun hcon =>
            hne ⟨congrArg Prod.fst hcon, congrArg Prod.snd hcon⟩
          rw [if_neg hrcne2, if_pos rfl]
          exact G.rankBound (r, c) hsv
        · rw [if_neg hveq] at hvu
          obtain ⟨hvb, hub, hvv, huv, hadj, hrk⟩ := G.parDef v u hvu
          have hune : u ≠ (nr, nc) := (hparne v u hvu).2
          refine ⟨hvb, hub, visGet_visSet_true_mono _ _ _ _ _ hvv,
            visGet_visSet_true_mono _ _ _ _ _ huv, hadj, ?_⟩
          rw [if_neg hveq, if_neg hune]
          exact hrk
      · intro v hvb hvv hvne0
        by_cases hveq : v = (nr, nc)
        · exact ⟨(r, c), by rw [if_pos hveq]⟩
        · have hvold : visGet st.visited v.1 v.2 = true := by
            rw [visGet_visSet_ne _ _ _ _ _ _
              (fun hcon => hveq (Prod.ext hcon.1 hcon.2))] at hvv
            exact hvv
          obtain ⟨u, hu⟩ := G.parTotal v hvb hvold hvne0
          exact ⟨u, by rw [if_neg hveq]; exact hu⟩
      · intro a b ha hb
        rw [openTo_carve_iff hwf.gridRows hwf.gridCols' hrc.1 hrc.2 hnr hnc hdir hm15
          (inv.maskLt r c) a b]
        rw [G.edgeChar a b ha hb]
        constructor
        · intro h
          rcases h with (h | h) | ⟨ha1, hb1⟩ | ⟨ha2, hb2⟩
          · refine Or.inl ?_
            rw [if_neg (hparne a b h).1]
            exact h
          · refine Or.inr ?_
            rw [if_neg (hparne b a h).1]
            exact h
          · refine Or.inr ?_
            rw [hb1, if_pos rfl, ha1]
          · refine Or.inl ?_
            rw [ha2, if_pos rfl, hb2]
        · intro h
          rcases h with h | h
          · by_cases haeq : a = (nr, nc)
            · rw [if_pos haeq] at h
              have hbrc : b = (r, c) := by
                injection h with h'
                exact h'.symm
              exact Or.inr (Or.inr ⟨haeq, hbrc⟩)
            · rw [if_neg haeq] at h
              exact Or.inl (Or.inl h)
          · by_cases hbeq : b = (nr, nc)
            · rw [if_pos hbeq] at h
              have harc : a = (r, c) := by
                injection h with h'
                exact h'.symm
              exact Or.inr (Or.inl ⟨harc, hbeq⟩)
            · rw [if_neg hbeq] at h
              exact Or.inl (Or.inr h)
      · intro v hvv
        by_cases hveq : v = (nr, nc)
        · rw [if_pos hveq]
          omega
        · rw [if_neg hveq]
          have hvold : visGet st.visited v.1 v.2 = true := by
            rw [visGet_visSet_ne _ _ _ _ _ _
              (fun hcon => hveq (Prod.ext hcon.1 hcon.2))] at hvv
            exact hvv
          have := G.rankBound v hvold
          omega

theorem visGet_init_true {rows cols : ℕ} {v : Cell}
    (h : visGet (visSet (List.replicate rows (List.replicate cols false)) 0 0 true)
      v.1 v.2 = true) : v.1 = 0 ∧ v.2 = 0 := by
  by_cases hv : v.1 = 0 ∧ v.2 = 0
  · exact hv
  · rw [visGet_visSet_ne _ _ _ _ _ _ hv] at h
    unfold visGet at h
    rw [getD_replicate] at h
    by_cases h1 : v.1 < rows
    · rw [if_pos h1, getD_replicate] at h
      by_cases h2 : v.2 < cols
      · rw [if_pos h2] at h
        exact Bool.noConfusion h
      · rw [if_neg h2] at h
        exact Bool.noConfusion h
    · rw [if_neg h1] at h
      simp at h

theorem initMState_CarveInv {rows cols : ℕ} (hr : 0 < rows) (hc : 0 < cols) :
    CarveInv rows cols (initMState rows cols) := by
  have hvr : (List.replicate rows (List.replicate cols false)).length = rows :=
    List.length_replicate _ _
  have hgetD0 : ((List.replicate rows (List.replicate cols false)).getD 0 []).length = cols := by
    rw [getD_replicate, if_pos hr, List.length_replicate]
  have hvis00 : visGet (visSet (List.replicate rows (List.replicate cols false)) 0 0 true)
      0 0 = true :=
    visGet_visSet_self _ _ _ _ (by rw [hvr]; omega) (by rw [hgetD0]; omega)
  have hvf : visGet (List.replicate rows (List.replicate cols false)) 0 0 = false := by
    unfold visGet
    rw [getD_replicate, if_pos hr, getD_replicate, if_pos hc]
  unfold initMState
  refine ⟨⟨?_, ?_, ?_, ?_, ?_⟩, hvis00, ?_, ?_, ?_, ?_, ?_, ?_, ?_⟩
  · dsimp only
    unfold visSet
    rw [List.length_set, hvr]
  · dsimp only
    intro row hrow
    rcases mem_set_cases hrow with hrow | hrow
    · rw [List.eq_of_mem_replicate hrow, List.length_replicate]
    · rw [hrow, List.length_set, hgetD0]
  · dsimp only
    exact List.length_replicate _ _
  · dsimp only
    intro row hrow
    rw [List.eq_of_mem_replicate hrow, List.length_replicate]
  · dsimp only
    intro v hv
    rcases List.mem_singleton.1 hv with rfl
    exact ⟨hr, hc⟩
  · exact List.nodup_singleton _
  · dsimp only
    intro v hv
    rcases List.mem_singleton.1 hv with rfl
    exact hvis00
  · dsimp only
    intro v hvb hvv hvnotin
    exfalso
    obtain ⟨h1, h2⟩ := visGet_init_true hvv
    refine hvnotin ?_
    have : v = ((0, 0) : Cell) := Prod.ext h1 h2
    rw [this]
    exact List.mem_singleton.2 rfl
  · dsimp only
    intro v hvb hvf'
    exact gridGet_replicate15 rows cols v.1 v.2
  · dsimp only
    intro x y
    rw [gridGet_replicate15]
    omega
  · dsimp only
    rw [openEdgeCount_replicate15]
    have huv := unvisited_visSet (List.replicate rows (List.replicate cols false)) 0 0
      (by rw [hvr]; omega) (by rw [hgetD0]; omega) hvf
    have hur := unvisited_replicate rows cols
    omega
  · dsimp only
    refine ⟨fun v => none, fun v => 0, 1, rfl, ?_, ?_, ?_, ?_⟩
    · intro v u h
      exact Option.noConfusion h
    · intro v hvb hvv hvne
      exfalso
      obtain ⟨h1, h2⟩ := visGet_init_true hvv
      exact hvne (Prod.ext h1 h2)
    · intro a b ha hb
      constructor
      · intro hopen
        exfalso
        obtain ⟨-, -, hcases⟩ := hopen
        rw [gridGet_replicate15] at hcases
        rcases hcases with ⟨-, -, -, h⟩ | ⟨-, -, h⟩ | ⟨-, -, -, h⟩ | ⟨-, -, h⟩ <;>
          exact absurd h (by decide)
      · intro h
        rcases h with h | h <;> exact Option.noConfusion h
    · intro v hv
      omega

theorem carve_CarveInv {rows cols : ℕ} {ch : ℕ → ℕ} :
    ∀ (fuel : ℕ) (st st' : MState), CarveInv rows cols st →
      carve rows cols ch fuel st = some st' → CarveInv rows cols st' ∧ st'.stack = [] := by
  intro fuel
  induction fuel with
  | zero =>
    intro st st' inv hcv
    cases hst : st.stack with
    | nil =>
      rw [carve_unfold_nil _ _ _ _ _ hst] at hcv
      injection hcv with h
      subst h
      exact ⟨inv, hst⟩
    | cons v rest =>
      obtain ⟨r, c⟩ := v
      rw [carve_unfold_zero _ _ _ _ _ _ _ hst] at hcv
      exact Option.noConfusion hcv
  | succ fuel ih =>
    intro st st' inv hcv
    cases hst : st.stack with
    | nil =>
      rw [carve_unfold_nil _ _ _ _ _ hst] at hcv
      injection hcv with h
      subst h
      exact ⟨inv, hst⟩
    | cons v rest =>
      obtain ⟨r, c⟩ := v
      rw [carve_unfold_cons _ _ _ _ _ _ _ _ hst] at hcv
      exact ih _ _ (carveStep_CarveInv inv hst) hcv

theorem carve_allVisited {rows cols : ℕ} {st : MState} (inv : CarveInv rows cols st)
    (hstack : st.stack = []) :
    ∀ v : Cell, InB rows cols v → visGet st.visited v.1 v.2 = true := by
  have closed : ∀ v, InB rows cols v → visGet st.visited v.1 v.2 = true →
      ∀ w, InB rows cols w → geomAdj v w → visGet st.visited w.1 w.2 = true := by
    intro v hvb hvv w
    exact inv.popClosure v hvb hvv (by rw [hstack]; exact List.not_mem_nil _) w
  have main : ∀ i, i < rows → ∀ j, j < cols → visGet st.visited i j = true := by
    intro i
    induction i with
    | zero =>
      intro hi j
      induction j with
      | zero =>
        intro hj
        exact inv.vis00
      | succ j ihj =>
        intro hj
        have hprev := ihj (by omega)
        exact closed (0, j) ⟨hi, by omega⟩ hprev (0, j + 1) ⟨hi, hj⟩ (Or.inl ⟨rfl, Or.inr rfl⟩)
    | succ i ihi =>
      intro hi j hj
      have hprev := ihi (by omega) j hj
      exact closed (i, j) ⟨by omega, hj⟩ hprev (i + 1, j) ⟨hi, hj⟩ (Or.inr ⟨rfl, Or.inr rfl⟩)
  intro v hvb
  exact main v.1 hvb.1 v.2 hvb.2

theorem unvisited_zero {rows cols : ℕ} {vis : List (List Bool)}
    (hlen : vis.length = rows) (hcols : ∀ row ∈ vis, row.length = cols)
    (hall : ∀ i, i < rows → ∀ j, j < cols → visGet vis i j = true) :
    unvisited vis = 0 := by
  unfold unvisited
  rw [List.sum_eq_zero]
  intro x hx
  rw [List.mem_map] at hx
  obtain ⟨row, hrow, hxval⟩ := hx
  obtain ⟨i, hi, hieq⟩ := List.mem_iff_getElem.1 hrow
  rw [← hxval]
  rw [List.count_eq_zero]
  intro hmem
  obtain ⟨j, hj, hjeq⟩ := List.mem_iff_getElem.1 hmem
  have hrl : row.length = cols := hcols row hrow
  have hv := hall i (by omega) j (by omega)
  unfold visGet at hv
  rw [List.getD_eq_getElem vis [] hi, hieq, List.getD_eq_getElem row false hj, hjeq] at hv
  exact Bool.noConfusion hv

theorem mem_of_getLast? {α : Type} {l : List α} {a : α} (h : l.getLast? = some a) : a ∈ l := by
  induction l with
  | nil => exact Option.noConfusion h
  | cons x t ih =>
    cases t with
    | nil =>
      injection h with h'
      rw [← h']
      exact List.mem_singleton.2 rfl
    | cons y s =>
      rw [List.getLast?_cons_cons] at h
      exact List.mem_cons_of_mem _ (ih h)

theorem ghost_conn {rows cols : ℕ} {st : MState} {par : Cell → Option Cell}
    {rank : Cell → ℕ} {B : ℕ} (G : CarveGhost rows cols st par rank B)
    (hall : ∀ v : Cell, InB rows cols v → visGet st.visited v.1 v.2 = true)
    (hr : 0 < rows) (hc : 0 < cols) :
    ∀ v : Cell, InB rows cols v →
      ∃ p, SimplePath st.grid rows cols (0, 0) v p ∧ ∀ w ∈ p, rank w ≤ rank v := by
  have main : ∀ n, ∀ v : Cell, InB rows cols v → rank v < n →
      ∃ p, SimplePath st.grid rows cols (0, 0) v p ∧ ∀ w ∈ p, rank w ≤ rank v := by
    intro n
    induction n with
    | zero =>
      intro v hvb hvr
      omega
    | succ n ih =>
      intro v hvb hvr
      by_cases hv0 : v = (0, 0)
      · subst hv0
        refine ⟨[(0, 0)], ⟨⟨by simp, List.chain'_singleton _, ?_⟩, rfl, rfl,
          List.nodup_singleton _⟩, ?_⟩
        · intro w hw
          rcases List.mem_singleton.1 hw with rfl
          exact ⟨hr, hc⟩
        · intro w hw
          rcases List.mem_singleton.1 hw with rfl
          exact le_refl _
      · obtain ⟨u, hu⟩ := G.parTotal v hvb (hall v hvb) hv0
        obtain ⟨-, hub, -, -, -, hrk⟩ := G.parDef v u hu
        obtain ⟨p, hsp, hrankle⟩ := ih u hub (by omega)
        have hopen : openTo st.grid rows cols u v := (G.edgeChar u v hub hvb).2 (Or.inr hu)
        obtain ⟨⟨hpne, hpch, hpin⟩, hphead, hplast, hpnd⟩ := hsp
        refine ⟨p ++ [v], ⟨⟨?_, ?_, ?_⟩, ?_, ?_, ?_⟩, ?_⟩
        · intro hcon
          exact hpne (List.append_eq_nil.1 hcon).1
        · rw [List.chain'_append]
          refine ⟨hpch, List.chain'_singleton _, ?_⟩
          intro x hx y hy
          rw [Option.mem_def, hplast] at hx
          injection hx with hx
          rw [Option.mem_def] at hy
          injection hy with hy
          rw [← hx, ← hy]
          exact hopen
        · intro w hw
          rcases List.mem_append.1 hw with hw | hw
          · exact hpin w hw
          · rcases List.mem_singleton.1 hw with rfl
            exact hvb
        · rw [List.head?_append_of_ne_nil _ hpne]
          exact hphead
        · exact List.getLast?_concat _
        · refine List.Nodup.append hpnd (List.nodup_singleton _) ?_
          intro x hxp hxv
          rcases List.mem_singleton.1 hxv with rfl
          have := hrankle x hxp
          omega
        · intro w hw
          rcases List.mem_append.1 hw with hw | hw
          · have := hrankle w hw
            omega
          · rcases List.mem_singleton.1 hw with rfl
            exact le_refl _
  intro v hvb
  exact main (rank v + 1) v hvb (by omega)

theorem exists_getLast? {α : Type} {l : List α} (h : l ≠ []) : ∃ x, l.getLast? = some x := by
  cases l with
  | nil => exact absurd rfl h
  | cons a t => exact ⟨(a :: t).getLast (by simp), List.getLast?_eq_getLast _ _⟩

theorem exists_max_rank (rank : Cell → ℕ) :
    ∀ l : List Cell, l ≠ [] → ∃ m ∈ l, ∀ w ∈ l, rank w ≤ rank m := by
  intro l
  induction l with
  | nil =>
    intro h
    exact absurd rfl h
  | cons a t ih =>
    intro h
    by_cases ht : t = []
    · subst ht
      refine ⟨a, List.mem_singleton.2 rfl, ?_⟩
      intro w hw
      rcases List.mem_singleton.1 hw with rfl
      exact le_refl _
    · obtain ⟨m, hm, hmax⟩ := ih ht
      by_cases hcmp : rank a ≤ rank m
      · refine ⟨m, List.mem_cons_of_mem _ hm, ?_⟩
        intro w hw
        rcases List.mem_cons.1 hw with rfl | hw
        · exact hcmp
        · exact hmax w hw
      · refine ⟨a, List.mem_cons_self _ _, ?_⟩
        intro w hw
        rcases List.mem_cons.1 hw with rfl | hw
        · exact le_refl _
        · exact le_trans (hmax w hw) (by omega)

theorem edge_parent {rows cols : ℕ} {st : MState} {par : Cell → Option Cell}
    {rank : Cell → ℕ} {B : ℕ} (G : CarveGhost rows cols st par rank B) {u v : Cell}
    (hub : InB rows cols u) (hvb : InB rows cols v)
    (hopen : openTo st.grid rows cols u v) (hrk : rank v ≤ rank u) :
    par u = some v := by
  rcases (G.edgeChar u v hub hvb).1 hopen with h | h
  · exact h
  · obtain ⟨-, -, -, -, -, hlt⟩ := G.parDef v u h
    omega

theorem ghost_openTo_symm {rows cols : ℕ} {st : MState} {par : Cell → Option Cell}
    {rank : Cell → ℕ} {B : ℕ} (G : CarveGhost rows cols st par rank B) {a b : Cell}
    (ha : InB rows cols a) (hb : InB rows cols b)
    (h : openTo st.grid rows cols a b) : openTo st.grid rows cols b a :=
  (G.edgeChar b a hb ha).2 (Or.symm ((G.edgeChar a b ha hb).1 h))

theorem simplePath_self {grid : Grid} {rows cols : ℕ} {a : Cell} {p : List Cell}
    (h : SimplePath grid rows cols a a p) : p = [a] := by
  obtain ⟨⟨hne, hch, hin⟩, hhead, hlast, hnd⟩ := h
  cases p with
  | nil => exact Option.noConfusion hhead
  | cons x t =>
    have hx : x = a := by simpa using hhead
    subst hx
    cases t with
    | nil => rfl
    | cons y s =>
      exfalso
      rw [List.getLast?_cons_cons] at hlast
      have hmem : x ∈ y :: s := mem_of_getLast? hlast
      rw [List.nodup_cons] at hnd
      exact hnd.1 hmem

theorem simplePath_two_le {grid : Grid} {rows cols : ℕ} {a b : Cell} {p : List Cell}
    (h : SimplePath grid rows cols a b p) (hab : a ≠ b) : 2 ≤ p.length := by
  obtain ⟨⟨hne, -, -⟩, hhead, hlast, -⟩ := h
  cases p with
  | nil => exact absurd rfl hne
  | cons x t =>
    cases t with
    | nil =>
      exfalso
      have h1 : x = a := by simpa using hhead
      have h2 : x = b := by simpa using hlast
      exact hab (by rw [← h1, h2])
    | cons y s => simp

theorem simplePath_front {grid : Grid} {rows cols : ℕ} {a b : Cell} {p : List Cell}
    (h : SimplePath grid rows cols a b p) (h2 : 2 ≤ p.length) :
    ∃ y t, p = a :: y :: t := by
  obtain ⟨-, hhead, -, -⟩ := h
  cases p with
  | nil => simp at h2
  | cons x ts =>
    cases ts with
    | nil => simp at h2
    | cons y s =>
      have hx : x = a := by simpa using hhead
      exact ⟨y, s, by rw [hx]⟩

theorem simplePath_tail {grid : Grid} {rows cols : ℕ} {a b y : Cell} {t : List Cell}
    (h : SimplePath grid rows cols a b (a :: y :: t)) :
    SimplePath grid rows cols y b (y :: t) := by
  obtain ⟨⟨-, hch, hin⟩, -, hlast, hnd⟩ := h
  refine ⟨⟨by simp, (List.chain'_cons.1 hch).2,
    fun v hv => hin v (List.mem_cons_of_mem _ hv)⟩, rfl, ?_, (List.nodup_cons.1 hnd).2⟩
  rw [List.getLast?_cons_cons] at hlast
  exact hlast

theorem simplePath_back {grid : Grid} {rows cols : ℕ} {a b : Cell} {p : List Cell}
    (h : SimplePath grid rows cols a b p) (h2 : 2 ≤ p.length) :
    ∃ p' x, p = p' ++ [b] ∧ SimplePath grid rows cols a x p' ∧
      openTo grid rows cols x b ∧ x ∈ p' := by
  obtain ⟨⟨hne, hch, hin⟩, hhead, hlast, hnd⟩ := h
  have hsplit : p.dropLast ++ [p.getLast hne] = p := List.dropLast_append_getLast hne
  have hlastb : p.getLast hne = b := by
    have hgl := List.getLast?_eq_getLast p hne
    rw [hlast] at hgl
    injection hgl with h'
    exact h'.symm
  have hp'ne : p.dropLast ≠ [] := by
    intro hcon
    have hlencon := congrArg List.length hcon
    rw [List.length_dropLast] at hlencon
    simp at hlencon
    omega
  obtain ⟨x, hxl⟩ := exists_getLast? hp'ne
  refine ⟨p.dropLast, x, ?_, ⟨⟨hp'ne, ?_, ?_⟩, ?_, hxl, ?_⟩, ?_, mem_of_getLast? hxl⟩
  · rw [← hlastb]
    exact hsplit.symm
  · rw [← hsplit] at hch
    exact (List.chain'_append.1 hch).1
  · intro v hv
    refine hin v ?_
    rw [← hsplit]
    exact List.mem_append.2 (Or.inl hv)
  · rw [← hsplit] at hhead
    rw [List.head?_append_of_ne_nil _ hp'ne] at hhead
    exact hhead
  · rw [← hsplit] at hnd
    exact List.Nodup.of_append_left hnd
  · rw [← hsplit] at hch
    obtain ⟨-, -, hcross⟩ := List.chain'_append.1 hch
    have hxb := hcross x (by rw [Option.mem_def]; exact hxl) (p.getLast hne)
      (by rw [Option.mem_def]; rfl)
    rw [hlastb] at hxb
    exact hxb

theorem max_interior_impossible {rows cols : ℕ} {st : MState} {par : Cell → Option Cell}
    {rank : Cell → ℕ} {B : ℕ} (G : CarveGhost rows cols st par rank B)
    {p : List Cell} {a b m : Cell}
    (hsp : SimplePath st.grid rows cols a b p) (hm : m ∈ p) (hma : m ≠ a) (hmb : m ≠ b)
    (hmax : ∀ w ∈ p, rank w ≤ rank m) : False := by
  obtain ⟨⟨hne, hch, hin⟩, hhead, hlast, hnd⟩ := hsp
  obtain ⟨u, v, hpv⟩ := List.append_of_mem hm
  subst hpv
  have hune : u ≠ [] := by
    intro hcon
    subst hcon
    have : m = a := by simpa using hhead
    exact hma this
  cases v with
  | nil =>
    rw [List.getLast?_concat] at hlast
    injection hlast with h'
    exact hmb h'
  | cons y s =>
    rw [List.chain'_append] at hch
    obtain ⟨hchu, hchmv, hcross⟩ := hch
    obtain ⟨x, hxl⟩ := exists_getLast? hune
    have hopenxm : openTo st.grid rows cols x m :=
      hcross x (by rw [Option.mem_def]; exact hxl) m (by rw [Option.mem_def]; rfl)
    have hopenmy : openTo st.grid rows cols m y := (List.chain'_cons.1 hchmv).1
    have hxmem : x ∈ u := mem_of_getLast? hxl
    have hxp : x ∈ u ++ m :: y :: s := List.mem_append.2 (Or.inl hxmem)
    have hyp : y ∈ u ++ m :: y :: s := List.mem_append.2 (Or.inr (by simp))
    have hxb : InB rows cols x := hin x hxp
    have hyb : InB rows cols y := hin y hyp
    have hmb2 : InB rows cols m := hin m (List.mem_append.2 (Or.inr (by simp)))
    have h1 : par m = some x :=
      edge_parent G hmb2 hxb (ghost_openTo_symm G hxb hmb2 hopenxm) (hmax x hxp)
    have h2 : par m = some y := edge_parent G hmb2 hyb hopenmy (hmax y hyp)
    have hxy : x = y := by
      rw [h1] at h2
      exact Option.some.inj h2
    have hdisj := List.disjoint_of_nodup_append hnd
    exact hdisj hxmem (by rw [hxy]; simp)

theorem ghost_uniq {rows cols : ℕ} {st : MState} {par : Cell → Option Cell}
    {rank : Cell → ℕ} {B : ℕ} (G : CarveGhost rows cols st par rank B) :
    ∀ N : ℕ, ∀ a b : Cell, ∀ p q : List Cell, p.length + q.length ≤ N →
      SimplePath st.grid rows cols a b p → SimplePath st.grid rows cols a b q → p = q := by
  intro N
  induction N with
  | zero =>
    intro a b p q hlen hp hq
    exfalso
    have hne := hp.1.1
    cases p with
    | nil => exact hne rfl
    | cons x t => simp at hlen
  | succ N ih =>
    intro a b p q hlen hp hq
    by_cases hab : a = b
    · subst hab
      rw [simplePath_self hp, simplePath_self hq]
    · have hp2 : 2 ≤ p.length := simplePath_two_le hp hab
      have hq2 : 2 ≤ q.length := simplePath_two_le hq hab
      obtain ⟨m, hmm, hmax⟩ := exists_max_rank rank (p ++ q) (by
        intro hcon
        exact hp.1.1 (List.append_eq_nil.1 hcon).1)
      have hmaxp : ∀ w ∈ p, rank w ≤ rank m := fun w hw =>
        hmax w (List.mem_append.2 (Or.inl hw))
      have hmaxq : ∀ w ∈ q, rank w ≤ rank m := fun w hw =>
        hmax w (List.mem_append.2 (Or.inr hw))
      have hm_ab : m = a ∨ m = b := by
        rcases List.mem_append.1 hmm with hmp | hmq
        · by_contra hcon
          push_neg at hcon
          exact max_interior_impossible G hp hmp hcon.1 hcon.2 hmaxp
        · by_contra hcon
          push_neg at hcon
          exact max_interior_impossible G hq hmq hcon.1 hcon.2 hmaxq
      rcases hm_ab with rfl | rfl
      · obtain ⟨y, t, rfl⟩ := simplePath_front hp hp2
        obtain ⟨z, s, rfl⟩ := simplePath_front hq hq2
        have hopen_my : openTo st.grid rows cols m y := (List.chain'_cons.1 hp.1.2.1).1
        have hopen_mz : openTo st.grid rows cols m z := (List.chain'_cons.1 hq.1.2.1).1
        have hmB : InB rows cols m := hp.1.2.2 m (by simp)
        have hyB : InB rows cols y := hp.1.2.2 y (by simp)
        have hzB : InB rows cols z := hq.1.2.2 z (by simp)
        have h1 : par m = some y :=
          edge_parent G hmB hyB hopen_my (hmaxp y (by simp))
        have h2 : par m = some z :=
          edge_parent G hmB hzB hopen_mz (hmaxq z (by simp))
        have hyz : y = z := by
          rw [h1] at h2
          exact Option.some.inj h2
        subst hyz
        have hlen' : (y :: t).length + (y :: s).length ≤ N := by
          simp only [List.length_cons] at hlen ⊢
          omega
        rw [ih y b (y :: t) (y :: s) hlen' (simplePath_tail hp) (simplePath_tail hq)]
      · obtain ⟨p', x, hpeq, hp'sp, hxopen, hxmem⟩ := simplePath_back hp hp2
        obtain ⟨q', z, hqeq, hq'sp, hzopen, hzmem⟩ := simplePath_back hq hq2
        have hxb : InB rows cols x := hp'sp.1.2.2 x hxmem
        have hzb : InB rows cols z := hq'sp.1.2.2 z hzmem
        have hbb : InB rows cols m := hp.1.2.2 m (by rw [hpeq]; simp)
        have hx_rank : rank x ≤ rank m :=
          hmaxp x (by rw [hpeq]; exact List.mem_append.2 (Or.inl hxmem))
        have hz_rank : rank z ≤ rank m :=
          hmaxq z (by rw [hqeq]; exact List.mem_append.2 (Or.inl hzmem))
        have h1 : par m = some x :=
          edge_parent G hbb hxb (ghost_openTo_symm G hxb hbb hxopen) hx_rank
        have h2 : par m = some z :=
          edge_parent G hbb hzb (ghost_openTo_symm G hzb hbb hzopen) hz_rank
        have hxz : x = z := by
          rw [h1] at h2
          exact Option.some.inj h2
        subst hxz
        have hlen' : p'.length + q'.length ≤ N := by
          have hp_len := congrArg List.length hpeq
          have hq_len := congrArg List.length hqeq
          rw [List.length_append] at hp_len hq_len
          simp at hp_len hq_len
          omega
        rw [hpeq, hqeq, ih a x p' q' hlen' hp'sp hq'sp]

theorem carve_PerfectMaze {rows cols : ℕ} {st : MState} (inv : CarveInv rows cols st)
    (hstack : st.stack = []) (hr : 0 < rows) (hc : 0 < cols) :
    PerfectMaze st.grid rows cols := by
  have hall := carve_allVisited inv hstack
  obtain ⟨par, rank, B, G⟩ := inv.ghost
  refine ⟨⟨inv.wf.gridRows, inv.wf.gridCols'⟩, hr, hc, ?_, ?_, ?_, ?_⟩
  · intro a b hab
    obtain ⟨ha, hb⟩ := openTo_inB hab
    exact ghost_openTo_symm G ha hb hab
  · intro v hvb
    obtain ⟨p, hsp, -⟩ := ghost_conn G hall hr hc v hvb
    exact ⟨p, hsp⟩
  · intro a b p q hp hq
    exact ghost_uniq G (p.length + q.length) a b p q (le_refl _) hp hq
  · have hallij : ∀ i, i < rows → ∀ j, j < cols → visGet st.visited i j = true := by
      intro i hi j hj
      exact hall (i, j) ⟨hi, hj⟩
    have huz := unvisited_zero inv.wf.visRows inv.wf.visCols hallij
    have hcnt := inv.count
    omega

/-- C2: for every `rows > 0`, `cols > 0` and every choice sequence, `generate_maze`
succeeds and returns, together with the corner endpoints, a grid that is a perfect
maze: walls are symmetric (the open-step relation is symmetric), every cell is
reachable from `(0, 0)`, the simple path between any two cells is unique (so the
open-edge graph is acyclic), and there are exactly `rows * cols - 1` open edges. -/
theorem generate_maze_perfect (rows cols : ℤ) (ch : ℕ → ℕ)
    (hr : 0 < rows) (hc : 0 < cols) :
    ∃ grid : Grid, generate_maze rows cols ch =
        .ok (grid, (0, 0), (rows.toNat - 1, cols.toNat - 1)) ∧
      PerfectMaze grid rows.toNat cols.toNat := by
  have hR : 0 < rows.toNat := by omega
  have hC : 0 < cols.toNat := by omega
  have hinit := initMState_CarveInv hR hC
  have hstk1 : (initMState rows.toNat cols.toNat).stack.length = 1 := by
    simp [initMState]
  have hmeas : 2 * unvisited (initMState rows.toNat cols.toNat).visited +
      (initMState rows.toNat cols.toNat).stack.length ≤
      2 * (rows.toNat * cols.toNat) := by
    have hcnt := hinit.count
    omega
  have hIs := carve_isSome rows.toNat cols.toNat ch (2 * (rows.toNat * cols.toNat))
    (initMState rows.toNat cols.toNat) hinit.wf hmeas
  rw [Option.isSome_iff_exists] at hIs
  obtain ⟨stf, hstf⟩ := hIs
  obtain ⟨invF, hstkF⟩ := carve_CarveInv _ _ _ hinit hstf
  refine ⟨stf.grid, ?_, carve_PerfectMaze invF hstkF hR hC⟩
  unfold generate_maze
  rw [if_neg (by omega)]
  simp only [hstf]

/-- Witness for `generate_maze_perfect`: the 2×2 maze under the choice sequence
`t ↦ 7t + 3` is generated successfully and is perfect. -/
theorem generate_maze_perfect_witness :
    (0 : ℤ) < 2 ∧ ∃ grid : Grid, generate_maze 2 2 (fun t => t * 7 + 3) =
        .ok (grid, (0, 0), ((2 : ℤ).toNat - 1, (2 : ℤ).toNat - 1)) ∧
      PerfectMaze grid (2 : ℤ).toNat (2 : ℤ).toNat :=
  ⟨by decide, generate_maze_perfect 2 2 (fun t => t * 7 + 3) (by decide) (by decide)⟩

theorem openTo_ne {grid : Grid} {rows cols : ℕ} {a b : Cell}
    (h : openTo grid rows cols a b) : a ≠ b := by
  obtain ⟨-, -, hcases⟩ := h
  intro hcon
  subst hcon
  rcases hcases with ⟨-, h2, -⟩ | ⟨-, h2, -⟩ | ⟨-, h2, -⟩ | ⟨-, h2, -⟩ <;> omega

theorem simplePath_reverse {grid : Grid} {rows cols : ℕ} {a b : Cell} {p : List Cell}
    (hsym : ∀ x y, openTo grid rows cols x y → openTo grid rows cols y x)
    (h : SimplePath grid rows cols a b p) : SimplePath grid rows cols b a p.reverse := by
  obtain ⟨⟨hne, hch, hin⟩, hhead, hlast, hnd⟩ := h
  refine ⟨⟨?_, ?_, ?_⟩, ?_, ?_, ?_⟩
  · intro hcon
    exact hne (by simpa using congrArg List.reverse hcon)
  · rw [List.chain'_reverse]
    refine List.Chain'.imp ?_ hch
    intro x y hxy
    exact hsym x y hxy
  · intro v hv
    exact hin v (List.mem_reverse.1 hv)
  · rw [List.head?_reverse]
    exact hlast
  · rw [List.getLast?_reverse]
    exact hhead
  · exact List.nodup_reverse.2 hnd

theorem walk_concat {grid : Grid} {rows cols : ℕ} {a b c : Cell} {p q : List Cell}
    (hp : OpenWalk grid rows cols p) (hq : OpenWalk grid rows cols q)
    (hpl : p.getLast? = some b) (hqh : q.head? = some b)
    (hph : p.head? = some a) (hql : q.getLast? = some c) :
    ∃ w, OpenWalk grid rows cols w ∧ w.head? = some a ∧ w.getLast? = some c ∧
      w.length + 1 = p.length + q.length := by
  obtain ⟨hpne, hpch, hpin⟩ := hp
  obtain ⟨hqne, hqch, hqin⟩ := hq
  cases q with
  | nil => exact absurd rfl hqne
  | cons x t =>
    have hxb : x = b := by simpa using hqh
    subst hxb
    refine ⟨p ++ t, ⟨?_, ?_, ?_⟩, ?_, ?_, ?_⟩
    · intro hcon
      exact hpne (List.append_eq_nil.1 hcon).1
    · rw [List.chain'_append]
      refine ⟨hpch, (List.chain'_cons'.1 hqch).2, ?_⟩
      intro u hu v hv
      rw [Option.mem_def, hpl] at hu
      injection hu with hu
      rw [Option.mem_def] at hv
      have hov := (List.chain'_cons'.1 hqch).1 v hv
      exact hu ▸ hov
    · intro v hv
      rcases List.mem_append.1 hv with hv | hv
      · exact hpin v hv
      · exact hqin v (List.mem_cons_of_mem _ hv)
    · rw [List.head?_append_of_ne_nil _ hpne]
      exact hph
    · cases t with
      | nil =>
        simp only [List.append_nil]
        rw [hpl]
        simpa using hql
      | cons y s =>
        rw [List.getLast?_append_of_ne_nil _ (by simp)]
        rw [List.getLast?_cons_cons] at hql
        exact hql
    · rw [List.length_append]
      simp only [List.length_cons]
      omega

theorem not_nodup_split {α : Type} {l : List α} (h : ¬ l.Nodup) :
    ∃ (x : α) (l1 l2 l3 : List α), l = l1 ++ x :: l2 ++ x :: l3 := by
  induction l with
  | nil => exact absurd List.nodup_nil h
  | cons a t ih =>
    by_cases hat : a ∈ t
    · obtain ⟨l2, l3, ht⟩ := List.append_of_mem hat
      exact ⟨a, [], l2, l3, by rw [ht]; simp⟩
    · by_cases hnt : t.Nodup
      · exact absurd (List.nodup_cons.2 ⟨hat, hnt⟩) h
      · obtain ⟨x, l1, l2, l3, ht⟩ := ih hnt
        exact ⟨x, a :: l1, l2, l3, by rw [ht]; rfl⟩

theorem walk_deloop {grid : Grid} {rows cols : ℕ} :
    ∀ (n : ℕ) (p : List Cell) (a b : Cell), p.length ≤ n →
      OpenWalk grid rows cols p → p.head? = some a → p.getLast? = some b →
      ∃ q, SimplePath grid rows cols a b q ∧ q.length ≤ p.length := by
  intro n
  induction n with
  | zero =>
    intro p a b hlen hw hh hl
    obtain ⟨hne, -, -⟩ := hw
    cases p with
    | nil => exact absurd rfl hne
    | cons x t => simp at hlen
  | succ n ih =>
    intro p a b hlen hw hh hl
    by_cases hnd : p.Nodup
    · exact ⟨p, ⟨hw, hh, hl, hnd⟩, le_refl _⟩
    · obtain ⟨x, l1, l2, l3, hsplit⟩ := not_nodup_split hnd
      subst hsplit
      obtain ⟨hne, hch, hin⟩ := hw
      have hw' : OpenWalk grid rows cols (l1 ++ x :: l3) := by
        refine ⟨by simp, ?_, ?_⟩
        · have hch2 := hch
          rw [List.chain'_append] at hch2
          obtain ⟨hA, hB, hcr⟩ := hch2
          rw [List.chain'_append] at hA
          obtain ⟨h1, -, hcr1⟩ := hA
          rw [List.chain'_append]
          refine ⟨h1, hB, ?_⟩
          intro u hu v hv
          refine hcr1 u hu v ?_
          simpa using hv
        · intro v hv
          refine hin v ?_
          rcases List.mem_append.1 hv with hv | hv
          · exact List.mem_append.2 (Or.inl (List.mem_append.2 (Or.inl hv)))
          · rcases List.mem_cons.1 hv with rfl | hv
            · exact List.mem_append.2 (Or.inr (by simp))
            · exact List.mem_append.2 (Or.inr (by simp [hv]))
      have hh' : (l1 ++ x :: l3).head? = some a := by
        cases l1 with
        | nil =>
          simp only [List.nil_append]
          simp only [List.nil_append, List.cons_append, List.head?_cons] at hh ⊢
          exact hh
        | cons y t1 =>
          simp only [List.cons_append, List.head?_cons] at hh ⊢
          exact hh
      have hl' : (l1 ++ x :: l3).getLast? = some b := by
        rw [List.getLast?_append_of_ne_nil _ (by simp : (x :: l3) ≠ [])]
        rw [List.getLast?_append_of_ne_nil _ (by simp : (x :: l3) ≠ [])] at hl
        exact hl
      have hlen' : (l1 ++ x :: l3).length ≤ n := by
        simp only [List.length_append, List.length_cons] at hlen ⊢
        omega
      obtain ⟨q, hq, hqlen⟩ := ih (l1 ++ x :: l3) a b hlen' hw' hh' hl'
      refine ⟨q, hq, ?_⟩
      simp only [List.length_append, List.length_cons] at hqlen ⊢
      omega

theorem simplePath_prefix {grid : Grid} {rows cols : ℕ} {a b x : Cell} {p1 p2 : List Cell}
    (h : SimplePath grid rows cols a b (p1 ++ x :: p2)) :
    SimplePath grid rows cols a x (p1 ++ [x]) := by
  obtain ⟨⟨hne, hch, hin⟩, hhead, hlast, hnd⟩ := h
  refine ⟨⟨by simp, ?_, ?_⟩, ?_, List.getLast?_concat _, ?_⟩
  · rw [List.chain'_append] at hch ⊢
    obtain ⟨h1, h2, hcr⟩ := hch
    refine ⟨h1, List.chain'_singleton _, ?_⟩
    intro u hu v hv
    refine hcr u hu v ?_
    simpa using hv
  · intro v hv
    refine hin v ?_
    rcases List.mem_append.1 hv with hv | hv
    · exact List.mem_append.2 (Or.inl hv)
    · rcases List.mem_singleton.1 hv with rfl
      exact List.mem_append.2 (Or.inr (by simp))
  · cases p1 with
    | nil => simpa using hhead
    | cons y t =>
      simp only [List.cons_append, List.head?_cons] at hhead ⊢
      exact hhead
  · refine List.Nodup.sublist ?_ hnd
    refine List.Sublist.append_left ?_ p1
    exact List.Sublist.cons₂ _ (List.nil_sublist _)

theorem simplePath_suffix {grid : Grid} {rows cols : ℕ} {a b x : Cell} {p1 p2 : List Cell}
    (h : SimplePath grid rows cols a b (p1 ++ x :: p2)) :
    SimplePath grid rows cols x b (x :: p2) := by
  obtain ⟨⟨hne, hch, hin⟩, hhead, hlast, hnd⟩ := h
  refine ⟨⟨by simp, ?_, ?_⟩, rfl, ?_, ?_⟩
  · rw [List.chain'_append] at hch
    exact hch.2.1
  · intro v hv
    exact hin v (List.mem_append.2 (Or.inr hv))
  · rw [List.getLast?_append_of_ne_nil _ (by simp : x :: p2 ≠ [])] at hlast
    exact hlast
  · exact List.Nodup.of_append_right hnd

theorem flat_inj {cols : ℕ} {v w : Cell} (hv : v.2 < cols) (hw : w.2 < cols)
    (h : flat cols v = flat cols w) : v = w := by
  refine Prod.ext ?_ ?_
  · rw [← flat_div cols v hv, ← flat_div cols w hw, h]
  · rw [← flat_mod cols v hv, ← flat_mod cols w hw, h]

theorem flat_surj {rows cols : ℕ} (hc : 0 < cols) {i : ℕ} (hi : i < rows * cols) :
    ∃ v : Cell, InB rows cols v ∧ flat cols v = i := by
  refine ⟨(i / cols, i % cols), ⟨?_, Nat.mod_lt _ hc⟩, ?_⟩
  · exact Nat.div_lt_of_lt_mul (by rw [Nat.mul_comm]; exact hi)
  · unfold flat
    dsimp only
    rw [Nat.mul_comm]
    exact Nat.div_add_mod i cols

theorem nodup_inb_length_le {rows cols : ℕ} {p : List Cell}
    (hnd : p.Nodup) (hin : ∀ v ∈ p, InB rows cols v) : p.length ≤ rows * cols := by
  have hmapnd : (p.map (flat cols)).Nodup := by
    refine List.Nodup.map_on ?_ hnd
    intro v hvp w hwp hf
    exact flat_inj (hin v hvp).2 (hin w hwp).2 hf
  have hsub : (p.map (flat cols)).toFinset ⊆ Finset.range (rows * cols) := by
    intro i hi
    rw [List.mem_toFinset, List.mem_map] at hi
    obtain ⟨v, hvp, hvi⟩ := hi
    rw [Finset.mem_range, ← hvi]
    exact flat_lt (hin v hvp)
  have hcard := Finset.card_le_card hsub
  rw [Finset.card_range, List.toFinset_card_of_nodup hmapnd] at hcard
  rw [List.length_map] at hcard
  exact hcard

theorem perfect_SPTree {grid : Grid} {rows cols : ℕ} (pm : PerfectMaze grid rows cols)
    {s : Cell} (hs : InB rows cols s) :
    ∃ sp d, SPTree grid rows cols s sp d := by
  classical
  have hpath : ∀ v : Cell, ∃ p, InB rows cols v → SimplePath grid rows cols s v p := by
    intro v
    by_cases hv : InB rows cols v
    · obtain ⟨ps, hps⟩ := pm.conn s hs
      obtain ⟨pv, hpv⟩ := pm.conn v hv
      have hrev := simplePath_reverse pm.sym hps
      obtain ⟨w, hw, hwh, hwl, hwlen⟩ := walk_concat hrev.1 hpv.1
        hrev.2.2.1 hpv.2.1 hrev.2.1 hpv.2.2.1
      obtain ⟨q, hq, -⟩ := walk_deloop w.length w s v (le_refl _) hw hwh hwl
      exact ⟨q, fun _ => hq⟩
    · exact ⟨[], fun hcon => absurd hcon hv⟩
  choose P hP using hpath
  have hPuniq : ∀ v q, InB rows cols v → SimplePath grid rows cols s v q → q = P v :=
    fun v q hv hq => pm.uniq s v q (P v) hq (hP v hv)
  refine ⟨fun v => (P v).dropLast.getLast?, fun v => (P v).length - 1,
    ?_, ?_, ?_, ?_, ?_, ?_, ?_⟩
  · rw [simplePath_self (hP s hs)]
    rfl
  · rw [simplePath_self (hP s hs)]
    rfl
  · intro v hv hvs
    have hPv := hP v hv
    have h2 : 2 ≤ (P v).length := simplePath_two_le hPv (fun hcon => hvs hcon.symm)
    obtain ⟨p', x, hpeq, hp'sp, hxopen, hxmem⟩ := simplePath_back hPv h2
    have hxb : InB rows cols x := hp'sp.1.2.2 x hxmem
    have hPx : p' = P x := hPuniq x p' hxb hp'sp
    have hp'ne : p' ≠ [] := hp'sp.1.1
    have hp'pos : 1 ≤ p'.length := List.length_pos.2 hp'ne
    refine ⟨x, ?_, hxb, hxopen, ?_⟩
    · rw [hpeq, List.dropLast_concat]
      exact hp'sp.2.2.1
    · have hlen := congrArg List.length hpeq
      rw [List.length_append, List.length_singleton] at hlen
      rw [← hPx]
      omega
  · intro u v hu hv hopen
    have huv_ne : u ≠ v := openTo_ne hopen
    have hPusp := hP u hu
    by_cases hvmem : v ∈ P u
    · obtain ⟨pre, post, hPu⟩ := List.append_of_mem hvmem
      have hsplit := hPusp
      rw [hPu] at hsplit
      have hpre : SimplePath grid rows cols s v (pre ++ [v]) := simplePath_prefix hsplit
      have hsuf : SimplePath grid rows cols v u (v :: post) := simplePath_suffix hsplit
      have hedge : SimplePath grid rows cols v u [v, u] := by
        refine ⟨⟨by simp, List.chain'_pair.2 (pm.sym u v hopen), ?_⟩, rfl, rfl, ?_⟩
        · intro w hw
          rcases List.mem_cons.1 hw with rfl | hw
          · exact hv
          · rcases List.mem_singleton.1 hw with rfl
            exact hu
        · refine List.nodup_cons.2 ⟨?_, List.nodup_singleton _⟩
          intro hcon
          exact huv_ne (List.mem_singleton.1 hcon).symm
      have hvpost : v :: post = [v, u] := pm.uniq v u (v :: post) [v, u] hsuf hedge
      have hpost : post = [u] := by
        simpa using congrArg List.tail hvpost
      refine Or.inr ?_
      rw [hPu, hpost]
      have hassoc : pre ++ v :: [u] = (pre ++ [v]) ++ [u] := by simp
      rw [hassoc, List.dropLast_concat, List.getLast?_concat]
    · have hext : SimplePath grid rows cols s v (P u ++ [v]) := by
        obtain ⟨⟨hne, hch, hin⟩, hhead, hlast, hnd⟩ := hPusp
        refine ⟨⟨by simp, ?_, ?_⟩, ?_, List.getLast?_concat _, ?_⟩
        · rw [List.chain'_append]
          refine ⟨hch, List.chain'_singleton _, ?_⟩
          intro x hx y hy
          rw [Option.mem_def, hlast] at hx
          injection hx with hx
          rw [Option.mem_def] at hy
          injection hy with hy
          rw [← hx, ← hy]
          exact hopen
        · intro w hw
          rcases List.mem_append.1 hw with hw | hw
          · exact hin w hw
          · rcases List.mem_singleton.1 hw with rfl
            exact hv
        · rw [List.head?_append_of_ne_nil _ hne]
          exact hhead
        · refine List.Nodup.append hnd (List.nodup_singleton _) ?_
          intro w hw1 hw2
          rcases List.mem_singleton.1 hw2 with rfl
          exact hvmem hw1
      have hPveq : P u ++ [v] = P v := hPuniq v _ hv hext
      refine Or.inl ?_
      rw [← hPveq, List.dropLast_concat]
      exact hPusp.2.2.1
  · intro v hv
    have hPv := hP v hv
    have hle := nodup_inb_length_le hPv.2.2.2 hPv.1.2.2
    have hpos : 1 ≤ (P v).length := List.length_pos.2 hPv.1.1
    have hrc : 0 < rows * cols := Nat.mul_pos pm.rpos pm.cpos
    omega
  · intro v hv
    have hPv := hP v hv
    have hpos : 1 ≤ (P v).length := List.length_pos.2 hPv.1.1
    exact ⟨P v, hPv.1, hPv.2.1, hPv.2.2.1, by omega⟩
  · intro v p hv hw hh hl
    obtain ⟨q, hq, hqlen⟩ := walk_deloop p.length p s v (le_refl _) hw hh hl
    have hqP : q = P v := hPuniq v q hv hq
    have hpos : 1 ≤ q.length := List.length_pos.2 hq.1.1
    rw [hqP] at hpos hqlen
    omega

theorem nbrIdx_sound {grid : Grid} {rows cols : ℕ} {v : Cell}
    (hv : InB rows cols v) (hc : 0 < cols) :
    ∀ ni ∈ nbrIdx grid rows cols (flat cols v),
      ∃ w : Cell, InB rows cols w ∧ openTo grid rows cols v w ∧ ni = flat cols w := by
  intro ni hni
  have hv1 := hv.1
  have hv2 := hv.2
  have hdv := flat_div cols v hv.2
  have hmv := flat_mod cols v hv.2
  unfold nbrIdx at hni
  rw [hdv, hmv] at hni
  simp only [List.mem_append] at hni
  rcases hni with ((h | h) | h) | h <;> rw [mem_ite_singleton] at h
  · obtain ⟨⟨h1, h2⟩, h3⟩ := h
    refine ⟨(v.1, v.2 + 1), ⟨hv.1, h1⟩, ⟨hv.1, hv.2, Or.inl ⟨rfl, rfl, h1, h2⟩⟩, ?_⟩
    subst h3
    unfold flat
    dsimp only
    omega
  · obtain ⟨⟨h1, h2⟩, h3⟩ := h
    refine ⟨(v.1, v.2 - 1), ⟨hv.1, by omega⟩, ⟨hv.1, hv.2, Or.inr (Or.inl ⟨rfl, by omega, h2⟩)⟩, ?_⟩
    subst h3
    simp only [flat]
    omega
  · obtain ⟨⟨h1, h2⟩, h3⟩ := h
    refine ⟨(v.1 + 1, v.2), ⟨h1, hv.2⟩, ⟨hv.1, hv.2, Or.inr (Or.inr (Or.inl ⟨rfl, rfl, h1, h2⟩))⟩, ?_⟩
    subst h3
    unfold flat
    dsimp only
    rw [Nat.succ_mul]
    omega
  · obtain ⟨⟨h1, h2⟩, h3⟩ := h
    obtain ⟨k, hk⟩ : ∃ k, v.1 = k + 1 := ⟨v.1 - 1, by omega⟩
    refine ⟨(k, v.2), ⟨by omega, hv.2⟩, ⟨hv.1, hv.2, Or.inr (Or.inr (Or.inr ⟨rfl, by omega, h2⟩))⟩, ?_⟩
    subst h3
    simp only [flat]
    rw [hk, Nat.succ_mul]
    omega

theorem relax_TreeInv {grid : Grid} {rows cols endI : ℕ} {s : Cell}
    {sp : Cell → Option Cell} {d : Cell → ℕ} {st : AState} {acc : List ℕ}
    {vc w : Cell} (hT : SPTree grid rows cols s sp d) (hs : InB rows cols s)
    (hvc : InB rows cols vc) (hw : InB rows cols w)
    (hedge : openTo grid rows cols vc w)
    (hcl : st.closed.getD (flat cols vc) false = true)
    (hwf : AWF (rows * cols) st)
    (inv : TreeInv rows cols s sp d st) :
    TreeInv rows cols s sp d (relax cols endI (flat cols vc) st acc (flat cols w)).1 := by
  by_cases hup : st.g.getD (flat cols vc) 0 + 1 < st.g.getD (flat cols w) 0
  · have hgi_fin : st.g.getD (flat cols vc) 0 ≠ INF := inv.closedFin vc hvc hcl
    have hgi : st.g.getD (flat cols vc) 0 = d vc := by
      rcases inv.gChar vc hvc with h | h
      · exact absurd h hgi_fin
      · exact h
    have hgINF : st.g.getD (flat cols w) 0 = INF := by
      rcases inv.gChar w hw with h | h
      · exact h
      · exfalso
        rcases hT.dich vc w hvc hw hedge with hsw | hsvc
        · have hwne : w ≠ s := by
            intro hcon
            rw [hcon, hT.root] at hsw
            exact Option.noConfusion hsw
          obtain ⟨u, hu1, -, -, hu4⟩ := hT.parent w hw hwne
          rw [hsw] at hu1
          have huvc : vc = u := Option.some.inj hu1
          rw [← huvc] at hu4
          omega
        · have hvcne : vc ≠ s := by
            intro hcon
            rw [hcon, hT.root] at hsvc
            exact Option.noConfusion hsvc
          obtain ⟨u, hu1, -, -, hu4⟩ := hT.parent vc hvc hvcne
          rw [hsvc] at hu1
          have huw : w = u := Option.some.inj hu1
          rw [← huw] at hu4
          omega
    have hspw : sp w = some vc := by
      rcases hT.dich vc w hvc hw hedge with hsw | hsvc
      · exact hsw
      · exfalso
        have hvcne : vc ≠ s := by
          intro hcon
          rw [hcon, hT.root] at hsvc
          exact Option.noConfusion hsvc
        obtain ⟨u, hu1, -, hu3⟩ := inv.prevChar vc hvc hvcne hgi_fin
        rw [hsvc] at hu1
        have huw : w = u := Option.some.inj hu1
        rw [← huw] at hu3
        exact inv.closedFin w hw hu3 hgINF
    have hdw : d w = d vc + 1 := by
      have hwne : w ≠ s := by
        intro hcon
        rw [hcon, hT.root] at hspw
        exact Option.noConfusion hspw
      obtain ⟨u, hu1, -, -, hu4⟩ := hT.parent w hw hwne
      rw [hspw] at hu1
      have huvc : vc = u := Option.some.inj hu1
      rw [← huvc] at hu4
      exact hu4
    have hws : w ≠ s := by
      intro hcon
      rw [hcon, hT.root] at hspw
      exact Option.noConfusion hspw
    have hfne : flat cols w ≠ flat cols s := by
      intro hcon
      exact hws (flat_inj hw.2 hs.2 hcon)
    have hwlt : flat cols w < rows * cols := flat_lt hw
    have hglen : flat cols w < st.g.length := by rw [hwf.gLen]; exact hwlt
    have hplen : flat cols w < st.prev.length := by rw [hwf.prevLen]; exact hwlt
    have hgset : ∀ v : Cell, InB rows cols v →
        (st.g.set (flat cols w) (st.g.getD (flat cols vc) 0 + 1)).getD (flat cols v) 0 =
        if v = w then d w else st.g.getD (flat cols v) 0 := by
      intro v hvb
      by_cases hveq : v = w
      · rw [if_pos hveq, hveq, getD_set_self _ _ _ _ hglen, hgi, hdw]
      · rw [if_neg hveq, getD_set_ne _ _ _ _ _
          (fun hcon => hveq (flat_inj hvb.2 hw.2 hcon.symm))]
    have hcommon : ∀ st' : AState, st'.g = st.g.set (flat cols w) (st.g.getD (flat cols vc) 0 + 1) →
        st'.prev = st.prev.set (flat cols w) ((flat cols vc : ℕ) : ℤ) →
        st'.closed = st.closed →
        (∀ x ∈ st'.heap, x ∈ st.heap ∨ x.2.2 = flat cols w) →
        TreeInv rows cols s sp d st' := by
      intro st' hg' hp' hc' hh'
      refine ⟨?_, ?_, ?_, ?_, ?_, ?_⟩
      · intro v hvb
        rw [hg', hgset v hvb]
        by_cases hveq : v = w
        · rw [if_pos hveq]
          exact Or.inr (by rw [hveq])
        · rw [if_neg hveq]
          exact inv.gChar v hvb
      · rw [hg', hgset s hs, if_neg (fun hcon => hws hcon.symm)]
        exact inv.gs
      · rw [hp', getD_set_ne _ _ _ _ _ hfne]
        exact inv.prevs
      · intro v hvb hvne hvfin
        rw [hg', hgset v hvb] at hvfin
        by_cases hveq : v = w
        · refine ⟨vc, hveq ▸ hspw, ?_, ?_⟩
          · rw [hp', hveq, getD_set_self _ _ _ _ hplen]
          · rw [hc']
            exact hcl
        · rw [if_neg hveq] at hvfin
          obtain ⟨u, hu1, hu2, hu3⟩ := inv.prevChar v hvb hvne hvfin
          refine ⟨u, hu1, ?_, ?_⟩
          · rw [hp', getD_set_ne _ _ _ _ _
              (fun hcon => hveq (flat_inj hvb.2 hw.2 hcon.symm))]
            exact hu2
          · rw [hc']
            exact hu3
      · intro x hx
        rcases hh' x hx with hx' | hx'
        · by_cases hxw : x.2.2 = flat cols w
          · rw [hg', hxw, getD_set_self _ _ _ _ hglen]
            intro hcon
            rw [hgINF] at hup
            omega
          · rw [hg', getD_set_ne _ _ _ _ _ (fun hcon => hxw hcon.symm)]
            exact inv.heapFin x hx'
        · rw [hg', hx', getD_set_self _ _ _ _ hglen]
          intro hcon
          rw [hgINF] at hup
          omega
      · intro v hvb hvcl
        by_cases hveq : v = w
        · rw [hg', hveq, getD_set_self _ _ _ _ hglen]
          intro hcon
          rw [hgINF] at hup
          omega
        · rw [hg', getD_set_ne _ _ _ _ _ (fun hcon => hveq (flat_inj hvb.2 hw.2 hcon.symm))]
          rw [hc'] at hvcl
          exact inv.closedFin v hvb hvcl
    cases ho : st.inOpen.getD (flat cols w) false with
    | true =>
      rw [relax_eq_of_update_open hup ho]
      refine hcommon _ rfl rfl rfl ?_
      intro x hx
      exact Or.inl hx
    | false =>
      rw [relax_eq_of_update_push hup ho]
      refine hcommon _ rfl rfl rfl ?_
      intro x hx
      rcases List.mem_append.1 hx with hx | hx
      · exact Or.inl hx
      · rcases List.mem_singleton.1 hx with rfl
        exact Or.inr rfl
  · rw [relax_eq_of_no_update hup]
    exact inv

theorem relax_basic {cols endI i total : ℕ} {st : AState} {acc : List ℕ} {ni : ℕ}
    (hni : ni < total) (hwf : AWF total st) :
    AWF total (relax cols endI i st acc ni).1 ∧
    (relax cols endI i st acc ni).1.closed = st.closed := by
  by_cases hup : st.g.getD i 0 + 1 < st.g.getD ni 0
  · cases ho : st.inOpen.getD ni false with
    | true =>
      rw [relax_eq_of_update_open hup ho]
      refine ⟨⟨?_, ?_, hwf.inOpenLen, hwf.closedLen, hwf.heapCells⟩, rfl⟩
      · dsimp only
        rw [List.length_set]
        exact hwf.gLen
      · dsimp only
        rw [List.length_set]
        exact hwf.prevLen
    | false =>
      rw [relax_eq_of_update_push hup ho]
      refine ⟨⟨?_, ?_, ?_, hwf.closedLen, ?_⟩, rfl⟩
      · dsimp only
        rw [List.length_set]
        exact hwf.gLen
      · dsimp only
        rw [List.length_set]
        exact hwf.prevLen
      · dsimp only
        rw [List.length_set]
        exact hwf.inOpenLen
      · intro x hx
        rcases List.mem_append.1 hx with hx | hx
        · exact hwf.heapCells x hx
        · rcases List.mem_singleton.1 hx with rfl
          exact hni
  · rw [relax_eq_of_no_update hup]
    exact ⟨hwf, rfl⟩

theorem foldl_relax_TreeInv {grid : Grid} {rows cols endI : ℕ} {s vc : Cell}
    {sp : Cell → Option Cell} {d : Cell → ℕ}
    (hT : SPTree grid rows cols s sp d) (hs : InB rows cols s) (hvc : InB rows cols vc) :
    ∀ (l : List ℕ) (st : AState) (acc : List ℕ),
      (∀ ni ∈ l, ∃ w : Cell, InB rows cols w ∧ openTo grid rows cols vc w ∧
        ni = flat cols w) →
      st.closed.getD (flat cols vc) false = true →
      AWF (rows * cols) st →
      TreeInv rows cols s sp d st →
      TreeInv rows cols s sp d
        (l.foldl (fun p ni => relax cols endI (flat cols vc) p.1 p.2 ni) (st, acc)).1 := by
  intro l
  induction l with
  | nil =>
    intro st acc hl hcl hwf inv
    exact inv
  | cons ni t ih =>
    intro st acc hl hcl hwf inv
    rw [List.foldl_cons]
    obtain ⟨w, hw, hedge, hni⟩ := hl ni (List.mem_cons_self _ _)
    subst hni
    obtain ⟨hw1, hcl1⟩ := relax_basic (flat_lt hw) hwf
    have hres := ih (relax cols endI (flat cols vc) st acc (flat cols w)).1
      (relax cols endI (flat cols vc) st acc (flat cols w)).2
      (fun x hx => hl x (List.mem_cons_of_mem _ hx))
      (by rw [hcl1]; exact hcl) hw1
      (relax_TreeInv hT hs hvc hw hedge hcl hwf inv)
    rw [Prod.mk.eta] at hres
    exact hres

theorem astarIter_TreeInv {grid : Grid} {rows cols endI : ℕ} {s : Cell}
    {sp : Cell → Option Cell} {d : Cell → ℕ}
    (hT : SPTree grid rows cols s sp d) (hs : InB rows cols s) (hc0 : 0 < cols)
    {st : AState} (hwf : AWF (rows * cols) st)
    (inv : TreeInv rows cols s sp d st) :
    TreeInv rows cols s sp d (astarIter grid rows cols endI st).2.1 := by
  cases hp : popMin st.heap with
  | none =>
    rw [astarIter_eq_empty hp]
    exact inv
  | some pr =>
    obtain ⟨m, rest⟩ := pr
    obtain ⟨hmem, hrest, -⟩ := popMin_spec hp
    have hrest_sub : ∀ x ∈ rest, x ∈ st.heap := by
      intro x hx
      rw [hrest] at hx
      exact List.mem_of_mem_erase hx
    have hinv1 : TreeInv rows cols s sp d { st with heap := rest } :=
      ⟨inv.gChar, inv.gs, inv.prevs, inv.prevChar,
       fun x hx => inv.heapFin x (hrest_sub x hx), inv.closedFin⟩
    cases hc : st.closed.getD m.2.2 false with
    | true =>
      rw [astarIter_eq_stale hp hc]
      exact hinv1
    | false =>
      by_cases he : m.2.2 = endI
      · rw [astarIter_eq_goal hp hc he]
        exact hinv1
      · rw [astarIter_eq_expand hp hc he]
        have hmlt : m.2.2 < rows * cols := hwf.heapCells m hmem
        obtain ⟨vc, hvc, hfvc⟩ := flat_surj hc0 hmlt
        rw [← hfvc] at hmlt
        have hclen : flat cols vc < st.closed.length := by
          rw [hwf.closedLen]
          exact hmlt
        rw [← hfvc]
        have hinv2 : TreeInv rows cols s sp d
            { st with heap := rest, closed := st.closed.set (flat cols vc) true } := by
          refine ⟨inv.gChar, inv.gs, inv.prevs, ?_,
            fun x hx => inv.heapFin x (hrest_sub x hx), ?_⟩
          · intro v hvb hvne hvfin
            obtain ⟨u, hu1, hu2, hu3⟩ := inv.prevChar v hvb hvne hvfin
            exact ⟨u, hu1, hu2, getD_set_true_mono _ _ _ hu3⟩
          · intro v hvb hvcl
            dsimp only at hvcl ⊢
            by_cases hveq : flat cols v = flat cols vc
            · rw [hveq, hfvc]
              exact inv.heapFin m hmem
            · rw [getD_set_ne _ _ _ _ _ (fun hcon => hveq hcon.symm)] at hvcl
              exact inv.closedFin v hvb hvcl
        have hwf2 : AWF (rows * cols)
            { st with heap := rest, closed := st.closed.set (flat cols vc) true } := by
          refine ⟨hwf.gLen, hwf.prevLen, hwf.inOpenLen, ?_, ?_⟩
          · dsimp only
            rw [List.length_set]
            exact hwf.closedLen
          · intro x hx
            exact hwf.heapCells x (hrest_sub x hx)
        have hcl2 : ({ st with heap := rest, closed := st.closed.set (flat cols vc) true } : AState).closed.getD (flat cols vc) false = true := by
          dsimp only
          exact getD_set_self _ _ _ _ hclen
        have hfold := @foldl_relax_TreeInv grid rows cols endI s vc sp d hT hs hvc (nbrIdx grid rows cols (flat cols vc))
          { st with heap := rest, closed := st.closed.set (flat cols vc) true } []
          (nbrIdx_sound hvc hc0) hcl2 hwf2 hinv2
        dsimp only
        exact ⟨hfold.gChar, hfold.gs, hfold.prevs, hfold.prevChar, hfold.heapFin,
          hfold.closedFin⟩

theorem astarLoop_TreeInv {grid : Grid} {rows cols endI : ℕ} {s : Cell}
    {sp : Cell → Option Cell} {d : Cell → ℕ}
    (hT : SPTree grid rows cols s sp d) (hs : InB rows cols s) (hc0 : 0 < cols) :
    ∀ (fuel : ℕ) (st : AState), AWF (rows * cols) st → QueueInv st →
      TreeInv rows cols s sp d st →
      TreeInv rows cols s sp d (astarLoop grid rows cols endI fuel st).2.1 := by
  intro fuel
  induction fuel with
  | zero =>
    intro st hwf hq inv
    cases ho : (astarIter grid rows cols endI st).2.2 with
    | some oc =>
      rw [astarLoop_eq_term ho]
      exact astarIter_TreeInv hT hs hc0 hwf inv
    | none =>
      rw [astarLoop_eq_cont_zero ho]
      exact inv
  | succ fuel ih =>
    intro st hwf hq inv
    obtain ⟨hw1, hq1, -, -, -⟩ := astarIter_pres grid endI hwf hq
    cases ho : (astarIter grid rows cols endI st).2.2 with
    | some oc =>
      rw [astarLoop_eq_term ho]
      exact astarIter_TreeInv hT hs hc0 hwf inv
    | none =>
      rw [astarLoop_eq_cont ho]
      exact ih _ hw1 hq1 (astarIter_TreeInv hT hs hc0 hwf inv)

theorem astarInit_TreeInv {grid : Grid} {rows cols : ℕ} {s : Cell}
    {sp : Cell → Option Cell} {d : Cell → ℕ}
    (hT : SPTree grid rows cols s sp d) (hs : InB rows cols s) (eI : ℕ) :
    TreeInv rows cols s sp d (astarInit cols (rows * cols) (flat cols s) eI) := by
  have hsl : flat cols s < (List.replicate (rows * cols) INF).length := by
    rw [List.length_replicate]
    exact flat_lt hs
  refine ⟨?_, ?_, ?_, ?_, ?_, ?_⟩
  · intro v hv
    by_cases hveq : flat cols v = flat cols s
    · have hvs : v = s := flat_inj hv.2 hs.2 hveq
      subst hvs
      right
      rw [hT.droot]
      dsimp only [astarInit]
      rw [hveq, getD_set_self _ _ _ _ hsl]
    · left
      dsimp only [astarInit]
      rw [getD_set_ne _ _ _ _ _ (fun hcon => hveq hcon.symm), getD_replicate,
        if_pos (flat_lt hv)]
  · dsimp only [astarInit]
    exact getD_set_self _ _ _ _ hsl
  · dsimp only [astarInit]
    exact getD_replicate_same _ _ _
  · intro v hv hvne hvfin
    dsimp only [astarInit] at hvfin
    rw [getD_set_ne _ _ _ _ _
      (fun hcon => hvne (flat_inj hv.2 hs.2 hcon.symm)), getD_replicate,
      if_pos (flat_lt hv)] at hvfin
    exact absurd rfl hvfin
  · intro x hx
    dsimp only [astarInit] at hx ⊢
    rcases List.mem_singleton.1 hx with rfl
    dsimp only
    rw [getD_set_self _ _ _ _ hsl]
    decide
  · intro v hv hvcl
    dsimp only [astarInit] at hvcl
    rw [getD_replicate_same] at hvcl
    exact absurd hvcl (by decide)

theorem generate_maze_pm {rows cols : ℤ} {ch : ℕ → ℕ} {grid : Grid} {p q : Cell}
    (h : generate_maze rows cols ch = .ok (grid, p, q)) :
    PerfectMaze grid rows.toNat cols.toNat ∧
      grid.length = rows.toNat ∧ gridCols grid = cols.toNat := by
  unfold generate_maze at h
  by_cases hd : rows ≤ 0 ∨ cols ≤ 0
  · rw [if_pos hd] at h
    exact absurd h (by simp)
  · rw [if_neg hd] at h
    push_neg at hd
    have hR : 0 < rows.toNat := by omega
    have hC : 0 < cols.toNat := by omega
    dsimp only at h
    cases hcv : carve rows.toNat cols.toNat ch (2 * (rows.toNat * cols.toNat))
        (initMState rows.toNat cols.toNat) with
    | none =>
      rw [hcv] at h
      exact absurd h (by simp)
    | some stf =>
      rw [hcv] at h
      dsimp only at h
      have hgr : stf.grid = grid := congrArg Prod.fst (Except.ok.inj h)
      obtain ⟨invF, hstkF⟩ := carve_CarveInv _ _ _ (initMState_CarveInv hR hC) hcv
      have pm := carve_PerfectMaze invF hstkF hR hC
      rw [hgr] at pm
      refine ⟨pm, pm.gw.1, ?_⟩
      obtain ⟨hlen, hrows⟩ := pm.gw
      cases hg : grid with
      | nil =>
        rw [hg] at hlen
        simp at hlen
        omega
      | cons r0 rest =>
        have hr0 := hrows r0 (by rw [hg]; exact List.mem_cons_self _ _)
        unfold gridCols
        simpa using hr0

theorem astarLoop_closed_mono_fuel {grid : Grid} {rows cols endI : ℕ} :
    ∀ (j k : ℕ), j ≤ k → ∀ (st : AState), AWF (rows * cols) st → QueueInv st →
      ∀ i, (astarLoop grid rows cols endI j st).2.1.closed.getD i false = true →
        (astarLoop grid rows cols endI k st).2.1.closed.getD i false = true := by
  intro j
  induction j with
  | zero =>
    intro k _ st hwf hq i hcl
    cases ho : (astarIter grid rows cols endI st).2.2 with
    | some oc =>
      rw [astarLoop_eq_term ho] at hcl ⊢
      exact hcl
    | none =>
      rw [astarLoop_eq_cont_zero ho] at hcl
      exact (astarLoop_pres grid rows cols endI k st hwf hq).2.2.2 i hcl
  | succ j ih =>
    intro k hk st hwf hq i hcl
    cases ho : (astarIter grid rows cols endI st).2.2 with
    | some oc =>
      rw [astarLoop_eq_term ho] at hcl ⊢
      exact hcl
    | none =>
      obtain ⟨k', rfl⟩ : ∃ k', k = k' + 1 := ⟨k - 1, by omega⟩
      rw [astarLoop_eq_cont ho] at hcl ⊢
      obtain ⟨hw1, hq1, -, -, -⟩ := astarIter_pres grid endI hwf hq
      exact ih k' (by omega) _ hw1 hq1 i hcl

/-- C5: on a generated maze with an in-bounds start, once a stepped search
state has `closed[i]` set, no later state of the search has a smaller `g[i]`
(in fact `g[i]` is already the exact tree distance and never changes again). -/
theorem astar_closed_g_monotone (rows cols : ℤ) (ch : ℕ → ℕ) (grid : Grid)
    (p q : Cell) (hgen : generate_maze rows cols ch = .ok (grid, p, q))
    (s e : Cell) (hs : InB grid.length (gridCols grid) s)
    (j k i : ℕ) (hjk : j ≤ k)
    (hcl : (astarStateAt grid s e j).closed.getD i false = true) :
    (astarStateAt grid s e j).g.getD i 0 ≤ (astarStateAt grid s e k).g.getD i 0 := by
  obtain ⟨pm, hlen, hcols⟩ := generate_maze_pm hgen
  rw [← hlen, ← hcols] at pm
  have hc0 : 0 < gridCols grid := pm.cpos
  obtain ⟨sp, d, hT⟩ := perfect_SPTree pm hs
  obtain ⟨hwf0, hq0, -⟩ := astarInit_pres (gridCols grid) (flat (gridCols grid) e) (flat_lt hs)
  have inv0 := astarInit_TreeInv hT hs (flat (gridCols grid) e)
  unfold astarStateAt at hcl ⊢
  have invj := @astarLoop_TreeInv grid grid.length (gridCols grid)
    (flat (gridCols grid) e) s sp d hT hs hc0 j
    (astarInit (gridCols grid) (grid.length * gridCols grid) (flat (gridCols grid) s)
      (flat (gridCols grid) e)) hwf0 hq0 inv0
  have invk := @astarLoop_TreeInv grid grid.length (gridCols grid)
    (flat (gridCols grid) e) s sp d hT hs hc0 k
    (astarInit (gridCols grid) (grid.length * gridCols grid) (flat (gridCols grid) s)
      (flat (gridCols grid) e)) hwf0 hq0 inv0
  have hclk := astarLoop_closed_mono_fuel j k hjk
    (astarInit (gridCols grid) (grid.length * gridCols grid) (flat (gridCols grid) s)
      (flat (gridCols grid) e)) hwf0 hq0 i hcl
  obtain ⟨hwfj, -, -, -⟩ := astarLoop_pres grid grid.length (gridCols grid)
    (flat (gridCols grid) e) j
    (astarInit (gridCols grid) (grid.length * gridCols grid) (flat (gridCols grid) s)
      (flat (gridCols grid) e)) hwf0 hq0
  have hi : i < grid.length * gridCols grid := by
    by_contra hcon
    rw [List.getD_eq_default _ _ (by rw [hwfj.closedLen]; omega)] at hcl
    exact Bool.noConfusion hcl
  obtain ⟨v, hv, hfvc⟩ := flat_surj hc0 hi
  rw [← hfvc] at hcl hclk ⊢
  have hgj : (astarLoop grid grid.length (gridCols grid) (flat (gridCols grid) e) j
      (astarInit (gridCols grid) (grid.length * gridCols grid) (flat (gridCols grid) s)
        (flat (gridCols grid) e))).2.1.g.getD (flat (gridCols grid) v) 0 = d v := by
    have hfin := invj.closedFin v hv hcl
    rcases invj.gChar v hv with h1 | h1
    · exact absurd h1 hfin
    · exact h1
  have hgk : (astarLoop grid grid.length (gridCols grid) (flat (gridCols grid) e) k
      (astarInit (gridCols grid) (grid.length * gridCols grid) (flat (gridCols grid) s)
        (flat (gridCols grid) e))).2.1.g.getD (flat (gridCols grid) v) 0 = d v := by
    have hfin := invk.closedFin v hv hclk
    rcases invk.gChar v hv with h1 | h1
    · exact absurd h1 hfin
    · exact h1
  rw [hgj, hgk]

/-- Witness for `astar_closed_g_monotone`: on the generated 1×2 maze, the start
cell is closed after one loop iteration and its `g` does not decrease later. -/
theorem astar_closed_g_monotone_witness :
    generate_maze 1 2 (fun t => t * 7 + 3) = .ok ([[11, 7]], (0, 0), (0, 1)) ∧
    InB ([[11, 7]] : Grid).length (gridCols [[11, 7]]) (0, 0) ∧
    1 ≤ 2 ∧
    (astarStateAt [[11, 7]] (0, 0) (0, 1) 1).closed.getD 0 false = true ∧
    (astarStateAt [[11, 7]] (0, 0) (0, 1) 1).g.getD 0 0 ≤
      (astarStateAt [[11, 7]] (0, 0) (0, 1) 2).g.getD 0 0 :=
  ⟨by rfl, by decide, by decide, by rfl,
   astar_closed_g_monotone 1 2 (fun t => t * 7 + 3) [[11, 7]] (0, 0) (0, 1) (by rfl)
     (0, 0) (0, 1) (by decide) 1 2 0 (by decide) (by rfl)⟩

theorem astarIter_goal_gfin {grid : Grid} {rows cols endI : ℕ} {s : Cell}
    {sp : Cell → Option Cell} {d : Cell → ℕ} {st : AState}
    (inv : TreeInv rows cols s sp d st)
    (h : (astarIter grid rows cols endI st).2.2 = some Outcome.goal) :
    (astarIter grid rows cols endI st).2.1.g.getD endI 0 ≠ INF := by
  cases hp : popMin st.heap with
  | none =>
    rw [astarIter_eq_empty hp] at h
    simp at h
  | some pr =>
    obtain ⟨m, rest⟩ := pr
    obtain ⟨hmem, -, -⟩ := popMin_spec hp
    cases hc : st.closed.getD m.2.2 false with
    | true =>
      rw [astarIter_eq_stale hp hc] at h
      simp at h
    | false =>
      by_cases he : m.2.2 = endI
      · rw [astarIter_eq_goal hp hc he]
        dsimp only
        rw [← he]
        exact inv.heapFin m hmem
      · rw [astarIter_eq_expand hp hc he] at h
        simp at h

theorem astarLoop_goal_gfin {grid : Grid} {rows cols endI : ℕ} {s : Cell}
    {sp : Cell → Option Cell} {d : Cell → ℕ}
    (hT : SPTree grid rows cols s sp d) (hs : InB rows cols s) (hc0 : 0 < cols) :
    ∀ (fuel : ℕ) (st : AState), AWF (rows * cols) st → QueueInv st →
      TreeInv rows cols s sp d st →
      (astarLoop grid rows cols endI fuel st).2.2 = Outcome.goal →
      (astarLoop grid rows cols endI fuel st).2.1.g.getD endI 0 ≠ INF := by
  intro fuel
  induction fuel with
  | zero =>
    intro st hwf hq inv hgoal
    cases ho : (astarIter grid rows cols endI st).2.2 with
    | some oc =>
      rw [astarLoop_eq_term ho] at hgoal ⊢
      dsimp only at hgoal ⊢
      subst hgoal
      exact astarIter_goal_gfin inv ho
    | none =>
      rw [astarLoop_eq_cont_zero ho] at hgoal
      simp at hgoal
  | succ fuel ih =>
    intro st hwf hq inv hgoal
    cases ho : (astarIter grid rows cols endI st).2.2 with
    | some oc =>
      rw [astarLoop_eq_term ho] at hgoal ⊢
      dsimp only at hgoal ⊢
      subst hgoal
      exact astarIter_goal_gfin inv ho
    | none =>
      rw [astarLoop_eq_cont ho] at hgoal ⊢
      obtain ⟨hw1, hq1, -, -, -⟩ := astarIter_pres grid endI hwf hq
      exact ih _ hw1 hq1 (astarIter_TreeInv hT hs hc0 hwf inv) hgoal

theorem reconChain_tree {grid : Grid} {rows cols : ℕ} {s : Cell}
    {sp : Cell → Option Cell} {d : Cell → ℕ} {st : AState}
    (hT : SPTree grid rows cols s sp d) (inv : TreeInv rows cols s sp d st) :
    ∀ (fuel : ℕ) (v : Cell), InB rows cols v →
      st.g.getD (flat cols v) 0 ≠ INF → d v + 1 ≤ fuel →
      (reconChain st.prev fuel ((flat cols v : ℕ) : ℤ)).length = d v + 1 := by
  intro fuel
  induction fuel with
  | zero =>
    intro v hv hfin hle
    omega
  | succ fuel ih =>
    intro v hv hfin hle
    rw [reconChain, if_neg (by omega), Int.toNat_natCast]
    by_cases hvs : v = s
    · subst hvs
      rw [inv.prevs, reconChain_neg_one, hT.droot]
      rfl
    · obtain ⟨u, hu1, hu2, hu3⟩ := inv.prevChar v hv hvs hfin
      obtain ⟨u', hu1', huB, huE, hdv⟩ := hT.parent v hv hvs
      have huu : u' = u := Option.some.inj (hu1'.symm.trans hu1)
      subst huu
      have hufin : st.g.getD (flat cols u') 0 ≠ INF := inv.closedFin u' huB hu3
      rw [hu2, List.length_cons, ih u' huB hufin (by omega)]
      omega

/-- C1: on a maze produced by `generate_maze` with in-bounds endpoints, if the
search terminates by popping the goal, then the reconstructed path has
`g[end] + 1` cells (so its number of moves, length minus one, equals `g[end]`),
and `g[end]` is exactly the shortest-path distance from start to end over the
grid's open edges: some open walk from start to end has `g[end]` moves, and
every open walk from start to end has at least that many. -/
theorem astar_goal_cost (rows cols : ℤ) (ch : ℕ → ℕ) (grid : Grid) (p q : Cell)
    (hgen : generate_maze rows cols ch = .ok (grid, p, q))
    (s e : Cell) (hs : InB grid.length (gridCols grid) s)
    (he : InB grid.length (gridCols grid) e)
    (hgoal : (astar_steps grid s e).2.2 = Outcome.goal) :
    (reconstruct_path_idx (astar_steps grid s e).2.1.prev (flat (gridCols grid) e)
        (gridCols grid)).length =
      (astar_steps grid s e).2.1.g.getD (flat (gridCols grid) e) 0 + 1 ∧
    (∃ w : List Cell, OpenWalk grid grid.length (gridCols grid) w ∧
      w.head? = some s ∧ w.getLast? = some e ∧
      w.length = (astar_steps grid s e).2.1.g.getD (flat (gridCols grid) e) 0 + 1) ∧
    (∀ w : List Cell, OpenWalk grid grid.length (gridCols grid) w →
      w.head? = some s → w.getLast? = some e →
      (astar_steps grid s e).2.1.g.getD (flat (gridCols grid) e) 0 + 1 ≤ w.length) := by
  obtain ⟨pm, hlen, hcols⟩ := generate_maze_pm hgen
  rw [← hlen, ← hcols] at pm
  have hc0 : 0 < gridCols grid := pm.cpos
  obtain ⟨sp, d, hT⟩ := perfect_SPTree pm hs
  obtain ⟨hwf0, hq0, -⟩ := astarInit_pres (gridCols grid) (flat (gridCols grid) e) (flat_lt hs)
  have inv0 := astarInit_TreeInv hT hs (flat (gridCols grid) e)
  rw [astar_steps_eq] at hgoal ⊢
  dsimp only at hgoal ⊢
  have invF := @astarLoop_TreeInv grid grid.length (gridCols grid)
    (flat (gridCols grid) e) s sp d hT hs hc0 (grid.length * gridCols grid)
    (astarInit (gridCols grid) (grid.length * gridCols grid) (flat (gridCols grid) s)
      (flat (gridCols grid) e)) hwf0 hq0 inv0
  have hgfin := astarLoop_goal_gfin hT hs hc0 (grid.length * gridCols grid)
    (astarInit (gridCols grid) (grid.length * gridCols grid) (flat (gridCols grid) s)
      (flat (gridCols grid) e)) hwf0 hq0 inv0 hgoal
  obtain ⟨hwfF, -, -, -⟩ := astarLoop_pres grid grid.length (gridCols grid)
    (flat (gridCols grid) e) (grid.length * gridCols grid)
    (astarInit (gridCols grid) (grid.length * gridCols grid) (flat (gridCols grid) s)
      (flat (gridCols grid) e)) hwf0 hq0
  have hge : (astarLoop grid grid.length (gridCols grid) (flat (gridCols grid) e)
      (grid.length * gridCols grid)
      (astarInit (gridCols grid) (grid.length * gridCols grid) (flat (gridCols grid) s)
        (flat (gridCols grid) e))).2.1.g.getD (flat (gridCols grid) e) 0 = d e := by
    rcases invF.gChar e he with h1 | h1
    · exact absurd h1 hgfin
    · exact h1
  refine ⟨?_, ?_, ?_⟩
  · unfold reconstruct_path_idx
    rw [List.length_map, List.length_reverse]
    have hchain := reconChain_tree hT invF
      ((astarLoop grid grid.length (gridCols grid) (flat (gridCols grid) e)
        (grid.length * gridCols grid)
        (astarInit (gridCols grid) (grid.length * gridCols grid) (flat (gridCols grid) s)
          (flat (gridCols grid) e))).2.1.prev.length + 1) e he hgfin
      (by rw [hwfF.prevLen]; have := hT.dbound e he; omega)
    rw [hchain, hge]
  · obtain ⟨w, hw1, hw2, hw3, hw4⟩ := hT.reach e he
    exact ⟨w, hw1, hw2, hw3, by rw [hge, ← hw4]⟩
  · intro w hw hwh hwl
    rw [hge]
    exact hT.dmin e w he hw hwh hwl

/-- Witness for `astar_goal_cost`: the generated 1×2 maze, start `(0,0)`,
end `(0,1)`; the search pops the goal with `g[end] = 1` and the reconstructed
path has two cells. -/
theorem astar_goal_cost_witness :
    generate_maze 1 2 (fun t => t * 7 + 3) = .ok ([[11, 7]], (0, 0), (0, 1)) ∧
    InB ([[11, 7]] : Grid).length (gridCols [[11, 7]]) (0, 0) ∧
    InB ([[11, 7]] : Grid).length (gridCols [[11, 7]]) (0, 1) ∧
    (astar_steps [[11, 7]] (0, 0) (0, 1)).2.2 = Outcome.goal ∧
    ((reconstruct_path_idx (astar_steps [[11, 7]] (0, 0) (0, 1)).2.1.prev
        (flat (gridCols [[11, 7]]) (0, 1)) (gridCols [[11, 7]])).length =
      (astar_steps [[11, 7]] (0, 0) (0, 1)).2.1.g.getD
        (flat (gridCols [[11, 7]]) (0, 1)) 0 + 1 ∧
    (∃ w : List Cell, OpenWalk [[11, 7]] ([[11, 7]] : Grid).length (gridCols [[11, 7]]) w ∧
      w.head? = some (0, 0) ∧ w.getLast? = some (0, 1) ∧
      w.length = (astar_steps [[11, 7]] (0, 0) (0, 1)).2.1.g.getD
        (flat (gridCols [[11, 7]]) (0, 1)) 0 + 1) ∧
    (∀ w : List Cell, OpenWalk [[11, 7]] ([[11, 7]] : Grid).length (gridCols [[11, 7]]) w →
      w.head? = some (0, 0) → w.getLast? = some (0, 1) →
      (astar_steps [[11, 7]] (0, 0) (0, 1)).2.1.g.getD
        (flat (gridCols [[11, 7]]) (0, 1)) 0 + 1 ≤ w.length)) :=
  ⟨by rfl, by decide, by decide, by rfl,
   astar_goal_cost 1 2 (fun t => t * 7 + 3) [[11, 7]] (0, 0) (0, 1) (by rfl)
     (0, 0) (0, 1) (by decide) (by decide) (by rfl)⟩
